import Mathlib

/-! plife: a striped, multi-process Game of Life.

A shallow embedding of `life-client.c`, `life-server.c` and `life-worker.c`.

Conventions of the embedding.

* The C `int` quantities `M`, `N`, `K`, `width`, worker indices and array
  indices are natural numbers: along every modelled path they are
  non-negative (the client refuses `M`, `N`, `K` that are not positive) and
  far below `INT_MAX`.  Values that arrive from the controller unchecked (cell
  coordinates, the generation count) are integers.
* A `char` grid `char **` is a function `Nat → Nat → Char`; a loop that fills
  rows `0 .. M+1` and columns `0 .. N+1` touches exactly those indices.
* The System V shared segments and semaphores are named by keys.  The key
  `ftok(path, i)` is built from the file and the low 8 bits of `i`
  (`ftok_key`), so the workers `i` and `i + 256` attach the same segments and
  the same semaphores.  `Shm.left k` and `Shm.right k` are the segments with
  the keys `ftok("worker-left", k)` and `ftok("worker-right", k)`, `k < 256`.
* Buffers are bounded: a copy that would write outside the buffer has no
  defined result (`none`).  That holds for the text buffers
  `char [STRSIZE]` and for the global `message`, into which `msgrcv` copies
  (`msgrcv`, `rcv_server_message`).
* The functions of the worker (`worker_add`, `worker_start`, ...) and of the
  server (`server_add`, `server_clear`, ...) are embedded as they run on the
  globals they find, and `deliver` hands a command to a worker as the server
  sent it.  The receive that precedes them in the code is embedded apart
  (`worker_pass`, `server_pass`), with the size it is called with.
* The semaphores carry no data.  What they enforce during a generation, that
  a border is overwritten only after the neighbour has read it, is built into
  `server_next_generation` and proved of the interleaved runs of at most 256
  workers (`generation_interleaving`); with more, workers share semaphores
  (`shared_keys_break_handshake`).  Every other command is served by one
  worker at a time while the server waits for its acknowledgement.
-/

namespace PLife

/-! ## Partitioner (`life-client.c`, `life-server.c`) -/

/-- The body of the `do { ... } while (K > 0)` loop of `client_check_partition`,
    iterated: returns the final `K` and `flag`.  The loop is entered with
    `K ≥ 1`; it leaves with `K = 0` only after a decrement. -/
def check_partition_loop (N : Nat) : Nat → Bool → Nat × Bool
  | 0, flag => (0, flag)
  | K + 1, flag =>
    let width := if N % (K + 1) ≠ 0 then N / (K + 1) + 1 else N / (K + 1)
    if width * ((K + 1) - 1) ≤ N then (K + 1, flag)
    else check_partition_loop N K true

/-- The function `client_check_partition(N, K)`: the number of workers
    actually used (the diagnostics it prints are left out). -/
def client_check_partition (N K : Nat) : Nat :=
  if K > N then N
  else
    let r := check_partition_loop N K false
    if r.2 then (if r.1 > 0 then r.1 else N) else r.1

/-- The assignment `width = (N % K) ? N/K + 1 : N/K` of `server_init`. -/
def server_init_width (N K : Nat) : Nat :=
  if N % K ≠ 0 then N / K + 1 else N / K

/-- The field `message.prm2` set by `snd_worker_info(i)`: the stripe width told
    to worker `i`, `(i == K-1 && N % width) ? N % width : width`. -/
def snd_worker_info (N K width i : Nat) : Nat :=
  if i = K - 1 ∧ N % width ≠ 0 then N % width else width

/-- The stripe widths handed to workers `0 .. K-1`, in order. -/
def stripe_widths (N K : Nat) : List Nat :=
  (List.range K).map (snd_worker_info N K (server_init_width N K))

/-- The function `worker_define_partners(i)`: the pair
    `(id_collab_left, id_collab_right)` it assigns. -/
def worker_define_partners (K i : Nat) : Nat × Nat :=
  if K = 1 then (0, 0)
  else if i = 0 then (K - 1, i + 1)
  else if i = K - 1 then (i - 1, 0)
  else (i - 1, i + 1)

/-! ## Loops and arrays -/

/-- The loop `for (i = 0; i < n; i++) s = body i s`. -/
def for_loop {σ : Type} (body : Nat → σ → σ) : Nat → σ → σ
  | 0, s => s
  | n + 1, s => body n (for_loop body n s)

/-- The loop `for (i = 0; i < n; i++)` whose body may fail. -/
def for_loop_opt {σ : Type} (body : Nat → σ → Option σ) : Nat → σ → Option σ
  | 0, s => some s
  | n + 1, s => (for_loop_opt body n s).bind (body n)

/-- The assignment `b[i] = v` on a byte array. -/
def set1 (b : Nat → Char) (i : Nat) (v : Char) : Nat → Char :=
  fun a => if a = i then v else b a

/-- The assignment `g[i][j] = v` on a grid. -/
def set2 (g : Nat → Nat → Char) (i j : Nat) (v : Char) : Nat → Nat → Char :=
  fun a b => if a = i ∧ b = j then v else g a b

/-- The assignment `seg[s][i] = v` on segment `s` of a family of shared segments. -/
def set_seg (seg : Nat → Nat → Char) (s i : Nat) (v : Char) : Nat → Nat → Char :=
  fun t => if t = s then set1 (seg t) i v else seg t

/-- The byte `0`, the value of `calloc`ed memory and the string terminator. -/
def NUL : Char := Char.ofNat 0

/-- The constant `STRSIZE` of `life.h`: the size of `message.mtext` and of
    `msg` in `server_snap`. -/
def STRSIZE : Nat := 4096

/-! ## Worker (`life-worker.c`) -/

/-- The object that the key `ftok(path, i)` names: `ftok` uses the file and the
    low 8 bits of `i` only, so `i` and `i + 256` name the same segment and the
    same semaphore. -/
def ftok_key (i : Nat) : Nat := i % 256

/-- The shared segments: `left k` is the segment with the key
    `ftok("worker-left", k)`, `right k` the one with the key
    `ftok("worker-right", k)`. -/
structure Shm where
  left : Nat → Nat → Char
  right : Nat → Nat → Char

/-- The globals of one worker process; `N` is the width of its stripe. -/
structure Worker where
  M : Nat
  N : Nat
  K : Nat
  id_worker : Nat
  id_collab_left : Nat
  id_collab_right : Nat
  map_state_curr : Nat → Nat → Char
  map_state_prev : Nat → Nat → Char

/-- The segment `shmad[i]` of worker `w`:
    0 the right border of its left neighbour, 1 its own left border,
    2 its own right border, 3 the left border of its right neighbour. -/
def shmad (w : Worker) (shm : Shm) (i : Nat) : Nat → Char :=
  match i with
  | 0 => shm.right (ftok_key w.id_collab_left)
  | 1 => shm.left (ftok_key w.id_worker)
  | 2 => shm.right (ftok_key w.id_worker)
  | _ => shm.left (ftok_key w.id_collab_right)

/-- The assignment `shmad[i][k] = v`. -/
def shmad_set (w : Worker) (shm : Shm) (i k : Nat) (v : Char) : Shm :=
  match i with
  | 0 => { shm with right := set_seg shm.right (ftok_key w.id_collab_left) k v }
  | 1 => { shm with left := set_seg shm.left (ftok_key w.id_worker) k v }
  | 2 => { shm with right := set_seg shm.right (ftok_key w.id_worker) k v }
  | _ => { shm with left := set_seg shm.left (ftok_key w.id_collab_right) k v }

/-- The function `worker_init` after `rcv_worker_info` delivered `(id, M, N)`:
    partners, `memset(shmad[i], '.', M)` for the four segments, `calloc` of both
    grids, `map_state_curr` filled with `'.'`. -/
def worker_init (K id M N : Nat) (shm : Shm) : Worker × Shm :=
  let p := worker_define_partners K id
  let w0 : Worker :=
    { M := M, N := N, K := K, id_worker := id,
      id_collab_left := p.1, id_collab_right := p.2,
      map_state_curr := fun _ _ => NUL, map_state_prev := fun _ _ => NUL }
  let shm1 := for_loop (fun i s => for_loop (fun k s => shmad_set w0 s i k '.') M s) 4 shm
  let curr := for_loop (fun i g => for_loop (fun j g => set2 g i j '.') (N + 2) g) (M + 2)
    w0.map_state_curr
  ({ w0 with map_state_curr := curr }, shm1)

/-- The function `worker_add(x, y)`. -/
def worker_add (w : Worker) (shm : Shm) (x y : Nat) : Worker × Shm :=
  let w1 := { w with map_state_curr := set2 w.map_state_curr x y '*' }
  let shm1 := if y = 1 then shmad_set w shm 1 (x - 1) '*' else shm
  let shm2 := if y = w.N then shmad_set w shm1 2 (x - 1) '*' else shm1
  (w1, shm2)

/-- The function `worker_del(x, y)`. -/
def worker_del (w : Worker) (shm : Shm) (x y : Nat) : Worker × Shm :=
  let w1 := { w with map_state_curr := set2 w.map_state_curr x y '.' }
  let shm1 := if y = 1 then shmad_set w shm 1 (x - 1) '.' else shm
  let shm2 := if y = w.N then shmad_set w shm1 2 (x - 1) '.' else shm1
  (w1, shm2)

/-- The common body of `worker_add` and `worker_del`, which differ in the
    character `v` they write. -/
def worker_set (w : Worker) (shm : Shm) (x y : Nat) (v : Char) : Worker × Shm :=
  let w1 := { w with map_state_curr := set2 w.map_state_curr x y v }
  let shm1 := if y = 1 then shmad_set w shm 1 (x - 1) v else shm
  let shm2 := if y = w.N then shmad_set w shm1 2 (x - 1) v else shm1
  (w1, shm2)

/-- The function `worker_clear()`. -/
def worker_clear (w : Worker) (shm : Shm) : Worker × Shm :=
  let curr := for_loop (fun i g => for_loop (fun j g => set2 g i j '.') (w.N + 2) g) (w.M + 2)
    w.map_state_curr
  let shm1 := for_loop (fun i s => shmad_set w (shmad_set w s 2 i '.') 1 i '.') w.M shm
  ({ w with map_state_curr := curr }, shm1)

/-- The function `worker_count_neigbours(x, y)`, for `x, y ≥ 1`: the loops run
    over `i = x-1 .. x+1` and `j = y-1 .. y+1`. -/
def worker_count_neigbours (w : Worker) (x y : Nat) : Nat :=
  for_loop (fun di number =>
    for_loop (fun dj number =>
      let i := x - 1 + di
      let j := y - 1 + dj
      if ¬(i = x ∧ j = y) ∧ w.map_state_prev i j = '*' then number + 1 else number)
      3 number) 3 0

/-- The row of the stripe shown by row `a` of the bordered grid after the wrap
    of `worker_update_map`: row `0` shows row `M`, row `M+1` shows row `1`. -/
def wrap_row (M a : Nat) : Nat :=
  if a = 0 then M else if a = M + 1 then 1 else a

/-- The function `worker_update_map()`: copy `map_state_curr` into
    `map_state_prev`, read the two ghost columns from `shmad[0]` and `shmad[3]`,
    wrap the rows.  (The two `sem_up` calls release the segments just read; they
    change no data.) -/
def worker_update_map (w : Worker) (shm : Shm) : Worker :=
  let p1 := for_loop (fun i g => for_loop (fun j g => set2 g i j (w.map_state_curr i j))
    (w.N + 2) g) (w.M + 2) w.map_state_prev
  let p2 := for_loop (fun i g =>
    set2 (set2 g (i + 1) 0 (shmad w shm 0 i)) (i + 1) (w.N + 1) (shmad w shm 3 i)) w.M p1
  let p3 := for_loop (fun j g => set2 g 0 j (g w.M j)) (w.N + 2) p2
  let p4 := for_loop (fun j g => set2 g (w.M + 1) j (g 1 j)) (w.N + 2) p3
  { w with map_state_prev := p4 }

/-- The function `worker_update_memory()`: publish the first and the last
    column.  (The two `sem_down` calls wait until both neighbours have read the
    old content.) -/
def worker_update_memory (w : Worker) (shm : Shm) : Shm :=
  for_loop (fun i s =>
    shmad_set w (shmad_set w s 1 i (w.map_state_curr (i + 1) 1)) 2 i
      (w.map_state_curr (i + 1) w.N)) w.M shm

/-- The double loop of `worker_start()` that applies the rule of the game. -/
def worker_apply_rule (w : Worker) : Worker :=
  { w with map_state_curr :=
      for_loop (fun i g => for_loop (fun j g =>
        let number := worker_count_neigbours w (i + 1) (j + 1)
        if w.map_state_prev (i + 1) (j + 1) = '.' then
          (if number = 3 then set2 g (i + 1) (j + 1) '*' else g)
        else
          (if ¬(number = 2 ∨ number = 3) then set2 g (i + 1) (j + 1) '.' else g))
        w.N g) w.M w.map_state_curr }

/-- The function `worker_start()` run by one worker from beginning to end. -/
def worker_start (w : Worker) (shm : Shm) : Worker × Shm :=
  let w1 := worker_apply_rule (worker_update_map w shm)
  (w1, worker_update_memory w1 shm)

/-- The reply of `worker_snap`: `prm1 = id_worker`, `prm2 = N`, and the text. -/
structure SnapMsg where
  prm1 : Nat
  prm2 : Nat
  mtext : Nat → Char

/-- The function `worker_snap(i)`: `memcpy(message.mtext,
    &map_state_curr[i][1], N)` and `message.mtext[N] = 0`, inside
    `char mtext[STRSIZE]`; `mtext` is what the text field held before. -/
def worker_snap (w : Worker) (i : Nat) (mtext : Nat → Char) : Option SnapMsg :=
  if w.N < STRSIZE then
    some { prm1 := w.id_worker, prm2 := w.N,
           mtext := set1 (fun k => if k < w.N then w.map_state_curr i (1 + k) else mtext k)
             w.N NUL }
  else none

/-! ## Server (`life-server.c`) -/

/-- An operation sent to a worker, with the parameters the worker reads:
    `O_ADD`, `O_DEL`, `O_CLEAR`, `O_START`, `O_SNAP`. -/
inductive WorkerOp where
  | add (x y : Nat)
  | del (x y : Nat)
  | clear
  | start
  | snap (j : Nat)
  deriving DecidableEq

/-- The first message a command sends back to the client. -/
inductive Reply where
  /-- The text `OK`. -/
  | ok
  /-- The text `ERROR: The cell is out of universe's borders.` -/
  | error_borders
  /-- The text `ERROR: The server is working now.` -/
  | error_working
  /-- The text `ERROR: The number of generation should be postive one.` -/
  | error_positive
  /-- The text `ERROR: The server is NOT working now.` -/
  | error_not_working
  deriving DecidableEq

/-- The globals of the server together with the worker processes and the
    shared segments. -/
structure World where
  M : Nat
  N : Nat
  K : Nat
  width : Nat
  pid_worker_map : Nat → Nat
  steps : Int
  worker : Nat → Worker
  shm : Shm

/-- What a command of the server did: its reply, the messages it sent to
    workers (recipient index and operation), and the state it left. -/
structure Outcome where
  reply : Reply
  sent : List (Nat × WorkerOp)
  world : World

/-- Replace worker `i` and the shared segments. -/
def World.put (w : World) (i : Nat) (r : Worker × Shm) : World :=
  { w with worker := fun k => if k = i then r.1 else w.worker k, shm := r.2 }

/-- The `switch` of the worker's `main` for the operations that change data,
    run by worker `i` on its own (`O_SNAP` changes nothing), on the globals as
    they were before the command came.  The receive that brings the command is
    `rcv_server_message`; the two together are `worker_main_pass`. -/
def deliver (w : World) (i : Nat) : WorkerOp → World
  | .add x y => w.put i (worker_add (w.worker i) w.shm x y)
  | .del x y => w.put i (worker_del (w.worker i) w.shm x y)
  | .clear => w.put i (worker_clear (w.worker i) w.shm)
  | .start => w.put i (worker_start (w.worker i) w.shm)
  | .snap _ => w

/-- A process that was never started. -/
def no_worker : Worker :=
  { M := 0, N := 0, K := 0, id_worker := 0, id_collab_left := 0, id_collab_right := 0,
    map_state_curr := fun _ _ => NUL, map_state_prev := fun _ _ => NUL }

/-- The loop of `server_init` that fills `pid_worker_map`:
    `for (j = i*width; j < (i+1)*width && j < N; j++) pid_worker_map[j] = i`
    for every `i < K`, on `calloc`ed memory. -/
def server_init_map (N K width : Nat) : Nat → Nat :=
  for_loop (fun i m =>
    for_loop (fun d m => fun j => if j = i * width + d then i else m j)
      (min ((i + 1) * width) N - i * width) m) K (fun _ => 0)

/-- The function `server_init` for the arguments `M N K` of the server: the
    width, the column map, fresh zero-filled segments, and the `K` workers, each
    told `snd_worker_info(i)` and run through `worker_init`. -/
def server_init (M N K : Nat) : World :=
  let width := server_init_width N K
  let w0 : World :=
    { M := M, N := N, K := K, width := width,
      pid_worker_map := server_init_map N K width,
      steps := 0,
      worker := fun _ => no_worker,
      shm := { left := fun _ _ => NUL, right := fun _ _ => NUL } }
  for_loop (fun i w => w.put i (worker_init K i M (snd_worker_info N K width i) w.shm)) K w0

/-- The function `server_add(x, y, c)`: `c` true adds the cell, `c` false
    deletes it. -/
def server_add (w : World) (x y : Int) (c : Bool) : Outcome :=
  if ¬(1 ≤ x ∧ x ≤ w.M ∧ 1 ≤ y ∧ y ≤ w.N) then
    { reply := .error_borders, sent := [], world := w }
  else
    let i := w.pid_worker_map (y - 1).toNat
    let prm1 := x.toNat
    let prm2 := (y - 1).toNat % w.width + 1
    let op := if c then WorkerOp.add prm1 prm2 else WorkerOp.del prm1 prm2
    { reply := .ok, sent := [(i, op)], world := deliver w i op }

/-- The function `server_clear()`. -/
def server_clear (w : World) : Outcome :=
  if w.steps > 0 then { reply := .error_working, sent := [], world := w }
  else
    { reply := .ok,
      sent := (List.range w.K).map (fun i => (i, WorkerOp.clear)),
      world := for_loop (fun i w => deliver w i .clear) w.K w }

/-- The function `server_start()` with `message.prm1 = prm1`. -/
def server_start (w : World) (prm1 : Int) : Outcome :=
  if w.steps > 0 then { reply := .error_working, sent := [], world := w }
  else if prm1 < 1 then { reply := .error_positive, sent := [], world := w }
  else { reply := .ok, sent := [], world := { w with steps := prm1 } }

/-- The function `server_stop()`. -/
def server_stop (w : World) : Outcome :=
  if w.steps = 0 then { reply := .error_not_working, sent := [], world := w }
  else { reply := .ok, sent := [], world := { w with steps := 0 } }

/-- The function `server_next_generation()`: every worker runs `worker_start`.
    The handshake orders the runs: a worker publishes (`worker_update_memory`,
    after `sem_down`) only when both neighbours have read its old borders
    (`worker_update_map`, before `sem_up`), so every worker reads the borders of
    the state before the broadcast, and then every worker publishes. -/
def server_next_generation (w : World) : World :=
  let worker := fun i =>
    if i < w.K then worker_apply_rule (worker_update_map (w.worker i) w.shm) else w.worker i
  { w with worker := worker,
           shm := for_loop (fun i s => worker_update_memory (worker i) s) w.K w.shm }

/-- The C string stored in `buf`: the bytes before the first `0`, reading at
    most `fuel` bytes from index `k`. -/
def cstr (buf : Nat → Char) : Nat → Nat → List Char
  | 0, _ => []
  | fuel + 1, k => if buf k = NUL then [] else buf k :: cstr buf fuel (k + 1)

/-- One pass of the inner loop of `server_snap` for row `j` and worker `i`:
    ask the worker for its fragment (`worker_snap`), copy `len = prm2` bytes to
    `msg[offset ..]` with `offset = prm1 * width`, then `msg[N] = 0`, all inside
    `char msg[STRSIZE]`.  `mtext` is what the text field held before. -/
def server_snap_copy (w : World) (j : Nat) (mtext : Nat → Char) (i : Nat)
    (msg : Nat → Char) : Option (Nat → Char) :=
  (worker_snap (w.worker i) j mtext).bind (fun m =>
    let offset := m.prm1 * w.width
    let len := m.prm2
    if offset + len ≤ STRSIZE ∧ w.N < STRSIZE then
      some (set1 (fun k => if offset ≤ k ∧ k < offset + len then m.mtext (k - offset)
        else msg k) w.N NUL)
    else none)

/-- The inner loop of `server_snap` for row `j`: `for (i = 0; i < K; i++)`. -/
def server_snap_row (w : World) (j : Nat) (mtext : Nat → Char) (msg : Nat → Char) :
    Option (Nat → Char) :=
  for_loop_opt (server_snap_copy w j mtext) w.K msg

/-- One pass of the outer loop of `server_snap`: assemble row `j + 1` and send
    the C string in `msg` to the client. -/
def server_snap_line (w : World) (mtext : Nat → Char) (j : Nat)
    (st : (Nat → Char) × List (List Char)) : Option ((Nat → Char) × List (List Char)) :=
  (server_snap_row w (j + 1) mtext st.1).map (fun msg => (msg, st.2 ++ [cstr msg STRSIZE 0]))

/-- The function `server_snap()`: the `M` rows sent to the client after `OK`,
    in order.  `msg0` is the uninitialised content of `msg`. -/
def server_snap (w : World) (msg0 mtext : Nat → Char) : Option (List (List Char)) :=
  (for_loop_opt (server_snap_line w mtext) w.M (msg0, [])).map Prod.snd

/-! ## The rule of the game, as the specification words it -/

/-- The cell of the universe in row `r`, column `c` (both from 0): column `c`
    lies in the stripe of worker `c / width`, at local column `c % width + 1`. -/
def universe_cell (w : World) (r c : Nat) : Char :=
  (w.worker (c / w.width)).map_state_curr (r + 1) (c % w.width + 1)

/-- The number of live cells among the eight Moore neighbours of `(r, c)` on
    the `M × N` torus: indices are taken modulo `M` and modulo `N` (the offset
    `-1` is written `M - 1`, respectively `N - 1`). -/
def torus_neighbours (M N : Nat) (g : Nat → Nat → Char) (r c : Nat) : Nat :=
  ([(M - 1, N - 1), (M - 1, 0), (M - 1, 1), (0, N - 1), (0, 1), (1, N - 1), (1, 0),
    (1, 1)].filter (fun d => g ((r + d.1) % M) ((c + d.2) % N) = '*')).length

/-- The indicator of a decidable proposition. -/
def ind (p : Prop) [Decidable p] : Nat := if p then 1 else 0

/-- The indicator of a live cell. -/
def live (c : Char) : Nat := ind (c = '*')

/-- One step of the standard rule: a dead cell with exactly 3 live neighbours
    is born, a live cell with 2 or 3 live neighbours survives, every other
    cell is dead. -/
def conway_step (M N : Nat) (g : Nat → Nat → Char) (r c : Nat) : Char :=
  let n := torus_neighbours M N g r c
  if g r c = '*' then (if n = 2 ∨ n = 3 then '*' else '.')
  else (if n = 3 then '*' else '.')

/-! ## States of the system -/

/-- The static part of a state laid out by `server_init M N K`: the geometry
    held by the server and by each of the `K` workers. -/
structure Layout (M N K : Nat) (w : World) : Prop where
  M_pos : 1 ≤ M
  N_pos : 1 ≤ N
  K_pos : 1 ≤ K
  K_chk : server_init_width N K * (K - 1) ≤ N
  hM : w.M = M
  hN : w.N = N
  hK : w.K = K
  hwidth : w.width = server_init_width N K
  hmap : w.pid_worker_map = server_init_map N K (server_init_width N K)
  wM : ∀ i, i < K → (w.worker i).M = M
  wN : ∀ i, i < K → (w.worker i).N = snd_worker_info N K (server_init_width N K) i
  wid : ∀ i, i < K → (w.worker i).id_worker = i
  wleft : ∀ i, i < K → (w.worker i).id_collab_left = (worker_define_partners K i).1
  wright : ∀ i, i < K → (w.worker i).id_collab_right = (worker_define_partners K i).2

/-- Two worker records with the same geometry and the same neighbours. -/
def SameGeom (a b : Worker) : Prop :=
  a.M = b.M ∧ a.N = b.N ∧ a.id_worker = b.id_worker ∧
  a.id_collab_left = b.id_collab_left ∧ a.id_collab_right = b.id_collab_right

/-- Every boundary buffer equals the edge column of its owner: for every row
    `r` of `1 .. M`, index `r-1` of the left segment of worker `i` holds
    `map_state_curr[r][1]` and index `r-1` of its right segment holds
    `map_state_curr[r][N]`. -/
def BufInv (w : World) : Prop :=
  ∀ i, i < w.K → ∀ r, r < w.M →
    w.shm.left (ftok_key i) r = (w.worker i).map_state_curr (r + 1) 1 ∧
    w.shm.right (ftok_key i) r = (w.worker i).map_state_curr (r + 1) (w.worker i).N

/-- Every cell of every stripe is `'.'` or `'*'`. -/
def CellsOk (w : World) : Prop :=
  ∀ i, i < w.K → ∀ r c, 1 ≤ r → r ≤ w.M → 1 ≤ c → c ≤ (w.worker i).N →
    (w.worker i).map_state_curr r c = '.' ∨ (w.worker i).map_state_curr r c = '*'

/-- The states reached from `server_init M N K` by `add`, `del`, `clear` and
    generation broadcasts, when every command runs on the globals as they were
    before it came (`deliver`): the states the commands are written to reach.
    The receives of the code are embedded in `worker_main_pass` and
    `server_pass`. -/
inductive Reachable (M N K : Nat) : World → Prop where
  | init : Reachable M N K (server_init M N K)
  | add (w : World) (x y : Int) (c : Bool) :
      Reachable M N K w → Reachable M N K (server_add w x y c).world
  | clear (w : World) : Reachable M N K w → Reachable M N K (server_clear w).world
  | next (w : World) : Reachable M N K w → Reachable M N K (server_next_generation w)

/-- The row buffers are large enough: `N < STRSIZE`, and the fragment of the
    last worker, copied to offset `(K-1) * width`, ends inside `msg`. -/
def SnapFits (N K : Nat) : Prop :=
  N < STRSIZE ∧
  (K - 1) * server_init_width N K +
    snd_worker_info N K (server_init_width N K) (K - 1) ≤ STRSIZE

/-- The grid a snapshot is meant to show: `M` rows of `N` cells. -/
def universe_rows (w : World) : List (List Char) :=
  (List.range w.M).map (fun r => (List.range w.N).map (fun c => universe_cell w r c))

/-! ## Concrete states -/

/-- The universe `3 × 4` run with 3 workers, as `client_check_partition 4 3`
    allows, after `add 2 4`, `add 2 1`, `add 2 2`: a horizontal blinker lying
    across the seam between column 4 and column 1. -/
def ghost_demo : World :=
  (server_add (server_add (server_add (server_init 3 4 3) 2 4 true).world 2 1 true).world
    2 2 true).world

/-- The universe `1 × 514` run with 257 workers of width 2, a partition with
    no empty stripe, after `add 1 1`. -/
def keys_demo : World :=
  (server_add (server_init 1 514 257) 1 1 true).world

/-- The size of `long` on the systems the program is written for (LP64). -/
def SIZEOF_LONG : Nat := 8

/-- The size of `int`. -/
def SIZEOF_INT : Nat := 4

/-- The value of `sizeof(message)`: `struct msg_` holds `long mtype`, the three
    `int` fields `op`, `prm1`, `prm2`, and `char mtext[STRSIZE]`, and is padded
    to a multiple of the size of `long`. -/
def SIZEOF_MESSAGE : Nat :=
  (SIZEOF_LONG + 3 * SIZEOF_INT + STRSIZE + (SIZEOF_LONG - 1)) / SIZEOF_LONG * SIZEOF_LONG

/-- The call `msgrcv(msgid, &message, msgsz, type, flg)` that takes from the
    queue a message sent by `msgsnd(msgid, &message, msgsz, flg)`.  The size
    `msgsz` counts the bytes behind `mtype`: the kernel stores `mtype` and then
    the `msgsz` bytes of the message, `SIZEOF_LONG + msgsz` bytes from the start
    of `message`.  The result is what was sent, and `none` when the copy
    leaves `message`. -/
def msgrcv {α : Type} (msgsz : Nat) (sent : α) : Option α :=
  if SIZEOF_LONG + msgsz ≤ SIZEOF_MESSAGE then some sent else none

/-- The function `rcv_server_message` of the worker:
    `msgrcv(msgid, &message, sizeof(message), pid_worker, ...)`. -/
def rcv_server_message (sent : WorkerOp) : Option WorkerOp := msgrcv SIZEOF_MESSAGE sent

/-- The function `server_waiting_worker` of the server:
    `msgrcv(msgid, &message, sizeof(message), worker_being_ready, ...)`. -/
def server_waiting_worker {α : Type} (ack : α) : Option α := msgrcv SIZEOF_MESSAGE ack

/-- One pass of the loop of the worker's `main` as the code has it:
    `rcv_server_message(0)`, then the `switch`. -/
def worker_main_pass (w : World) (i : Nat) (op : WorkerOp) : Option World :=
  (rcv_server_message op).map (deliver w i)

/-- What the dispatcher does during a broadcast, one entry per system call
    that succeeds or fails to send. -/
inductive BcastEvent where
  /-- The call `snd_worker_message(i, 1)` returned `-1`. -/
  | send_failed (i : Nat)
  /-- The call `server_waiting_worker(1)` received an acknowledgement. -/
  | drained
  /-- The call `snd_worker_message(i, 1)` delivered the operation to worker `i`. -/
  | sent (i : Nat)
  /-- The call `server_waiting_worker(0)` received an acknowledgement. -/
  | waited
  deriving DecidableEq

/-- The loop `while (snd_worker_message(i, 1) == -1) { while
    (server_waiting_worker(1) != -1) counter++; }` for worker `i`.  The list
    holds, for every send that fails, the number of acknowledgements the inner
    loop drains before its receive fails; after the last of them the send
    succeeds.  The state is `counter` and the events so far. -/
def bcast_send (i : Nat) : List Nat → Nat × List BcastEvent → Nat × List BcastEvent
  | [], st => (st.1, st.2 ++ [BcastEvent.sent i])
  | d :: rest, st =>
    bcast_send i rest
      (st.1 + d, st.2 ++ [BcastEvent.send_failed i] ++ List.replicate d BcastEvent.drained)

/-- The loop `while (counter++ < K) server_waiting_worker(0);`, with `fuel`
    bounding the number of tests. -/
def bcast_wait (K : Nat) : Nat → Nat × List BcastEvent → Nat × List BcastEvent
  | 0, st => st
  | fuel + 1, st =>
    if st.1 < K then bcast_wait K fuel (st.1 + 1, st.2 ++ [BcastEvent.waited])
    else (st.1 + 1, st.2)

/-- The broadcast of `server_clear` and `server_next_generation`:
    `counter = 0`, the sends to workers `0 .. K-1` with their retries, then the
    blocking waits.  `fails i` is the pattern of failed sends to worker `i`. -/
def server_broadcast (K : Nat) (fails : Nat → List Nat) : Nat × List BcastEvent :=
  bcast_wait K (K + 1) (for_loop (fun i st => bcast_send i (fails i) st) K (0, []))

/-- The number of acknowledgements drained while retrying sends. -/
def drained_total (K : Nat) (fails : Nat → List Nat) : Nat :=
  ((List.range K).map (fun i => (fails i).sum)).sum

/-! ## The main loop of the server -/

/-- The boundary-buffer invariant of one worker: for every row `r` of `1 .. M`
    its own left segment holds `map_state_curr[r][1]` at index `r-1` and its own
    right segment holds `map_state_curr[r][N]` at index `r-1`. -/
def WorkerBufInv (w : Worker) (shm : Shm) : Prop :=
  ∀ r, r < w.M →
    shmad w shm 1 r = w.map_state_curr (r + 1) 1 ∧
    shmad w shm 2 r = w.map_state_curr (r + 1) w.N

/-! ## The handshake: workers as interleaved processes -/

/-- The first two loops of `worker_update_map()`, up to the first `sem_up`:
    copy `map_state_curr` into `map_state_prev` and read the two ghost columns
    from `shmad[0]` and `shmad[3]`. -/
def worker_read_map (w : Worker) (shm : Shm) : Worker :=
  let p1 := for_loop (fun i g => for_loop (fun j g => set2 g i j (w.map_state_curr i j))
    (w.N + 2) g) (w.M + 2) w.map_state_prev
  let p2 := for_loop (fun i g =>
    set2 (set2 g (i + 1) 0 (shmad w shm 0 i)) (i + 1) (w.N + 1) (shmad w shm 3 i)) w.M p1
  { w with map_state_prev := p2 }

/-- The two `memcpy` that end `worker_update_map()`, after the second
    `sem_up`: wrap the rows. -/
def worker_wrap_rows (w : Worker) : Worker :=
  let p3 := for_loop (fun j g => set2 g 0 j (g w.M j)) (w.N + 2) w.map_state_prev
  let p4 := for_loop (fun j g => set2 g (w.M + 1) j (g 1 j)) (w.N + 2) p3
  { w with map_state_prev := p4 }

/-- The steps a worker takes inside one operation, cut at every semaphore
    call. -/
inductive Action where
  /-- The first two loops of `worker_update_map()`. -/
  | read_map
  /-- The call `sem_up(i)`. -/
  | sem_up (i : Nat)
  /-- The call `sem_down(i)`. -/
  | sem_down (i : Nat)
  /-- The two `memcpy` that end `worker_update_map()`. -/
  | wrap_rows
  /-- The double loop of `worker_start()`. -/
  | apply_rule
  /-- The loop of `worker_update_memory()`. -/
  | publish
  /-- The assignment `map_state_curr[x][y] = v`. -/
  | set_cell (x y : Nat) (v : Char)
  /-- The assignment `shmad[i][k] = v`. -/
  | set_border (i k : Nat) (v : Char)
  /-- The two loops of `worker_clear()`. -/
  | clear_all
  /-- The call `worker_is_ready()`. -/
  | is_ready
  deriving DecidableEq

/-- The body of `worker_update_map()`. -/
def worker_update_map_actions : List Action :=
  [Action.read_map, Action.sem_up 0, Action.sem_up 3, Action.wrap_rows]

/-- The body of `worker_update_memory()`. -/
def worker_update_memory_actions : List Action :=
  [Action.sem_down 1, Action.sem_down 2, Action.publish]

/-- The body of `worker_start()`. -/
def worker_start_actions : List Action :=
  worker_update_map_actions ++ [Action.apply_rule] ++ worker_update_memory_actions ++
    [Action.is_ready]

/-- The body of `worker_add(x, y)` (`v = '*'`) and of `worker_del(x, y)`
    (`v = '.'`) in a worker whose stripe has width `N`. -/
def worker_set_actions (N x y : Nat) (v : Char) : List Action :=
  [Action.set_cell x y v] ++ (if y = 1 then [Action.set_border 1 (x - 1) v] else []) ++
    (if y = N then [Action.set_border 2 (x - 1) v] else []) ++ [Action.is_ready]

/-- The body of `worker_clear()`. -/
def worker_clear_actions : List Action := [Action.clear_all, Action.is_ready]

/-- The system while the workers run: the data, the semaphores (`sem_left k`
    is the one with the key `ftok("worker-left", k)`, `sem_right k` the one with
    the key `ftok("worker-right", k)`), for every worker the number of steps of
    its current operation it has completed, and the number of acknowledgements
    it has sent. -/
structure Sys where
  world : World
  sem_left : Nat → Nat
  sem_right : Nat → Nat
  pc : Nat → Nat
  acks : Nat → Nat

/-- The value of the semaphore `semid[k]` of worker `w`. -/
def semval (w : Worker) (s : Sys) (k : Nat) : Nat :=
  match k with
  | 0 => s.sem_right (ftok_key w.id_collab_left)
  | 1 => s.sem_left (ftok_key w.id_worker)
  | 2 => s.sem_right (ftok_key w.id_worker)
  | _ => s.sem_left (ftok_key w.id_collab_right)

/-- Set the semaphore `semid[k]` of worker `w` to `v`. -/
def semset (w : Worker) (s : Sys) (k : Nat) (v : Nat) : Sys :=
  match k with
  | 0 => { s with sem_right := Function.update s.sem_right (ftok_key w.id_collab_left) v }
  | 1 => { s with sem_left := Function.update s.sem_left (ftok_key w.id_worker) v }
  | 2 => { s with sem_right := Function.update s.sem_right (ftok_key w.id_worker) v }
  | _ => { s with sem_left := Function.update s.sem_left (ftok_key w.id_collab_right) v }

/-- One step of worker `i`; `none` when the step cannot be taken now:
    `sem_down` on a semaphore that is 0 blocks. -/
def worker_act (s : Sys) (i : Nat) : Action → Option Sys
  | .read_map =>
    some { s with
      world := s.world.put i (worker_read_map (s.world.worker i) s.world.shm, s.world.shm) }
  | .sem_up k =>
    some (semset (s.world.worker i) s k (semval (s.world.worker i) s k + 1))
  | .sem_down k =>
    if semval (s.world.worker i) s k = 0 then none
    else some (semset (s.world.worker i) s k (semval (s.world.worker i) s k - 1))
  | .wrap_rows =>
    some { s with world := s.world.put i (worker_wrap_rows (s.world.worker i), s.world.shm) }
  | .apply_rule =>
    some { s with world := s.world.put i (worker_apply_rule (s.world.worker i), s.world.shm) }
  | .publish =>
    some { s with
      world := s.world.put i
        (s.world.worker i, worker_update_memory (s.world.worker i) s.world.shm) }
  | .set_cell x y v =>
    some { s with
      world := s.world.put i ({ (s.world.worker i) with
        map_state_curr := set2 (s.world.worker i).map_state_curr x y v }, s.world.shm) }
  | .set_border k r v =>
    some { s with
      world := s.world.put i
        (s.world.worker i, shmad_set (s.world.worker i) s.world.shm k r v) }
  | .clear_all =>
    some { s with world := s.world.put i (worker_clear (s.world.worker i) s.world.shm) }
  | .is_ready => some { s with acks := Function.update s.acks i (s.acks i + 1) }

/-- Worker `i` runs a list of steps from beginning to end with nobody else
    running; `none` when it blocks. -/
def worker_run (i : Nat) : List Action → Sys → Option Sys
  | [], s => some s
  | a :: rest, s => (worker_act s i a).bind (worker_run i rest)

/-- The scheduler lets worker `i` run: it takes the next step of its
    operation `prog i`, unless it has finished or is blocked. -/
def sys_step (prog : Nat → List Action) (s : Sys) (i : Nat) : Sys :=
  match (prog i).get? (s.pc i) with
  | none => s
  | some a =>
    match worker_act s i a with
    | none => s
    | some t => { t with pc := Function.update t.pc i (s.pc i + 1) }

/-- An interleaving: the workers run in the order given by the schedule, one
    step at a time. -/
def sys_run (prog : Nat → List Action) (s : Sys) (sched : List Nat) : Sys :=
  sched.foldl (sys_step prog) s

/-- The operations of a generation broadcast: every worker `0 .. K-1` runs
    `worker_start()`. -/
def generation_prog (K : Nat) (i : Nat) : List Action :=
  if i < K then worker_start_actions else []

/-- The system when a broadcast begins: every semaphore is 0 (as `semget`
    creates it), no worker has taken a step or acknowledged. -/
def sys_start (w : World) : Sys :=
  { world := w, sem_left := fun _ => 0, sem_right := fun _ => 0, pc := fun _ => 0,
    acks := fun _ => 0 }

/-- The left neighbour of worker `i` on the ring. -/
def ring_left (K i : Nat) : Nat := (worker_define_partners K i).1

/-- The right neighbour of worker `i` on the ring. -/
def ring_right (K i : Nat) : Nat := (worker_define_partners K i).2

/-- The bookkeeping of the handshake during a generation broadcast.  Worker
    `i` has completed `pc i` of the 9 steps of `worker_start()`: it has released
    the right border of its left neighbour when `2 ≤ pc i`, the left border of
    its right neighbour when `3 ≤ pc i`, taken its own left semaphore when
    `6 ≤ pc i` and its own right semaphore when `7 ≤ pc i`.  With at most 256
    workers every worker has keys of its own, and every semaphore holds the
    releases of its consumer less the acquisitions of its owner. -/
structure HandshakeInv (K : Nat) (s : Sys) : Prop where
  keys : K ≤ 256
  wid : ∀ i, i < K → (s.world.worker i).id_worker = i
  wleft : ∀ i, i < K → (s.world.worker i).id_collab_left = ring_left K i
  wright : ∀ i, i < K → (s.world.worker i).id_collab_right = ring_right K i
  pc_le : ∀ i, s.pc i ≤ 9
  right_eq : ∀ j, j < K →
    s.sem_right j + (if 7 ≤ s.pc j then 1 else 0) = if 2 ≤ s.pc (ring_right K j) then 1 else 0
  left_eq : ∀ j, j < K →
    s.sem_left j + (if 6 ≤ s.pc j then 1 else 0) = if 3 ≤ s.pc (ring_left K j) then 1 else 0
  left_out : ∀ j, K ≤ j → s.sem_left j = 0
  right_out : ∀ j, K ≤ j → s.sem_right j = 0
  acks_eq : ∀ i, s.acks i = if s.pc i = 9 then 1 else 0

/-- The record of worker `i` when it has completed `p` steps of
    `worker_start()` in a broadcast that began in the state `w`, as it is if the
    worker read the boundary buffers of `w`. -/
def worker_stage (w : World) (i p : Nat) : Worker :=
  if p = 0 then w.worker i
  else if p ≤ 3 then worker_read_map (w.worker i) w.shm
  else if p = 4 then worker_update_map (w.worker i) w.shm
  else worker_apply_rule (worker_update_map (w.worker i) w.shm)

/-- The data during a generation broadcast that began in the state `w`: every
    worker is at the stage its progress tells, and a boundary buffer holds the
    new edge column once its owner has published and the old content of `w`
    before. -/
structure DataInv (K : Nat) (w : World) (s : Sys) : Prop where
  fields : s.world = { w with worker := s.world.worker, shm := s.world.shm }
  worker_in : ∀ i, i < K → s.world.worker i = worker_stage w i (s.pc i)
  worker_out : ∀ i, K ≤ i → s.world.worker i = w.worker i
  left : ∀ u r, s.world.shm.left u r =
    if u < K ∧ 8 ≤ s.pc u ∧ r < (w.worker u).M then
      (worker_stage w u 9).map_state_curr (r + 1) 1
    else w.shm.left u r
  right : ∀ u r, s.world.shm.right u r =
    if u < K ∧ 8 ≤ s.pc u ∧ r < (w.worker u).M then
      (worker_stage w u 9).map_state_curr (r + 1) (worker_stage w u 9).N
    else w.shm.right u r

/-- The number of steps of `worker_start()` the workers `0 .. K-1` have still
    to take. -/
def remaining (K : Nat) (pc : Nat → Nat) : Nat :=
  ((List.range K).map (fun i => 9 - pc i)).sum

/-- The system during a generation broadcast that began in the state `w`,
    after the workers ran in the order `sched`. -/
def generation_state (K : Nat) (w : World) (sched : List Nat) : Sys :=
  sys_run (generation_prog K) (sys_start w) sched

/-! ## Loops, pointwise -/

theorem for_loop_row_spec (body : Nat → (Nat → Nat → Char) → (Nat → Nat → Char))
    (r o : Nat) (val : Nat → Char → Char)
    (hbody : ∀ j g a b, body j g a b = if a = r ∧ b = j + o then val j (g a b) else g a b)
    (n : Nat) (g0 : Nat → Nat → Char) (a b : Nat) :
    for_loop body n g0 a b =
      if a = r ∧ o ≤ b ∧ b < n + o then val (b - o) (g0 a b) else g0 a b := by
  induction n with
  | zero =>
    rw [if_neg (by omega)]
    rfl
  | succ n ih =>
    simp only [for_loop]
    rw [hbody, ih]
    by_cases h1 : a = r ∧ b = n + o
    · rw [if_pos h1, if_neg (by omega), if_pos (by omega)]
      have h4 : b - o = n := by omega
      rw [h4]
    · rw [if_neg h1]
      by_cases h2 : a = r ∧ o ≤ b ∧ b < n + o
      · rw [if_pos h2, if_pos (by omega)]
      · rw [if_neg h2, if_neg (by omega)]

theorem for_loop2_spec (body : Nat → Nat → (Nat → Nat → Char) → (Nat → Nat → Char))
    (o1 o2 : Nat) (val : Nat → Nat → Char → Char)
    (hbody : ∀ i j g a b,
      body i j g a b = if a = i + o1 ∧ b = j + o2 then val i j (g a b) else g a b)
    (m n : Nat) (g0 : Nat → Nat → Char) (a b : Nat) :
    for_loop (fun i g => for_loop (fun j g => body i j g) n g) m g0 a b =
      if (o1 ≤ a ∧ a < m + o1) ∧ o2 ≤ b ∧ b < n + o2 then val (a - o1) (b - o2) (g0 a b)
      else g0 a b := by
  induction m with
  | zero =>
    rw [if_neg (by omega)]
    rfl
  | succ m ih =>
    simp only [for_loop]
    rw [for_loop_row_spec (fun j g => body m j g) (m + o1) o2 (val m) (hbody m) n _ a b, ih]
    by_cases h1 : a = m + o1 ∧ o2 ≤ b ∧ b < n + o2
    · rw [if_pos h1, if_neg (by omega), if_pos (by omega)]
      have h4 : a - o1 = m := by omega
      rw [h4]
    · rw [if_neg h1]
      by_cases h2 : (o1 ≤ a ∧ a < m + o1) ∧ o2 ≤ b ∧ b < n + o2
      · rw [if_pos h2, if_pos (by omega)]
      · rw [if_neg h2, if_neg (by omega)]

theorem for_loop1_spec (body : Nat → (Nat → Char) → (Nat → Char)) (val : Nat → Char → Char)
    (hbody : ∀ i b a, body i b a = if a = i then val i (b a) else b a)
    (n : Nat) (b0 : Nat → Char) (a : Nat) :
    for_loop body n b0 a = if a < n then val a (b0 a) else b0 a := by
  induction n with
  | zero =>
    rw [if_neg (by omega)]
    rfl
  | succ n ih =>
    simp only [for_loop]
    rw [hbody, ih]
    by_cases h1 : a = n
    · rw [if_pos h1, if_neg (by omega), if_pos (by omega), h1]
    · rw [if_neg h1]
      by_cases h2 : a < n
      · rw [if_pos h2, if_pos (by omega)]
      · rw [if_neg h2, if_neg (by omega)]

theorem for_loop_fill (f : Nat → Nat → Char) (m n : Nat) (g0 : Nat → Nat → Char) (a b : Nat) :
    for_loop (fun i g => for_loop (fun j g => set2 g i j (f i j)) n g) m g0 a b =
      if a < m ∧ b < n then f a b else g0 a b := by
  rw [for_loop2_spec (fun i j g => set2 g i j (f i j)) 0 0 (fun i j _ => f i j)
    (fun i j g a b => by simp [set2]) m n g0 a b]
  by_cases h : a < m ∧ b < n
  · rw [if_pos h, if_pos (by omega)]
    rfl
  · rw [if_neg h, if_neg (by omega)]

theorem for_loop_shm_left (body : Nat → Shm → Shm) (t : Nat) (v : Nat → Char)
    (hbody : ∀ i s, (body i s).left = set_seg s.left t i (v i))
    (n : Nat) (s : Shm) (u k : Nat) :
    (for_loop body n s).left u k = if u = t ∧ k < n then v k else s.left u k := by
  induction n with
  | zero =>
    rw [if_neg (by omega)]
    rfl
  | succ n ih =>
    simp only [for_loop]
    rw [hbody]
    unfold set_seg set1
    by_cases h1 : u = t
    · rw [if_pos h1]
      by_cases h2 : k = n
      · rw [if_pos h2, if_pos (by omega), h2]
      · rw [if_neg h2, ih]
        by_cases h3 : k < n
        · rw [if_pos (by omega), if_pos (by omega)]
        · rw [if_neg (by omega), if_neg (by omega)]
    · rw [if_neg h1, ih, if_neg (by tauto), if_neg (by tauto)]

theorem for_loop_shm_right (body : Nat → Shm → Shm) (t : Nat) (v : Nat → Char)
    (hbody : ∀ i s, (body i s).right = set_seg s.right t i (v i))
    (n : Nat) (s : Shm) (u k : Nat) :
    (for_loop body n s).right u k = if u = t ∧ k < n then v k else s.right u k := by
  induction n with
  | zero =>
    rw [if_neg (by omega)]
    rfl
  | succ n ih =>
    simp only [for_loop]
    rw [hbody]
    unfold set_seg set1
    by_cases h1 : u = t
    · rw [if_pos h1]
      by_cases h2 : k = n
      · rw [if_pos h2, if_pos (by omega), h2]
      · rw [if_neg h2, ih]
        by_cases h3 : k < n
        · rw [if_pos (by omega), if_pos (by omega)]
        · rw [if_neg (by omega), if_neg (by omega)]
    · rw [if_neg h1, ih, if_neg (by tauto), if_neg (by tauto)]

theorem for_loop_shm_left_same (body : Nat → Shm → Shm)
    (hbody : ∀ i s, (body i s).left = s.left) (n : Nat) (s : Shm) :
    (for_loop body n s).left = s.left := by
  induction n with
  | zero => rfl
  | succ n ih =>
    simp only [for_loop]
    rw [hbody, ih]

theorem for_loop_shm_right_same (body : Nat → Shm → Shm)
    (hbody : ∀ i s, (body i s).right = s.right) (n : Nat) (s : Shm) :
    (for_loop body n s).right = s.right := by
  induction n with
  | zero => rfl
  | succ n ih =>
    simp only [for_loop]
    rw [hbody, ih]

/-! ## The worker operations, pointwise -/

theorem worker_clear_curr (w : Worker) (shm : Shm) (a b : Nat) :
    (worker_clear w shm).1.map_state_curr a b =
      if a < w.M + 2 ∧ b < w.N + 2 then '.' else w.map_state_curr a b := by
  unfold worker_clear
  exact for_loop_fill (fun _ _ => '.') _ _ _ a b

theorem worker_clear_left (w : Worker) (shm : Shm) (u k : Nat) :
    (worker_clear w shm).2.left u k =
      if u = ftok_key w.id_worker ∧ k < w.M then '.' else shm.left u k := by
  unfold worker_clear
  exact for_loop_shm_left _ (ftok_key w.id_worker) (fun _ => '.') (fun i s => rfl) w.M shm u k

theorem worker_clear_right (w : Worker) (shm : Shm) (u k : Nat) :
    (worker_clear w shm).2.right u k =
      if u = ftok_key w.id_worker ∧ k < w.M then '.' else shm.right u k := by
  unfold worker_clear
  exact for_loop_shm_right _ (ftok_key w.id_worker) (fun _ => '.') (fun i s => rfl) w.M shm u k

theorem worker_update_memory_left (w : Worker) (shm : Shm) (u k : Nat) :
    (worker_update_memory w shm).left u k =
      if u = ftok_key w.id_worker ∧ k < w.M then w.map_state_curr (k + 1) 1 else shm.left u k := by
  unfold worker_update_memory
  exact for_loop_shm_left _ (ftok_key w.id_worker) (fun k => w.map_state_curr (k + 1) 1)
    (fun i s => rfl) w.M shm u k

theorem worker_update_memory_right (w : Worker) (shm : Shm) (u k : Nat) :
    (worker_update_memory w shm).right u k =
      if u = ftok_key w.id_worker ∧ k < w.M then w.map_state_curr (k + 1) w.N else shm.right u k := by
  unfold worker_update_memory
  exact for_loop_shm_right _ (ftok_key w.id_worker) (fun k => w.map_state_curr (k + 1) w.N)
    (fun i s => rfl) w.M shm u k

theorem set2_apply (g : Nat → Nat → Char) (i j : Nat) (v : Char) (a b : Nat) :
    set2 g i j v a b = if a = i ∧ b = j then v else g a b := rfl

theorem for_loop_row_copy (r s : Nat) (n : Nat) (g0 : Nat → Nat → Char)
    (a b : Nat) :
    for_loop (fun j g => set2 g r j (g s j)) n g0 a b =
      if a = r ∧ b < n then g0 s b else g0 a b := by
  induction n generalizing a b with
  | zero =>
    rw [if_neg (by omega)]
    rfl
  | succ n ih =>
    simp only [for_loop]
    rw [set2_apply]
    by_cases h1 : a = r ∧ b = n
    · rw [if_pos h1, if_pos (by omega), ih, if_neg (by omega), h1.2]
    · rw [if_neg h1, ih]
      by_cases h2 : a = r ∧ b < n
      · rw [if_pos h2, if_pos (by omega)]
      · rw [if_neg h2, if_neg (by omega)]

theorem for_loop_ghost (c2 : Nat) (hc : c2 ≠ 0) (v1 v2 : Nat → Char) (n : Nat)
    (g0 : Nat → Nat → Char) (a b : Nat) :
    for_loop (fun i g => set2 (set2 g (i + 1) 0 (v1 i)) (i + 1) c2 (v2 i)) n g0 a b =
      if (1 ≤ a ∧ a ≤ n) ∧ b = 0 then v1 (a - 1)
      else if (1 ≤ a ∧ a ≤ n) ∧ b = c2 then v2 (a - 1) else g0 a b := by
  induction n with
  | zero =>
    rw [if_neg (by omega), if_neg (by omega)]
    rfl
  | succ n ih =>
    simp only [for_loop]
    rw [set2_apply, set2_apply, ih]
    split_ifs <;> first | rfl | (exfalso; omega) | (congr 1; omega)

theorem worker_update_map_prev (w : Worker) (shm : Shm) (hM : 1 ≤ w.M) (a b : Nat)
    (ha : a ≤ w.M + 1) (hb : b ≤ w.N + 1) :
    (worker_update_map w shm).map_state_prev a b =
      if b = 0 then shmad w shm 0 (wrap_row w.M a - 1)
      else if b = w.N + 1 then shmad w shm 3 (wrap_row w.M a - 1)
      else w.map_state_curr (wrap_row w.M a) b := by
  unfold worker_update_map
  simp only
  have key : ∀ a b, 1 ≤ a → a ≤ w.M → b ≤ w.N + 1 →
      for_loop (fun i g =>
        set2 (set2 g (i + 1) 0 (shmad w shm 0 i)) (i + 1) (w.N + 1) (shmad w shm 3 i)) w.M
        (for_loop (fun i g => for_loop (fun j g => set2 g i j (w.map_state_curr i j))
          (w.N + 2) g) (w.M + 2) w.map_state_prev) a b =
      if b = 0 then shmad w shm 0 (a - 1)
      else if b = w.N + 1 then shmad w shm 3 (a - 1)
      else w.map_state_curr a b := by
    intro a b ha1 ha2 hb
    rw [for_loop_ghost (w.N + 1) (by omega)]
    by_cases h0 : b = 0
    · rw [if_pos (by omega), if_pos h0]
    · rw [if_neg (by omega), if_neg h0]
      by_cases h1 : b = w.N + 1
      · rw [if_pos (by omega), if_pos h1]
      · rw [if_neg (by omega), if_neg h1, for_loop_fill, if_pos (by omega)]
  rw [for_loop_row_copy (w.M + 1) 1]
  by_cases hA : a = w.M + 1
  · have hw : wrap_row w.M a = 1 := by
      unfold wrap_row
      rw [if_neg (by omega), if_pos hA]
    rw [if_pos (by omega), for_loop_row_copy 0 w.M, if_neg (by omega),
      key 1 b (by omega) hM hb, hw]
  · rw [if_neg (by omega), for_loop_row_copy 0 w.M]
    by_cases hZ : a = 0
    · have hw : wrap_row w.M a = w.M := by
        unfold wrap_row
        rw [if_pos hZ]
      rw [if_pos (by omega), key w.M b hM (le_refl _) hb, hw]
    · have hw : wrap_row w.M a = a := by
        unfold wrap_row
        rw [if_neg hZ, if_neg hA]
      rw [if_neg (by omega), key a b (by omega) (by omega) hb, hw]

theorem worker_apply_rule_curr (w : Worker) (a b : Nat) :
    (worker_apply_rule w).map_state_curr a b =
      if (1 ≤ a ∧ a < w.M + 1) ∧ 1 ≤ b ∧ b < w.N + 1 then
        (if w.map_state_prev a b = '.' then
          (if worker_count_neigbours w a b = 3 then '*' else w.map_state_curr a b)
        else
          (if ¬(worker_count_neigbours w a b = 2 ∨ worker_count_neigbours w a b = 3) then '.'
           else w.map_state_curr a b))
      else w.map_state_curr a b := by
  unfold worker_apply_rule
  simp only
  rw [for_loop2_spec (fun i j g =>
      if w.map_state_prev (i + 1) (j + 1) = '.' then
        (if worker_count_neigbours w (i + 1) (j + 1) = 3 then set2 g (i + 1) (j + 1) '*' else g)
      else
        (if ¬(worker_count_neigbours w (i + 1) (j + 1) = 2 ∨
            worker_count_neigbours w (i + 1) (j + 1) = 3) then set2 g (i + 1) (j + 1) '.'
         else g)) 1 1
    (fun i j c =>
      if w.map_state_prev (i + 1) (j + 1) = '.' then
        (if worker_count_neigbours w (i + 1) (j + 1) = 3 then '*' else c)
      else
        (if ¬(worker_count_neigbours w (i + 1) (j + 1) = 2 ∨
            worker_count_neigbours w (i + 1) (j + 1) = 3) then '.' else c))
    (by
      intro i j g a b
      simp only []
      by_cases h : a = i + 1 ∧ b = j + 1
      · rw [if_pos h]
        split_ifs <;> simp [set2_apply, h]
      · rw [if_neg h]
        split_ifs <;> simp [set2_apply, h])]
  by_cases h : (1 ≤ a ∧ a < w.M + 1) ∧ 1 ≤ b ∧ b < w.N + 1
  · rw [if_pos h, if_pos h]
    have e1 : a - 1 + 1 = a := by omega
    have e2 : b - 1 + 1 = b := by omega
    simp only [e1, e2]
  · rw [if_neg h, if_neg h]

theorem ite_succ_ind (p : Prop) [Decidable p] (n : Nat) :
    (if p then n + 1 else n) = n + ind p := by
  unfold ind
  split_ifs <;> rfl

theorem ind_false_and (q : Prop) [Decidable q] : ind (¬ True ∧ q) = 0 := by
  unfold ind
  simp

theorem ind_true_and (q : Prop) [Decidable q] : ind (¬ False ∧ q) = ind q := by
  unfold ind
  simp

theorem worker_count_neigbours_eq (w : Worker) (x y : Nat) (hx : 1 ≤ x) (hy : 1 ≤ y) :
    worker_count_neigbours w x y =
      live (w.map_state_prev (x - 1) (y - 1)) + live (w.map_state_prev (x - 1) y) +
      live (w.map_state_prev (x - 1) (y + 1)) + live (w.map_state_prev x (y - 1)) +
      live (w.map_state_prev x (y + 1)) + live (w.map_state_prev (x + 1) (y - 1)) +
      live (w.map_state_prev (x + 1) y) + live (w.map_state_prev (x + 1) (y + 1)) := by
  obtain ⟨x, rfl⟩ : ∃ x', x = x' + 1 := ⟨x - 1, by omega⟩
  obtain ⟨y, rfl⟩ : ∃ y', y = y' + 1 := ⟨y - 1, by omega⟩
  have h1 : (x = x + 1) = False := by simp
  have h2 : (y = y + 1) = False := by simp
  have h3 : (x + 2 = x + 1) = False := by simp
  have h4 : (y + 2 = y + 1) = False := by simp
  simp only [worker_count_neigbours, for_loop, ite_succ_ind, Nat.add_sub_cancel, Nat.add_zero,
    Nat.zero_add, h1, h2, h3, h4, false_and, and_false, and_self, ind_false_and, ind_true_and,
    live]

theorem torus_neighbours_eq (M N : Nat) (g : Nat → Nat → Char) (r c : Nat) :
    torus_neighbours M N g r c =
      live (g ((r + (M - 1)) % M) ((c + (N - 1)) % N)) + live (g ((r + (M - 1)) % M) (c % N)) +
      live (g ((r + (M - 1)) % M) ((c + 1) % N)) + live (g (r % M) ((c + (N - 1)) % N)) +
      live (g (r % M) ((c + 1) % N)) + live (g ((r + 1) % M) ((c + (N - 1)) % N)) +
      live (g ((r + 1) % M) (c % N)) + live (g ((r + 1) % M) ((c + 1) % N)) := by
  unfold torus_neighbours
  rw [← List.countP_eq_length_filter]
  simp only [List.countP_cons, List.countP_nil, live, ind, decide_eq_true_eq, Nat.add_zero,
    Nat.zero_add]
  ring

/-! ## The partitioner -/

theorem check_partition_loop_succ (N K : Nat) (flag : Bool) :
    check_partition_loop N (K + 1) flag =
      if server_init_width N (K + 1) * K ≤ N then (K + 1, flag)
      else check_partition_loop N K true := rfl

theorem server_init_width_one (N : Nat) : server_init_width N 1 = N := by
  unfold server_init_width
  simp [Nat.mod_one]

theorem check_partition_loop_spec (N K : Nat) (flag : Bool) (hK : 1 ≤ K) :
    1 ≤ (check_partition_loop N K flag).1 ∧ (check_partition_loop N K flag).1 ≤ K ∧
    server_init_width N (check_partition_loop N K flag).1 *
      ((check_partition_loop N K flag).1 - 1) ≤ N := by
  induction K generalizing flag with
  | zero => omega
  | succ K ih =>
    rw [check_partition_loop_succ]
    by_cases h : server_init_width N (K + 1) * K ≤ N
    · rw [if_pos h]
      exact ⟨by simp, by simp, by simpa using h⟩
    · rw [if_neg h]
      have hK1 : 1 ≤ K := by
        by_contra hc
        have : K = 0 := by omega
        subst this
        simp at h
      obtain ⟨h1, h2, h3⟩ := ih true hK1
      exact ⟨h1, by omega, h3⟩

/-- What the partitioner guarantees: `1 ≤ K' ≤ N` and `width * (K'-1) ≤ N`,
    with `≤` where a partition needs `<`. -/
theorem client_check_partition_spec (N K : Nat) (hN : 1 ≤ N) (hK : 1 ≤ K) :
    1 ≤ client_check_partition N K ∧ client_check_partition N K ≤ N ∧
    server_init_width N (client_check_partition N K) * (client_check_partition N K - 1) ≤ N := by
  obtain ⟨h4, h5, h6⟩ := check_partition_loop_spec N K false hK
  unfold client_check_partition
  by_cases h1 : K > N
  · rw [if_pos h1]
    refine ⟨hN, le_refl _, ?_⟩
    unfold server_init_width
    simp [Nat.div_self hN]
  · rw [if_neg h1]
    simp only []
    have hpos : (check_partition_loop N K false).1 > 0 := by omega
    rw [if_pos hpos]
    simp only [ite_self]
    exact ⟨h4, by omega, h6⟩

theorem server_init_width_spec (N K : Nat) (hK : 1 ≤ K) :
    N ≤ server_init_width N K * K ∧ (1 ≤ N → 1 ≤ server_init_width N K) := by
  unfold server_init_width
  have h1 := Nat.div_add_mod N K
  have h2 := Nat.mod_lt N (show K > 0 by omega)
  rw [Nat.mul_comm] at h1
  generalize N / K = q at h1
  generalize N % K = m at h1 h2
  by_cases h : m ≠ 0
  · rw [if_pos h]
    have e1 : (q + 1) * K = q * K + K := Nat.succ_mul q K
    rw [e1]
    exact ⟨by omega, fun _ => by omega⟩
  · rw [if_neg h]
    have hm : m = 0 := by omega
    subst hm
    refine ⟨by omega, ?_⟩
    intro hN
    by_contra hc
    have : q = 0 := by omega
    subst this
    simp at h1
    omega

/-! ## Loops over the workers -/

theorem for_loop_put (f : Nat → Worker → Shm → Worker × Shm)
    (hf : ∀ i wk s s', (f i wk s).1 = (f i wk s').1) (n : Nat) (w : World) :
    for_loop (fun i w => w.put i (f i (w.worker i) w.shm)) n w =
      { w with worker := fun k => if k < n then (f k (w.worker k) w.shm).1 else w.worker k,
               shm := for_loop (fun i s => (f i (w.worker i) s).2) n w.shm } := by
  induction n with
  | zero =>
    cases w
    simp [for_loop]
  | succ n ih =>
    simp only [for_loop]
    rw [ih]
    unfold World.put
    simp only [lt_self_iff_false, if_false]
    congr 1
    funext k
    by_cases h1 : k = n
    · subst h1
      rw [if_pos rfl, if_pos (by omega)]
      exact hf _ _ _ _
    · rw [if_neg h1]
      by_cases h2 : k < n
      · rw [if_pos h2, if_pos (by omega)]
      · rw [if_neg h2, if_neg (by omega)]

theorem for_loop_shm_workers_left (F : Nat → Shm → Shm) (M : Nat) (v : Nat → Nat → Char)
    (n : Nat)
    (hF : ∀ i s, i < n → ∀ u r,
      (F i s).left u r = if u = i ∧ r < M then v i r else s.left u r)
    (s : Shm) (u r : Nat) :
    (for_loop F n s).left u r = if u < n ∧ r < M then v u r else s.left u r := by
  induction n with
  | zero =>
    rw [if_neg (by omega)]
    rfl
  | succ n ih =>
    simp only [for_loop]
    rw [hF n _ (by omega), ih (fun i s hi => hF i s (by omega))]
    split_ifs <;> first | rfl | (exfalso; omega) | (congr 1; omega)

theorem for_loop_shm_workers_right (F : Nat → Shm → Shm) (M : Nat) (v : Nat → Nat → Char)
    (n : Nat)
    (hF : ∀ i s, i < n → ∀ u r,
      (F i s).right u r = if u = i ∧ r < M then v i r else s.right u r)
    (s : Shm) (u r : Nat) :
    (for_loop F n s).right u r = if u < n ∧ r < M then v u r else s.right u r := by
  induction n with
  | zero =>
    rw [if_neg (by omega)]
    rfl
  | succ n ih =>
    simp only [for_loop]
    rw [hF n _ (by omega), ih (fun i s hi => hF i s (by omega))]
    split_ifs <;> first | rfl | (exfalso; omega) | (congr 1; omega)

/-! ## Keys -/

theorem ftok_key_of_lt (i : Nat) (h : i < 256) : ftok_key i = i := Nat.mod_eq_of_lt h

theorem ftok_key_lt (i : Nat) : ftok_key i < 256 := Nat.mod_lt i (by decide)

theorem ftok_key_le (i : Nat) : ftok_key i ≤ i := Nat.mod_le i 256

theorem ftok_key_add (i : Nat) : ftok_key (i + 256) = ftok_key i := by
  unfold ftok_key
  omega

/-- A loop over the workers `0 .. n-1` in which worker `i` fills the first `M`
    bytes of its left segment with `c`: the segments written are those with the
    keys below `n` and below 256. -/
theorem for_loop_shm_keys_left (F : Nat → Shm → Shm) (M : Nat) (c : Char) (n : Nat)
    (hF : ∀ i s, i < n → ∀ u r,
      (F i s).left u r = if u = ftok_key i ∧ r < M then c else s.left u r)
    (s : Shm) (u r : Nat) :
    (for_loop F n s).left u r = if (u < n ∧ u < 256) ∧ r < M then c else s.left u r := by
  induction n with
  | zero =>
    rw [if_neg (by omega)]
    rfl
  | succ n ih =>
    simp only [for_loop]
    rw [hF n _ (by omega), ih (fun i s hi => hF i s (by omega))]
    unfold ftok_key
    split_ifs <;> first | rfl | (exfalso; omega)

theorem for_loop_shm_keys_right (F : Nat → Shm → Shm) (M : Nat) (c : Char) (n : Nat)
    (hF : ∀ i s, i < n → ∀ u r,
      (F i s).right u r = if u = ftok_key i ∧ r < M then c else s.right u r)
    (s : Shm) (u r : Nat) :
    (for_loop F n s).right u r = if (u < n ∧ u < 256) ∧ r < M then c else s.right u r := by
  induction n with
  | zero =>
    rw [if_neg (by omega)]
    rfl
  | succ n ih =>
    simp only [for_loop]
    rw [hF n _ (by omega), ih (fun i s hi => hF i s (by omega))]
    unfold ftok_key
    split_ifs <;> first | rfl | (exfalso; omega)

/-! ## The column map -/

theorem for_loop_map_fill (i base : Nat) (n : Nat) (m0 : Nat → Nat) (j : Nat) :
    for_loop (fun d m => fun j => if j = base + d then i else m j) n m0 j =
      if base ≤ j ∧ j < base + n then i else m0 j := by
  induction n with
  | zero =>
    rw [if_neg (by omega)]
    rfl
  | succ n ih =>
    show (if j = base + n then i
      else for_loop (fun d m => fun j => if j = base + d then i else m j) n m0 j) = _
    rw [ih]
    clear ih
    split_ifs <;> first | rfl | (exfalso; omega)

theorem server_init_map_loop (N width : Nat) (n : Nat) (j : Nat) :
    for_loop (fun i m =>
      for_loop (fun d m => fun j => if j = i * width + d then i else m j)
        (min ((i + 1) * width) N - i * width) m) n (fun _ => 0) j =
      if j < n * width ∧ j < N then j / width else 0 := by
  induction n with
  | zero =>
    rw [if_neg (by omega)]
    rfl
  | succ n ih =>
    simp only [for_loop]
    rw [for_loop_map_fill, ih]
    clear ih
    have e1 : (n + 1) * width = n * width + width := Nat.succ_mul n width
    rw [e1]
    by_cases h1 : n * width ≤ j ∧ j < n * width + (min (n * width + width) N - n * width)
    · rw [if_pos h1, if_pos (by omega)]
      symm
      apply Nat.div_eq_of_lt_le
      · exact h1.1
      · rw [Nat.succ_mul]; omega
    · rw [if_neg h1]
      by_cases h2 : j < n * width ∧ j < N
      · rw [if_pos h2, if_pos (by omega)]
      · rw [if_neg h2, if_neg (by omega)]

/-- The column map built by `server_init` sends column `j` to worker
    `j / width`. -/
theorem server_init_map_eq (N K : Nat) (hK : 1 ≤ K) (j : Nat) (hj : j < N) :
    server_init_map N K (server_init_width N K) j = j / server_init_width N K := by
  obtain ⟨h1, _⟩ := server_init_width_spec N K hK
  unfold server_init_map
  rw [server_init_map_loop N _ K j,
    if_pos ⟨by rw [Nat.mul_comm] at h1 ⊢; rw [Nat.mul_comm]; omega, hj⟩]

/-! ## The operations on the whole system -/

theorem for_loop_induct {σ : Type} (P : Nat → σ → Prop) (body : Nat → σ → σ) (n : Nat) (s : σ)
    (h0 : P 0 s) (hstep : ∀ i s, i < n → P i s → P (i + 1) (body i s)) :
    P n (for_loop body n s) := by
  induction n with
  | zero => exact h0
  | succ n ih =>
    exact hstep n _ (by omega) (ih (fun i s hi => hstep i s (by omega)))

theorem worker_add_eq (w : Worker) (shm : Shm) (x y : Nat) :
    worker_add w shm x y = worker_set w shm x y '*' := rfl

theorem worker_del_eq (w : Worker) (shm : Shm) (x y : Nat) :
    worker_del w shm x y = worker_set w shm x y '.' := rfl

theorem set_seg_apply (seg : Nat → Nat → Char) (t i : Nat) (v : Char) (u k : Nat) :
    set_seg seg t i v u k = if u = t ∧ k = i then v else seg u k := by
  unfold set_seg set1
  by_cases h1 : u = t
  · by_cases h2 : k = i
    · simp [h1, h2]
    · simp [h1, h2]
  · simp [h1]

theorem worker_set_left (w : Worker) (shm : Shm) (x y : Nat) (v : Char) (u k : Nat) :
    (worker_set w shm x y v).2.left u k =
      if y = 1 ∧ u = ftok_key w.id_worker ∧ k = x - 1 then v else shm.left u k := by
  have e : (worker_set w shm x y v).2.left =
      (if y = 1 then shmad_set w shm 1 (x - 1) v else shm).left := by
    unfold worker_set
    simp only []
    by_cases h2 : y = w.N
    · rw [if_pos h2]; rfl
    · rw [if_neg h2]
  rw [e]
  by_cases h1 : y = 1
  · rw [if_pos h1]
    show set_seg shm.left (ftok_key w.id_worker) (x - 1) v u k = _
    rw [set_seg_apply]
    split_ifs <;> first | rfl | (exfalso; tauto)
  · rw [if_neg h1, if_neg (by tauto)]

theorem worker_set_right (w : Worker) (shm : Shm) (x y : Nat) (v : Char) (u k : Nat) :
    (worker_set w shm x y v).2.right u k =
      if y = w.N ∧ u = ftok_key w.id_worker ∧ k = x - 1 then v else shm.right u k := by
  have e : (if y = 1 then shmad_set w shm 1 (x - 1) v else shm).right = shm.right := by
    by_cases h1 : y = 1
    · rw [if_pos h1]; rfl
    · rw [if_neg h1]
  unfold worker_set
  simp only []
  by_cases h2 : y = w.N
  · rw [if_pos h2]
    show set_seg (if y = 1 then shmad_set w shm 1 (x - 1) v else shm).right
      (ftok_key w.id_worker) (x - 1) v u k = _
    rw [e, set_seg_apply]
    split_ifs <;> first | rfl | (exfalso; tauto)
  · rw [if_neg h2, e, if_neg (by tauto)]

theorem worker_init_curr (K id M N : Nat) (shm : Shm) (a b : Nat) :
    (worker_init K id M N shm).1.map_state_curr a b =
      if a < M + 2 ∧ b < N + 2 then '.' else NUL := by
  unfold worker_init
  exact for_loop_fill (fun _ _ => '.') _ _ _ a b

theorem memset_left (w : Worker) (i n : Nat) (s : Shm) (u r : Nat) :
    (for_loop (fun k s => shmad_set w s i k '.') n s).left u r =
      if ((i = 1 ∧ u = ftok_key w.id_worker) ∨ (3 ≤ i ∧ u = ftok_key w.id_collab_right)) ∧ r < n then '.'
      else s.left u r := by
  match i with
  | 0 =>
    rw [for_loop_shm_left_same (fun k s => shmad_set w s 0 k '.') (fun i s => rfl)]
    simp
  | 1 =>
    rw [for_loop_shm_left _ (ftok_key w.id_worker) (fun _ => '.') (fun i s => rfl)]
    simp
  | 2 =>
    rw [for_loop_shm_left_same (fun k s => shmad_set w s 2 k '.') (fun i s => rfl)]
    simp
  | j + 3 =>
    rw [for_loop_shm_left _ (ftok_key w.id_collab_right) (fun _ => '.') (fun i s => rfl)]
    simp

theorem memset_right (w : Worker) (i n : Nat) (s : Shm) (u r : Nat) :
    (for_loop (fun k s => shmad_set w s i k '.') n s).right u r =
      if ((i = 0 ∧ u = ftok_key w.id_collab_left) ∨ (i = 2 ∧ u = ftok_key w.id_worker)) ∧ r < n then '.'
      else s.right u r := by
  match i with
  | 0 =>
    rw [for_loop_shm_right _ (ftok_key w.id_collab_left) (fun _ => '.') (fun i s => rfl)]
    simp
  | 1 =>
    rw [for_loop_shm_right_same (fun k s => shmad_set w s 1 k '.') (fun i s => rfl)]
    simp
  | 2 =>
    rw [for_loop_shm_right _ (ftok_key w.id_worker) (fun _ => '.') (fun i s => rfl)]
    simp
  | j + 3 =>
    rw [for_loop_shm_right_same (fun k s => shmad_set w s (j + 3) k '.') (fun i s => rfl)]
    simp

theorem worker_init_left (K id M N : Nat) (shm : Shm) (u r : Nat) :
    (worker_init K id M N shm).2.left u r =
      if (u = ftok_key id ∨ u = ftok_key (worker_define_partners K id).2) ∧ r < M then '.'
      else shm.left u r := by
  unfold worker_init
  simp only [for_loop]
  rw [memset_left, memset_left, memset_left, memset_left]
  simp only []
  by_cases h1 : u = ftok_key id <;>
    by_cases h2 : u = ftok_key (worker_define_partners K id).2 <;>
    by_cases h3 : r < M <;> simp [h1, h2, h3]

theorem worker_init_right (K id M N : Nat) (shm : Shm) (u r : Nat) :
    (worker_init K id M N shm).2.right u r =
      if (u = ftok_key id ∨ u = ftok_key (worker_define_partners K id).1) ∧ r < M then '.'
      else shm.right u r := by
  unfold worker_init
  simp only [for_loop]
  rw [memset_right, memset_right, memset_right, memset_right]
  simp only []
  by_cases h1 : u = ftok_key id <;>
    by_cases h2 : u = ftok_key (worker_define_partners K id).1 <;>
    by_cases h3 : r < M <;> simp [h1, h2, h3]

theorem server_init_eq (M N K : Nat) :
    server_init M N K =
      { M := M, N := N, K := K, width := server_init_width N K,
        pid_worker_map := server_init_map N K (server_init_width N K),
        steps := 0,
        worker := fun k =>
          if k < K then
            (worker_init K k M (snd_worker_info N K (server_init_width N K) k)
              { left := fun _ _ => NUL, right := fun _ _ => NUL }).1
          else no_worker,
        shm := for_loop (fun i s =>
          (worker_init K i M (snd_worker_info N K (server_init_width N K) i) s).2) K
          { left := fun _ _ => NUL, right := fun _ _ => NUL } } := by
  unfold server_init
  exact for_loop_put
    (fun i _ s => worker_init K i M (snd_worker_info N K (server_init_width N K) i) s)
    (fun _ _ _ _ => rfl) K _

theorem server_init_shm (M N K : Nat) (u r : Nat) (hu : u < K) (hr : r < M) :
    (server_init M N K).shm.left (ftok_key u) r = '.' ∧
    (server_init M N K).shm.right (ftok_key u) r = '.' := by
  rw [server_init_eq]
  simp only []
  refine for_loop_induct
    (fun n (s : Shm) => ∀ u, u < n → ∀ r, r < M →
      s.left (ftok_key u) r = '.' ∧ s.right (ftok_key u) r = '.')
    _ K _ ?_ ?_ u hu r hr
  · intro u hu
    omega
  · intro i s _ ih u hu r hr
    rw [worker_init_left, worker_init_right]
    by_cases h : u = i
    · rw [if_pos ⟨Or.inl (by rw [h]), hr⟩, if_pos ⟨Or.inl (by rw [h]), hr⟩]
      exact ⟨rfl, rfl⟩
    · obtain ⟨h1, h2⟩ := ih u (by omega) r hr
      rw [h1, h2]
      constructor <;> split_ifs <;> rfl

theorem server_clear_world (w : World) (h : ¬ w.steps > 0) :
    (server_clear w).world =
      { w with
        worker := fun k =>
          if k < w.K then (worker_clear (w.worker k) w.shm).1 else w.worker k,
        shm := for_loop (fun i s => (worker_clear (w.worker i) s).2) w.K w.shm } := by
  unfold server_clear
  rw [if_neg h]
  exact for_loop_put (fun _ wk s => worker_clear wk s) (fun _ _ _ _ => rfl) w.K w

/-! ## Columns and stripes -/

theorem stripe_col (N K : Nat) (hK : 1 ≤ K) (hchk : server_init_width N K * (K - 1) ≤ N)
    (c : Nat) (hc : c < N) :
    c / server_init_width N K < K ∧
    c % server_init_width N K + 1 ≤
      snd_worker_info N K (server_init_width N K) (c / server_init_width N K) := by
  obtain ⟨h1, h2⟩ := server_init_width_spec N K hK
  have hW : 1 ≤ server_init_width N K := h2 (by omega)
  generalize server_init_width N K = W at *
  obtain ⟨k, rfl⟩ : ∃ k, K = k + 1 := ⟨K - 1, by omega⟩
  simp only [Nat.add_sub_cancel] at *
  have e1 : W * (k + 1) = W * k + W := Nat.mul_succ W k
  have hdiv : c / W < k + 1 := by
    apply Nat.div_lt_of_lt_mul
    omega
  refine ⟨hdiv, ?_⟩
  have hmod : c % W < W := Nat.mod_lt _ (by omega)
  unfold snd_worker_info
  simp only [Nat.add_sub_cancel]
  by_cases h : c / W = k ∧ N % W ≠ 0
  · rw [if_pos h]
    have hc1 := Nat.div_add_mod c W
    have hN1 := Nat.div_add_mod N W
    have hNmod : N % W < W := Nat.mod_lt _ (by omega)
    rw [h.1] at hc1
    have hq : N / W = k := by
      apply Nat.div_eq_of_lt_le
      · rw [Nat.mul_comm]; exact hchk
      · rw [Nat.mul_comm, e1]
        by_contra hcon
        have hEq : N = W * (k + 1) := by omega
        rw [hEq] at h
        simp at h
    rw [hq] at hN1
    omega
  · rw [if_neg h]
    omega

/-! ## The layout is fixed once computed -/

theorem layout_init (M N K : Nat) (hM : 1 ≤ M) (hN : 1 ≤ N) (hK : 1 ≤ K)
    (hchk : server_init_width N K * (K - 1) ≤ N) : Layout M N K (server_init M N K) := by
  rw [server_init_eq]
  refine ⟨hM, hN, hK, hchk, rfl, rfl, rfl, rfl, rfl, ?_, ?_, ?_, ?_, ?_⟩ <;>
    (intro i hi
     simp only [if_pos hi]
     rfl)

theorem Layout.of_same {M N K : Nat} {w w' : World} (hL : Layout M N K w)
    (h1 : w'.M = w.M) (h2 : w'.N = w.N) (h3 : w'.K = w.K) (h4 : w'.width = w.width)
    (h5 : w'.pid_worker_map = w.pid_worker_map)
    (h6 : ∀ i, i < K → SameGeom (w'.worker i) (w.worker i)) : Layout M N K w' := by
  refine ⟨hL.M_pos, hL.N_pos, hL.K_pos, hL.K_chk, by rw [h1, hL.hM], by rw [h2, hL.hN],
    by rw [h3, hL.hK], by rw [h4, hL.hwidth], by rw [h5, hL.hmap], ?_, ?_, ?_, ?_, ?_⟩
  · intro i hi; rw [(h6 i hi).1, hL.wM i hi]
  · intro i hi; rw [(h6 i hi).2.1, hL.wN i hi]
  · intro i hi; rw [(h6 i hi).2.2.1, hL.wid i hi]
  · intro i hi; rw [(h6 i hi).2.2.2.1, hL.wleft i hi]
  · intro i hi; rw [(h6 i hi).2.2.2.2, hL.wright i hi]

theorem SameGeom.same (a : Worker) : SameGeom a a :=
  ⟨Eq.refl _, Eq.refl _, Eq.refl _, Eq.refl _, Eq.refl _⟩

theorem Layout.put {M N K : Nat} {w : World} (hL : Layout M N K w) (i : Nat)
    (r : Worker × Shm) (h : SameGeom r.1 (w.worker i)) : Layout M N K (w.put i r) := by
  refine hL.of_same rfl rfl rfl rfl rfl ?_
  intro k _
  show SameGeom (if k = i then r.1 else w.worker k) (w.worker k)
  by_cases hk : k = i
  · rw [if_pos hk, hk]; exact h
  · rw [if_neg hk]; exact SameGeom.same _

theorem server_add_out (w : World) (x y : Int) (b : Bool)
    (h : ¬(1 ≤ x ∧ x ≤ w.M ∧ 1 ≤ y ∧ y ≤ w.N)) :
    server_add w x y b = { reply := .error_borders, sent := [], world := w } := by
  unfold server_add
  rw [if_pos h]

theorem server_add_in {M N K : Nat} (w : World) (hL : Layout M N K w) (r c : Nat)
    (hr : r < M) (hc : c < N) (b : Bool) :
    server_add w ((r : Int) + 1) ((c : Int) + 1) b =
      { reply := .ok,
        sent := [(c / w.width,
          if b then WorkerOp.add (r + 1) (c % w.width + 1)
          else WorkerOp.del (r + 1) (c % w.width + 1))],
        world := w.put (c / w.width)
          (worker_set (w.worker (c / w.width)) w.shm (r + 1) (c % w.width + 1)
            (if b then '*' else '.')) } := by
  have hb : (1 : Int) ≤ (r : Int) + 1 ∧ (r : Int) + 1 ≤ (w.M : Int) ∧
      (1 : Int) ≤ (c : Int) + 1 ∧ (c : Int) + 1 ≤ (w.N : Int) := by
    rw [hL.hM, hL.hN]; omega
  have e1 : ((r : Int) + 1).toNat = r + 1 := by omega
  have e2 : ((c : Int) + 1 - 1).toNat = c := by omega
  have e3 : w.pid_worker_map c = c / w.width := by
    rw [hL.hmap, hL.hwidth]
    exact server_init_map_eq N K hL.K_pos c hc
  unfold server_add
  rw [if_neg (by rw [not_not]; exact hb)]
  simp only [e1, e2, e3]
  cases b <;> rfl

theorem server_add_cases {M N K : Nat} (w : World) (hL : Layout M N K w) (x y : Int)
    (b : Bool) :
    (server_add w x y b).world = w ∨
    ∃ r c, r < M ∧ c < N ∧ x = (r : Int) + 1 ∧ y = (c : Int) + 1 ∧
      (server_add w x y b).world = w.put (c / w.width)
        (worker_set (w.worker (c / w.width)) w.shm (r + 1) (c % w.width + 1)
          (if b then '*' else '.')) := by
  by_cases h : 1 ≤ x ∧ x ≤ w.M ∧ 1 ≤ y ∧ y ≤ w.N
  · right
    rw [hL.hM, hL.hN] at h
    refine ⟨(x - 1).toNat, (y - 1).toNat, by omega, by omega, by omega, by omega, ?_⟩
    have hx : x = (((x - 1).toNat : Nat) : Int) + 1 := by omega
    have hy : y = (((y - 1).toNat : Nat) : Int) + 1 := by omega
    have := server_add_in w hL (x - 1).toNat (y - 1).toNat (by omega) (by omega) b
    rw [← hx, ← hy] at this
    rw [this]
  · left
    rw [server_add_out w x y b h]

theorem layout_add {M N K : Nat} (w : World) (hL : Layout M N K w) (x y : Int) (b : Bool) :
    Layout M N K (server_add w x y b).world := by
  rcases server_add_cases w hL x y b with h | ⟨r, c, _, _, _, _, h⟩
  · rw [h]; exact hL
  · rw [h]
    exact hL.put _ _ ⟨rfl, rfl, rfl, rfl, rfl⟩

theorem layout_clear {M N K : Nat} (w : World) (hL : Layout M N K w) :
    Layout M N K (server_clear w).world := by
  by_cases h : w.steps > 0
  · unfold server_clear
    rw [if_pos h]
    exact hL
  · rw [server_clear_world w h]
    refine hL.of_same rfl rfl rfl rfl rfl ?_
    intro i hi
    have hi' : i < w.K := by rw [hL.hK]; exact hi
    simp only [if_pos hi']
    exact ⟨rfl, rfl, rfl, rfl, rfl⟩

theorem layout_next {M N K : Nat} (w : World) (hL : Layout M N K w) :
    Layout M N K (server_next_generation w) := by
  refine hL.of_same rfl rfl rfl rfl rfl ?_
  intro i hi
  have hi' : i < w.K := by rw [hL.hK]; exact hi
  show SameGeom (if i < w.K then _ else _) _
  rw [if_pos hi']
  exact ⟨rfl, rfl, rfl, rfl, rfl⟩

/-! ## The boundary buffers mirror the edge columns; cells are dead or alive -/

theorem server_init_K (M N K : Nat) : (server_init M N K).K = K := by
  rw [server_init_eq]

theorem server_init_M (M N K : Nat) : (server_init M N K).M = M := by
  rw [server_init_eq]

theorem server_init_curr (M N K : Nat) (i : Nat) (hi : i < K) (a b : Nat) :
    ((server_init M N K).worker i).map_state_curr a b =
      if a < M + 2 ∧ b < snd_worker_info N K (server_init_width N K) i + 2 then '.'
      else NUL := by
  rw [server_init_eq]
  simp only [if_pos hi]
  exact worker_init_curr _ _ _ _ _ a b

theorem bufinv_init (M N K : Nat) : BufInv (server_init M N K) := by
  intro i hi r hr
  rw [server_init_K] at hi
  rw [server_init_M] at hr
  obtain ⟨h1, h2⟩ := server_init_shm M N K i r hi hr
  rw [h1, h2, server_init_curr M N K i hi, server_init_curr M N K i hi]
  have hN : ((server_init M N K).worker i).N =
      snd_worker_info N K (server_init_width N K) i := by
    rw [server_init_eq]
    simp only [if_pos hi]
    rfl
  rw [hN, if_pos (by omega), if_pos (by omega)]
  exact ⟨rfl, rfl⟩

theorem cellsok_init (M N K : Nat) : CellsOk (server_init M N K) := by
  intro i hi r c _ _ _ _
  rw [server_init_K] at hi
  rw [server_init_curr M N K i hi]
  split_ifs
  · exact Or.inl rfl
  · rename_i h
    exfalso
    apply h
    have hN : ((server_init M N K).worker i).N =
        snd_worker_info N K (server_init_width N K) i := by
      rw [server_init_eq]
      simp only [if_pos hi]
      rfl
    have hM := server_init_M M N K
    omega

theorem bufinv_put_set {M N K : Nat} (w : World) (hL : Layout M N K w) (hk : K ≤ 256)
    (hB : BufInv w) (i0 x y : Nat) (hi0 : i0 < K) (hx : 1 ≤ x) (v : Char) :
    BufInv (w.put i0 (worker_set (w.worker i0) w.shm x y v)) := by
  intro i hi r hr
  have hi' : i < w.K := hi
  have hr' : r < w.M := hr
  have hiK : i < K := by rw [← hL.hK]; exact hi'
  obtain ⟨h1, h2⟩ := hB i hi' r hr'
  rw [ftok_key_of_lt i (by omega)] at h1 h2
  show (worker_set (w.worker i0) w.shm x y v).2.left (ftok_key i) r =
      (if i = i0 then (worker_set (w.worker i0) w.shm x y v).1 else w.worker i).map_state_curr
        (r + 1) 1 ∧
    (worker_set (w.worker i0) w.shm x y v).2.right (ftok_key i) r =
      (if i = i0 then (worker_set (w.worker i0) w.shm x y v).1 else w.worker i).map_state_curr
        (r + 1) (if i = i0 then (worker_set (w.worker i0) w.shm x y v).1 else w.worker i).N
  rw [worker_set_left, worker_set_right, hL.wid i0 hi0, ftok_key_of_lt i (by omega),
    ftok_key_of_lt i0 (by omega)]
  by_cases hi0' : i = i0
  · subst hi0'
    simp only [if_true]
    show _ = set2 (w.worker i).map_state_curr x y v (r + 1) 1 ∧
      _ = set2 (w.worker i).map_state_curr x y v (r + 1) (w.worker i).N
    rw [set2_apply, set2_apply, h1, h2]
    simp only [true_and]
    constructor
    · split_ifs <;> first | rfl | (exfalso; omega)
    · split_ifs <;> first | rfl | (exfalso; omega)
  · simp only [hi0', if_false, false_and, and_false]
    exact ⟨h1, h2⟩

theorem bufinv_add {M N K : Nat} (w : World) (hL : Layout M N K w) (hk : K ≤ 256)
    (hB : BufInv w) (x y : Int) (b : Bool) : BufInv (server_add w x y b).world := by
  rcases server_add_cases w hL x y b with h | ⟨r, c, _, hc, _, _, h⟩
  · rw [h]; exact hB
  · rw [h]
    have hcol := stripe_col N K hL.K_pos hL.K_chk c hc
    rw [← hL.hwidth] at hcol
    exact bufinv_put_set w hL hk hB _ _ _ hcol.1 (by omega) _

theorem cellsok_put_set (w : World) (hC : CellsOk w) (i0 x y : Nat) (v : Char)
    (hv : v = '.' ∨ v = '*') :
    CellsOk (w.put i0 (worker_set (w.worker i0) w.shm x y v)) := by
  intro i hi r c hr1 hr2 hc1 hc2
  have hi' : i < w.K := hi
  have hr2' : r ≤ w.M := hr2
  show (if i = i0 then (worker_set (w.worker i0) w.shm x y v).1
        else w.worker i).map_state_curr r c = '.' ∨
    (if i = i0 then (worker_set (w.worker i0) w.shm x y v).1
        else w.worker i).map_state_curr r c = '*'
  by_cases hi0 : i = i0
  · subst hi0
    have hc2' : c ≤ (w.worker i).N := by
      have : (w.put i (worker_set (w.worker i) w.shm x y v)).worker i =
          (worker_set (w.worker i) w.shm x y v).1 := by
        show (if i = i then _ else _) = _
        rw [if_pos rfl]
      rw [this] at hc2
      exact hc2
    simp only [if_true]
    show set2 (w.worker i).map_state_curr x y v r c = '.' ∨
      set2 (w.worker i).map_state_curr x y v r c = '*'
    rw [set2_apply]
    split_ifs
    · exact hv
    · exact hC i hi' r c hr1 hr2' hc1 hc2'
  · have hc2' : c ≤ (w.worker i).N := by
      have : (w.put i0 (worker_set (w.worker i0) w.shm x y v)).worker i = w.worker i := by
        show (if i = i0 then _ else _) = _
        rw [if_neg hi0]
      rw [this] at hc2
      exact hc2
    simp only [hi0, if_false]
    exact hC i hi' r c hr1 hr2' hc1 hc2'

theorem cellsok_add {M N K : Nat} (w : World) (hL : Layout M N K w) (hC : CellsOk w)
    (x y : Int) (b : Bool) : CellsOk (server_add w x y b).world := by
  rcases server_add_cases w hL x y b with h | ⟨r, c, _, _, _, _, h⟩
  · rw [h]; exact hC
  · rw [h]
    apply cellsok_put_set w hC
    cases b
    · exact Or.inl rfl
    · exact Or.inr rfl

theorem server_clear_left {M N K : Nat} (w : World) (hL : Layout M N K w)
    (h : ¬ w.steps > 0) (u r : Nat) :
    (server_clear w).world.shm.left u r =
      if (u < K ∧ u < 256) ∧ r < M then '.' else w.shm.left u r := by
  rw [server_clear_world w h]
  simp only [hL.hK]
  rw [for_loop_shm_keys_left (fun i s => (worker_clear (w.worker i) s).2) M '.' K]
  intro i s hi u r
  rw [worker_clear_left, hL.wid i hi, hL.wM i hi]

theorem server_clear_right {M N K : Nat} (w : World) (hL : Layout M N K w)
    (h : ¬ w.steps > 0) (u r : Nat) :
    (server_clear w).world.shm.right u r =
      if (u < K ∧ u < 256) ∧ r < M then '.' else w.shm.right u r := by
  rw [server_clear_world w h]
  simp only [hL.hK]
  rw [for_loop_shm_keys_right (fun i s => (worker_clear (w.worker i) s).2) M '.' K]
  intro i s hi u r
  rw [worker_clear_right, hL.wid i hi, hL.wM i hi]

theorem server_clear_worker (w : World) (h : ¬ w.steps > 0) (i : Nat) (hi : i < w.K) :
    (server_clear w).world.worker i = (worker_clear (w.worker i) w.shm).1 := by
  rw [server_clear_world w h]
  simp only [if_pos hi]

theorem bufinv_clear {M N K : Nat} (w : World) (hL : Layout M N K w) (hB : BufInv w) :
    BufInv (server_clear w).world := by
  by_cases h : w.steps > 0
  · unfold server_clear
    rw [if_pos h]
    exact hB
  · intro i hi r hr
    have hL' := layout_clear w hL
    rw [hL'.hK] at hi
    rw [hL'.hM] at hr
    have hi' : i < w.K := by rw [hL.hK]; exact hi
    have hkey : ftok_key i < K ∧ ftok_key i < 256 :=
      ⟨lt_of_le_of_lt (ftok_key_le i) hi, ftok_key_lt i⟩
    rw [server_clear_left w hL h, server_clear_right w hL h, if_pos ⟨hkey, hr⟩,
      if_pos ⟨hkey, hr⟩, server_clear_worker w h i hi', worker_clear_curr, worker_clear_curr]
    have hN : (worker_clear (w.worker i) w.shm).1.N = (w.worker i).N := rfl
    rw [hN, hL.wM i hi, if_pos (by omega), if_pos (by omega)]
    exact ⟨rfl, rfl⟩

theorem cellsok_clear {M N K : Nat} (w : World) (hL : Layout M N K w) (hC : CellsOk w) :
    CellsOk (server_clear w).world := by
  by_cases h : w.steps > 0
  · unfold server_clear
    rw [if_pos h]
    exact hC
  · intro i hi r c hr1 hr2 hc1 hc2
    have hL' := layout_clear w hL
    rw [hL'.hK] at hi
    rw [hL'.hM] at hr2
    have hi' : i < w.K := by rw [hL.hK]; exact hi
    rw [server_clear_worker w h i hi'] at hc2 ⊢
    have hN : (worker_clear (w.worker i) w.shm).1.N = (w.worker i).N := rfl
    rw [hN] at hc2
    rw [worker_clear_curr, hL.wM i hi, if_pos (by omega)]
    exact Or.inl rfl

theorem server_next_worker (w : World) (i : Nat) (hi : i < w.K) :
    (server_next_generation w).worker i =
      worker_apply_rule (worker_update_map (w.worker i) w.shm) := by
  show (if i < w.K then _ else _) = _
  rw [if_pos hi]

theorem server_next_left {M N K : Nat} (w : World) (hL : Layout M N K w) (hk : K ≤ 256)
    (u r : Nat) :
    (server_next_generation w).shm.left u r =
      if u < K ∧ r < M then ((server_next_generation w).worker u).map_state_curr (r + 1) 1
      else w.shm.left u r := by
  show (for_loop (fun i s => worker_update_memory ((server_next_generation w).worker i) s)
    w.K w.shm).left u r = _
  rw [hL.hK, for_loop_shm_workers_left _ M
    (fun u r => ((server_next_generation w).worker u).map_state_curr (r + 1) 1) K]
  intro i s hi u r
  have hL' := layout_next w hL
  rw [worker_update_memory_left, hL'.wid i hi, ftok_key_of_lt i (by omega), hL'.wM i hi]

theorem server_next_right {M N K : Nat} (w : World) (hL : Layout M N K w) (hk : K ≤ 256)
    (u r : Nat) :
    (server_next_generation w).shm.right u r =
      if u < K ∧ r < M then
        ((server_next_generation w).worker u).map_state_curr (r + 1)
          ((server_next_generation w).worker u).N
      else w.shm.right u r := by
  show (for_loop (fun i s => worker_update_memory ((server_next_generation w).worker i) s)
    w.K w.shm).right u r = _
  rw [hL.hK, for_loop_shm_workers_right _ M
    (fun u r => ((server_next_generation w).worker u).map_state_curr (r + 1)
      ((server_next_generation w).worker u).N) K]
  intro i s hi u r
  have hL' := layout_next w hL
  rw [worker_update_memory_right, hL'.wid i hi, ftok_key_of_lt i (by omega), hL'.wM i hi]

theorem bufinv_next {M N K : Nat} (w : World) (hL : Layout M N K w) (hk : K ≤ 256) :
    BufInv (server_next_generation w) := by
  intro i hi r hr
  have hL' := layout_next w hL
  rw [hL'.hK] at hi
  rw [hL'.hM] at hr
  rw [ftok_key_of_lt i (by omega), server_next_left w hL hk, server_next_right w hL hk,
    if_pos ⟨hi, hr⟩, if_pos ⟨hi, hr⟩]
  exact ⟨rfl, rfl⟩

theorem cellsok_next {M N K : Nat} (w : World) (hL : Layout M N K w) (hC : CellsOk w) :
    CellsOk (server_next_generation w) := by
  intro i hi r c hr1 hr2 hc1 hc2
  have hL' := layout_next w hL
  rw [hL'.hK] at hi
  rw [hL'.hM] at hr2
  have hi' : i < w.K := by rw [hL.hK]; exact hi
  rw [server_next_worker w i hi'] at hc2 ⊢
  have hN : (worker_apply_rule (worker_update_map (w.worker i) w.shm)).N = (w.worker i).N := rfl
  rw [hN] at hc2
  rw [worker_apply_rule_curr]
  have hcur : (worker_update_map (w.worker i) w.shm).map_state_curr r c =
      (w.worker i).map_state_curr r c := rfl
  rw [hcur]
  have h0 := hC i hi' r c hr1 (by rw [hL.hM]; exact hr2) hc1 hc2
  split_ifs <;> first | exact h0 | exact Or.inl rfl | exact Or.inr rfl

/-- In every reachable state the layout is the one `server_init` computed and
    every cell is `'.'` or `'*'`. -/
theorem reachable_layout {M N K : Nat} (hM : 1 ≤ M) (hN : 1 ≤ N) (hK : 1 ≤ K)
    (hchk : server_init_width N K * (K - 1) ≤ N) (w : World) (h : Reachable M N K w) :
    Layout M N K w ∧ CellsOk w := by
  induction h with
  | init => exact ⟨layout_init M N K hM hN hK hchk, cellsok_init M N K⟩
  | add w x y c _ ih => exact ⟨layout_add w ih.1 x y c, cellsok_add w ih.1 ih.2 x y c⟩
  | clear w _ ih => exact ⟨layout_clear w ih.1, cellsok_clear w ih.1 ih.2⟩
  | next w _ ih => exact ⟨layout_next w ih.1, cellsok_next w ih.1 ih.2⟩

/-- With at most 256 workers, so that every worker has segments of its own: in
    every reachable state the layout is the one `server_init` computed, the
    boundary buffers equal the edge columns, and every cell is `'.'` or `'*'`. -/
theorem reachable_inv {M N K : Nat} (hM : 1 ≤ M) (hN : 1 ≤ N) (hK : 1 ≤ K) (hk : K ≤ 256)
    (hchk : server_init_width N K * (K - 1) ≤ N) (w : World) (h : Reachable M N K w) :
    Layout M N K w ∧ BufInv w ∧ CellsOk w := by
  induction h with
  | init => exact ⟨layout_init M N K hM hN hK hchk, bufinv_init M N K, cellsok_init M N K⟩
  | add w x y c _ ih =>
    exact ⟨layout_add w ih.1 x y c, bufinv_add w ih.1 hk ih.2.1 x y c,
      cellsok_add w ih.1 ih.2.2 x y c⟩
  | clear w _ ih =>
    exact ⟨layout_clear w ih.1, bufinv_clear w ih.1 ih.2.1, cellsok_clear w ih.1 ih.2.2⟩
  | next w _ ih =>
    exact ⟨layout_next w ih.1, bufinv_next w ih.1 hk, cellsok_next w ih.1 ih.2.2⟩

/-! ## Stripes on the ring, when the stripes add up to `N` -/

theorem div_mod_of_range (W i c : Nat) (h1 : i * W ≤ c) (h2 : c < i * W + W) :
    c / W = i ∧ c % W = c - i * W := by
  have hd : c / W = i := by
    apply Nat.div_eq_of_lt_le h1
    rw [Nat.succ_mul]; exact h2
  have := Nat.div_add_mod c W
  rw [hd, Nat.mul_comm] at this
  exact ⟨hd, by omega⟩

theorem partners_eq (K i : Nat) (hK : 1 ≤ K) (hi : i < K) :
    worker_define_partners K i =
      (if i = 0 then K - 1 else i - 1, if i = K - 1 then 0 else i + 1) := by
  unfold worker_define_partners
  by_cases h1 : K = 1
  · have h0 : i = 0 := by omega
    rw [if_pos h1, if_pos h0, if_pos (by omega), h1]
  · rw [if_neg h1]
    by_cases h0 : i = 0
    · rw [if_pos h0, if_pos h0, if_neg (by omega), h0]
    · rw [if_neg h0, if_neg h0]
      by_cases h2 : i = K - 1
      · rw [if_pos h2, if_pos h2]
      · rw [if_neg h2, if_neg h2]

theorem snd_worker_info_proper (N K W : Nat) (hK : 1 ≤ K) (h1 : N ≤ W * K)
    (hp : W * (K - 1) < N) (i : Nat) :
    snd_worker_info N K W i = if i = K - 1 then N - W * (K - 1) else W := by
  obtain ⟨k, rfl⟩ : ∃ k, K = k + 1 := ⟨K - 1, by omega⟩
  simp only [Nat.add_sub_cancel] at *
  have e1 : W * (k + 1) = W * k + W := Nat.mul_succ W k
  unfold snd_worker_info
  simp only [Nat.add_sub_cancel]
  by_cases hi : i = k
  · rw [if_pos hi]
    by_cases hm : N % W ≠ 0
    · rw [if_pos ⟨hi, hm⟩]
      have hN : N < k * W + W := by
        rw [Nat.mul_comm]
        by_contra hcon
        have hEq : N = W * (k + 1) := by omega
        rw [hEq] at hm
        simp at hm
      have := (div_mod_of_range W k N (by rw [Nat.mul_comm]; omega) hN).2
      rw [this, Nat.mul_comm]
    · rw [if_neg (by tauto)]
      have hm0 : N % W = 0 := by omega
      have hdm := Nat.div_add_mod N W
      rw [hm0, Nat.add_zero] at hdm
      have hq : N / W = k + 1 := by
        by_contra hne
        have hle : N / W ≤ k := by
          by_contra hgt
          have : k + 2 ≤ N / W := by omega
          have := Nat.mul_le_mul_left W this
          rw [Nat.mul_add] at this
          omega
        have := Nat.mul_le_mul_left W hle
        omega
      rw [hq] at hdm
      omega
  · rw [if_neg hi, if_neg (by tauto)]

theorem own_col (N K W : Nat) (hK : 1 ≤ K) (h1 : N ≤ W * K)
    (hp : W * (K - 1) < N) (i : Nat) (hi : i < K) (b : Nat) (hb1 : 1 ≤ b)
    (hb2 : b ≤ snd_worker_info N K W i) :
    (i * W + b + N - 1) % N = i * W + b - 1 ∧ i * W + b - 1 < N ∧
    (i * W + b - 1) / W = i ∧ (i * W + b - 1) % W + 1 = b := by
  rw [snd_worker_info_proper N K W hK h1 hp] at hb2
  obtain ⟨k, rfl⟩ : ∃ k, K = k + 1 := ⟨K - 1, by omega⟩
  simp only [Nat.add_sub_cancel] at *
  have e1 : W * (k + 1) = W * k + W := Nat.mul_succ W k
  have e2 : W * k = k * W := Nat.mul_comm _ _
  have hlt : i * W + b - 1 < N ∧ b ≤ W := by
    by_cases hik : i = k
    · rw [if_pos hik] at hb2
      rw [hik]
      omega
    · rw [if_neg hik] at hb2
      have : (i + 1) * W ≤ k * W := Nat.mul_le_mul_right W (by omega)
      rw [Nat.succ_mul] at this
      omega
  have hmod : (i * W + b + N - 1) % N = i * W + b - 1 := by
    have : i * W + b + N - 1 = (i * W + b - 1) + N := by omega
    rw [this, Nat.add_mod_right, Nat.mod_eq_of_lt hlt.1]
  obtain ⟨hd, hm⟩ := div_mod_of_range W i (i * W + b - 1) (by omega) (by omega)
  exact ⟨hmod, hlt.1, hd, by omega⟩

theorem left_col (N K W : Nat) (hW : 1 ≤ W) (hK : 1 ≤ K) (h1 : N ≤ W * K)
    (hp : W * (K - 1) < N) (i : Nat) (hi : i < K) :
    (worker_define_partners K i).1 < K ∧
    (i * W + 0 + N - 1) % N / W = (worker_define_partners K i).1 ∧
    (i * W + 0 + N - 1) % N % W + 1 = snd_worker_info N K W (worker_define_partners K i).1 := by
  rw [partners_eq K i hK hi, snd_worker_info_proper N K W hK h1 hp]
  obtain ⟨k, rfl⟩ : ∃ k, K = k + 1 := ⟨K - 1, by omega⟩
  simp only [Nat.add_sub_cancel] at *
  have e1 : W * (k + 1) = W * k + W := Nat.mul_succ W k
  have e2 : W * k = k * W := Nat.mul_comm _ _
  by_cases h0 : i = 0
  · subst h0
    simp only [if_true, Nat.zero_mul, Nat.zero_add, Nat.add_zero]
    have hmod : (N - 1) % N = N - 1 := Nat.mod_eq_of_lt (by omega)
    rw [hmod]
    obtain ⟨hd, hm⟩ := div_mod_of_range W k (N - 1) (by omega) (by omega)
    exact ⟨by omega, hd, by omega⟩
  · simp only [h0, if_false]
    have hik : (i - 1 + 1) * W ≤ k * W := Nat.mul_le_mul_right W (by omega)
    have hi1 : i - 1 + 1 = i := by omega
    rw [hi1] at hik
    have e3 : i * W = (i - 1) * W + W := by
      conv_lhs => rw [← hi1]
      exact Nat.succ_mul _ _
    have hmod : (i * W + 0 + N - 1) % N = i * W - 1 := by
      have : i * W + 0 + N - 1 = (i * W - 1) + N := by omega
      rw [this, Nat.add_mod_right, Nat.mod_eq_of_lt (by omega)]
    rw [hmod]
    obtain ⟨hd, hm⟩ := div_mod_of_range W (i - 1) (i * W - 1) (by omega) (by omega)
    refine ⟨by omega, hd, ?_⟩
    rw [if_neg (by omega)]
    omega

theorem right_col (N K W : Nat) (hW : 1 ≤ W) (hK : 1 ≤ K) (h1 : N ≤ W * K)
    (hp : W * (K - 1) < N) (i : Nat) (hi : i < K) :
    (worker_define_partners K i).2 < K ∧
    (i * W + (snd_worker_info N K W i + 1) + N - 1) % N / W = (worker_define_partners K i).2 ∧
    (i * W + (snd_worker_info N K W i + 1) + N - 1) % N % W + 1 = 1 := by
  rw [partners_eq K i hK hi, snd_worker_info_proper N K W hK h1 hp]
  obtain ⟨k, rfl⟩ : ∃ k, K = k + 1 := ⟨K - 1, by omega⟩
  simp only [Nat.add_sub_cancel] at *
  have e1 : W * (k + 1) = W * k + W := Nat.mul_succ W k
  have e2 : W * k = k * W := Nat.mul_comm _ _
  by_cases hik : i = k
  · subst hik
    simp only [if_true]
    have : i * W + (N - W * i + 1) + N - 1 = 0 + N * 2 := by omega
    rw [this, Nat.add_mul_mod_self_left]
    simp
  · simp only [hik, if_false]
    have hle : (i + 1 + 1) * W ≤ (k + 1) * W := Nat.mul_le_mul_right W (by omega)
    have e3 : (i + 1) * W = i * W + W := Nat.succ_mul _ _
    have e4 : (i + 1 + 1) * W = (i + 1) * W + W := Nat.succ_mul _ _
    have e5 : (k + 1) * W = k * W + W := Nat.succ_mul _ _
    have hmod : (i * W + (W + 1) + N - 1) % N = (i + 1) * W := by
      have : i * W + (W + 1) + N - 1 = (i + 1) * W + N := by omega
      rw [this, Nat.add_mod_right, Nat.mod_eq_of_lt (by omega)]
    rw [hmod]
    obtain ⟨hd, hm⟩ := div_mod_of_range W (i + 1) ((i + 1) * W) (by omega) (by omega)
    exact ⟨by omega, hd, by omega⟩

theorem wrap_row_spec (M a : Nat) (hM : 1 ≤ M) (ha : a ≤ M + 1) :
    1 ≤ wrap_row M a ∧ wrap_row M a ≤ M ∧ wrap_row M a - 1 = (a + M - 1) % M := by
  unfold wrap_row
  by_cases h0 : a = 0
  · rw [if_pos h0, h0]
    have : (0 + M - 1) % M = M - 1 := by
      rw [Nat.zero_add]; exact Nat.mod_eq_of_lt (by omega)
    omega
  · rw [if_neg h0]
    by_cases h1 : a = M + 1
    · rw [if_pos h1, h1]
      have : (M + 1 + M - 1) % M = 0 := by
        have e : M + 1 + M - 1 = M + M := by omega
        rw [e, Nat.add_mod_right, Nat.mod_self]
      omega
    · rw [if_neg h1]
      have : (a + M - 1) % M = a - 1 := by
        have e : a + M - 1 = (a - 1) + M := by omega
        rw [e, Nat.add_mod_right, Nat.mod_eq_of_lt (by omega)]
      omega

theorem universe_cell_eq (w : World) (r c : Nat) :
    universe_cell w r c =
      (w.worker (c / w.width)).map_state_curr (r + 1) (c % w.width + 1) := rfl

theorem prev_universe {M N K : Nat} (w : World) (hL : Layout M N K w)
    (hp : server_init_width N K * (K - 1) < N) (hB : BufInv w)
    (i : Nat) (hi : i < K) (a b : Nat) (ha : a ≤ M + 1) (hb : b ≤ (w.worker i).N + 1) :
    (worker_update_map (w.worker i) w.shm).map_state_prev a b =
      universe_cell w ((a + M - 1) % M) ((i * w.width + b + N - 1) % N) := by
  have hWs := server_init_width_spec N K hL.K_pos
  have hW : 1 ≤ w.width := by rw [hL.hwidth]; exact hWs.2 hL.N_pos
  have h1 : N ≤ w.width * K := by rw [hL.hwidth]; exact hWs.1
  have hp' : w.width * (K - 1) < N := by rw [hL.hwidth]; exact hp
  have hNi : (w.worker i).N = snd_worker_info N K w.width i := by
    rw [hL.wN i hi, hL.hwidth]
  obtain ⟨hr1, hr2, hr3⟩ := wrap_row_spec M a hL.M_pos ha
  have hρ : (a + M - 1) % M + 1 = wrap_row M a := by omega
  rw [worker_update_map_prev (w.worker i) w.shm (by rw [hL.wM i hi]; exact hL.M_pos) a b
    (by rw [hL.wM i hi]; exact ha) hb, hL.wM i hi, universe_cell_eq, hρ]
  by_cases hb0 : b = 0
  · rw [if_pos hb0, hb0]
    obtain ⟨hl, hd, hm⟩ := left_col N K w.width hW hL.K_pos h1 hp' i hi
    rw [hd, hm]
    show w.shm.right (ftok_key (w.worker i).id_collab_left) (wrap_row M a - 1) = _
    rw [hL.wleft i hi]
    have := (hB _ (by rw [hL.hK]; exact hl) (wrap_row M a - 1) (by rw [hL.hM]; omega)).2
    rw [this, hL.wN _ hl, hL.hwidth]
    congr 1
    omega
  · rw [if_neg hb0]
    by_cases hbN : b = (w.worker i).N + 1
    · rw [if_pos hbN, hbN, hNi]
      obtain ⟨hl, hd, hm⟩ := right_col N K w.width hW hL.K_pos h1 hp' i hi
      rw [hd, hm]
      show w.shm.left (ftok_key (w.worker i).id_collab_right) (wrap_row M a - 1) = _
      rw [hL.wright i hi]
      have := (hB _ (by rw [hL.hK]; exact hl) (wrap_row M a - 1) (by rw [hL.hM]; omega)).1
      rw [this]
      congr 1
      omega
    · rw [if_neg hbN]
      obtain ⟨hmod, _, hd, hm⟩ := own_col N K w.width hL.K_pos h1 hp' i hi b (by omega)
        (by rw [← hNi]; omega)
      rw [hmod, hd, hm]

/-- When the stripe widths add up to `N` (`width * (K-1) < N`), one generation
    broadcast from a state whose boundary buffers equal the edge columns turns
    the universe into its successor under the standard rule on the torus. -/
theorem next_generation_conway {M N K : Nat} (w : World) (hL : Layout M N K w)
    (hp : server_init_width N K * (K - 1) < N) (hB : BufInv w) (hC : CellsOk w)
    (r c : Nat) (hr : r < M) (hc : c < N) :
    universe_cell (server_next_generation w) r c = conway_step M N (universe_cell w) r c := by
  have hWs := server_init_width_spec N K hL.K_pos
  have hW : 1 ≤ w.width := by rw [hL.hwidth]; exact hWs.2 hL.N_pos
  have hcol := stripe_col N K hL.K_pos hL.K_chk c hc
  rw [← hL.hwidth] at hcol
  obtain ⟨hi, hbN⟩ := hcol
  have hNi : (w.worker (c / w.width)).N = snd_worker_info N K w.width (c / w.width) := by
    rw [hL.wN _ hi, hL.hwidth]
  rw [← hNi] at hbN
  have hc_eq : c / w.width * w.width + (c % w.width + 1) - 1 = c := by
    have := Nat.div_add_mod c w.width
    rw [Nat.mul_comm] at this
    omega
  -- the three grids read by the rule, in terms of the universe
  have hprev : ∀ dr dc, dr ≤ 2 → dc ≤ 2 →
      (worker_update_map (w.worker (c / w.width)) w.shm).map_state_prev (r + dr)
        (c % w.width + dc) =
      universe_cell w ((r + dr + M - 1) % M) ((c + dc + N - 1) % N) := by
    intro dr dc hdr hdc
    rw [prev_universe w hL hp hB _ hi (r + dr) (c % w.width + dc) (by omega) (by omega)]
    congr 2
    omega
  have hM := hL.M_pos
  have hN := hL.N_pos
  have er0 : (r + 0 + M - 1) % M = (r + (M - 1)) % M := by congr 1; omega
  have er1 : (r + 1 + M - 1) % M = r % M := by
    have : r + 1 + M - 1 = r + M := by omega
    rw [this, Nat.add_mod_right]
  have er2 : (r + 2 + M - 1) % M = (r + 1) % M := by
    have : r + 2 + M - 1 = r + 1 + M := by omega
    rw [this, Nat.add_mod_right]
  have ec0 : (c + 0 + N - 1) % N = (c + (N - 1)) % N := by congr 1; omega
  have ec1 : (c + 1 + N - 1) % N = c % N := by
    have : c + 1 + N - 1 = c + N := by omega
    rw [this, Nat.add_mod_right]
  have ec2 : (c + 2 + N - 1) % N = (c + 1) % N := by
    have : c + 2 + N - 1 = c + 1 + N := by omega
    rw [this, Nat.add_mod_right]
  have hcount : worker_count_neigbours (worker_update_map (w.worker (c / w.width)) w.shm)
      (r + 1) (c % w.width + 1) = torus_neighbours M N (universe_cell w) r c := by
    rw [worker_count_neigbours_eq _ _ _ (by omega) (by omega), torus_neighbours_eq]
    simp only [Nat.add_sub_cancel]
    have h00 := hprev 0 0 (by omega) (by omega)
    have h01 := hprev 0 1 (by omega) (by omega)
    have h02 := hprev 0 2 (by omega) (by omega)
    have h10 := hprev 1 0 (by omega) (by omega)
    have h12 := hprev 1 2 (by omega) (by omega)
    have h20 := hprev 2 0 (by omega) (by omega)
    have h21 := hprev 2 1 (by omega) (by omega)
    have h22 := hprev 2 2 (by omega) (by omega)
    simp only [Nat.add_zero, Nat.add_assoc, Nat.reduceAdd] at h00 h01 h02 h10 h12 h20 h21 h22
    simp only [Nat.add_assoc, Nat.reduceAdd]
    rw [h00, h01, h02, h10, h12, h20, h21, h22]
    simp only [Nat.add_zero, Nat.add_assoc, Nat.reduceAdd] at er0 er1 er2 ec0 ec1 ec2
    rw [er0, er1, er2, ec0, ec1, ec2]
  have hcell : (worker_update_map (w.worker (c / w.width)) w.shm).map_state_prev (r + 1)
      (c % w.width + 1) = universe_cell w r c := by
    rw [hprev 1 1 (by omega) (by omega), er1, ec1, Nat.mod_eq_of_lt hr, Nat.mod_eq_of_lt hc]
  have hcur : (worker_update_map (w.worker (c / w.width)) w.shm).map_state_curr (r + 1)
      (c % w.width + 1) = universe_cell w r c := rfl
  have hM' : (worker_update_map (w.worker (c / w.width)) w.shm).M = M := hL.wM _ hi
  have hN' : (worker_update_map (w.worker (c / w.width)) w.shm).N =
      (w.worker (c / w.width)).N := rfl
  have hcells := hC _ (by rw [hL.hK]; exact hi) (r + 1) (c % w.width + 1) (by omega)
    (by rw [hL.hM]; omega) (by omega) hbN
  rw [← universe_cell_eq] at hcells
  rw [universe_cell_eq]
  show ((server_next_generation w).worker (c / w.width)).map_state_curr (r + 1)
    (c % w.width + 1) = _
  rw [server_next_worker w _ (by rw [hL.hK]; exact hi), worker_apply_rule_curr,
    if_pos (by rw [hM', hN']; omega), hcount, hcell, hcur]
  unfold conway_step
  simp only []
  rcases hcells with hd | hl
  · rw [hd]
    simp
  · rw [hl]
    simp
    split_ifs <;> simp_all

/-! ## Snapshots -/

theorem cstr_spec (buf : Nat → Char) (n : Nat) (hn : buf n = NUL) (fuel k : Nat)
    (hk : k ≤ n) (hfuel : n - k < fuel) (hbuf : ∀ j, k ≤ j → j < n → buf j ≠ NUL) :
    cstr buf fuel k = (List.range' k (n - k)).map buf := by
  induction fuel generalizing k with
  | zero => omega
  | succ fuel ih =>
    unfold cstr
    by_cases hkn : k = n
    · subst hkn
      rw [if_pos hn]
      simp
    · rw [if_neg (hbuf k (le_refl _) (by omega))]
      rw [ih (k + 1) (by omega) (by omega) (fun j h1 h2 => hbuf j (by omega) h2)]
      have : n - k = (n - (k + 1)) + 1 := by omega
      rw [this, List.range'_succ]
      rfl

theorem server_init_width_le (N K : Nat) (hN : 1 ≤ N) (hK : 1 ≤ K) :
    server_init_width N K ≤ N := by
  unfold server_init_width
  by_cases h : N % K ≠ 0
  · rw [if_pos h]
    have hK2 : 2 ≤ K := by
      by_contra hc
      have : K = 1 := by omega
      subst this
      simp [Nat.mod_one] at h
    have : N / K < N := Nat.div_lt_self (by omega) (by omega)
    omega
  · rw [if_neg h]
    exact Nat.div_le_self N K

theorem snd_worker_info_le (N K W i : Nat) (hW : 1 ≤ W) : snd_worker_info N K W i ≤ W := by
  unfold snd_worker_info
  split_ifs
  · exact Nat.le_of_lt (Nat.mod_lt _ (by omega))
  · exact le_refl _

theorem worker_snap_some (w : Worker) (j : Nat) (mtext : Nat → Char) (h : w.N < STRSIZE) :
    worker_snap w j mtext =
      some { prm1 := w.id_worker, prm2 := w.N,
             mtext := set1 (fun k => if k < w.N then w.map_state_curr j (1 + k) else mtext k)
               w.N NUL } := by
  unfold worker_snap
  rw [if_pos h]

theorem server_snap_row_step {M N K : Nat} (w : World) (hL : Layout M N K w) (j : Nat)
    (mtext msg : Nat → Char) (i : Nat) (hi : i < K)
    (h1 : w.N < STRSIZE) (h2 : i * w.width + (w.worker i).N ≤ STRSIZE) :
    server_snap_copy w j mtext i msg =
    some (fun k => if k = N then NUL
      else if i * w.width ≤ k ∧ k < i * w.width + (w.worker i).N then
        (w.worker i).map_state_curr j (1 + (k - i * w.width))
      else msg k) := by
  have hW : (w.worker i).N ≤ w.width := by
    rw [hL.wN i hi, hL.hwidth]
    exact snd_worker_info_le _ _ _ _ ((server_init_width_spec N K hL.K_pos).2 hL.N_pos)
  have hWN : w.width ≤ N := by
    rw [hL.hwidth]; exact server_init_width_le N K hL.N_pos hL.K_pos
  have hN := hL.hN
  unfold server_snap_copy
  rw [worker_snap_some _ _ _ (by omega)]
  simp only [Option.bind, hL.wid i hi]
  rw [if_pos ⟨h2, h1⟩]
  congr 1
  funext k
  unfold set1
  simp only [hN]
  by_cases hk : k = N
  · rw [if_pos hk, if_pos hk]
  · rw [if_neg hk, if_neg hk]
    by_cases hr : i * w.width ≤ k ∧ k < i * w.width + (w.worker i).N
    · rw [if_pos hr, if_pos hr, if_neg (by omega), if_pos (by omega)]
    · rw [if_neg hr, if_neg hr]

theorem fits_each {M N K : Nat} (w : World) (hL : Layout M N K w) (hfit : SnapFits N K)
    (i : Nat) (hi : i < K) : i * w.width + (w.worker i).N ≤ STRSIZE := by
  have hW := (server_init_width_spec N K hL.K_pos).2 hL.N_pos
  rw [hL.wN i hi, hL.hwidth]
  have h2 := hfit.2
  by_cases h : i = K - 1
  · rw [h]; exact h2
  · have hle := snd_worker_info_le N K (server_init_width N K) i hW
    have : (i + 1) * server_init_width N K ≤ (K - 1) * server_init_width N K :=
      Nat.mul_le_mul_right _ (by omega)
    rw [Nat.succ_mul] at this
    omega

theorem server_snap_row_spec {M N K : Nat} (w : World) (hL : Layout M N K w)
    (hfit : SnapFits N K) (j : Nat) (mtext msg : Nat → Char) :
    ∃ msg', server_snap_row w (j + 1) mtext msg = some msg' ∧
      (∀ k, k < N → msg' k = universe_cell w j k) ∧ msg' N = NUL := by
  have hW : 1 ≤ w.width := by
    rw [hL.hwidth]; exact (server_init_width_spec N K hL.K_pos).2 hL.N_pos
  have key : ∀ n, n ≤ K → ∃ msg', for_loop_opt (server_snap_copy w (j + 1) mtext) n msg =
      some msg' ∧ (∀ k, k < N → k / w.width < n → msg' k = universe_cell w j k) ∧
      (1 ≤ n → msg' N = NUL) := by
    intro n
    induction n with
    | zero =>
      intro _
      exact ⟨msg, rfl, fun k _ h => absurd h (Nat.not_lt_zero _), fun h => by omega⟩
    | succ n ih =>
      intro hn
      obtain ⟨msg', h1, h2, _⟩ := ih (by omega)
      refine ⟨(fun k => if k = N then NUL
        else if n * w.width ≤ k ∧ k < n * w.width + (w.worker n).N then
          (w.worker n).map_state_curr (j + 1) (1 + (k - n * w.width))
        else msg' k), ?_, ?_, ?_⟩
      · show (for_loop_opt (server_snap_copy w (j + 1) mtext) n msg).bind
          (server_snap_copy w (j + 1) mtext n) = _
        rw [h1]
        exact server_snap_row_step w hL (j + 1) mtext msg' n (by omega)
          (by rw [hL.hN]; exact hfit.1) (fits_each w hL hfit n (by omega))
      · intro k hk hkn
        simp only []
        rw [if_neg (by omega)]
        have hcol := stripe_col N K hL.K_pos hL.K_chk k hk
        rw [← hL.hwidth] at hcol
        have hdm := Nat.div_add_mod k w.width
        by_cases hq : k / w.width = n
        · have hNn : (w.worker n).N = snd_worker_info N K (server_init_width N K) n :=
            hL.wN n (by omega)
          rw [← hL.hwidth] at hNn
          rw [hq, ← hNn] at hcol
          rw [hq, Nat.mul_comm] at hdm
          rw [if_pos (by omega), universe_cell_eq, hq]
          congr 1
          omega
        · have hlt : k / w.width < n := by omega
          have : (k / w.width + 1) * w.width ≤ n * w.width :=
            Nat.mul_le_mul_right _ (by omega)
          rw [Nat.succ_mul, Nat.mul_comm] at this
          have hmod := Nat.mod_lt k (show w.width > 0 by omega)
          rw [if_neg (by omega)]
          exact h2 k hk hlt
      · intro _
        simp only [if_true]
  obtain ⟨msg', h1, h2, h3⟩ := key K (le_refl _)
  refine ⟨msg', ?_, ?_, h3 hL.K_pos⟩
  · unfold server_snap_row
    rw [hL.hK]
    exact h1
  · intro k hk
    have hcol := stripe_col N K hL.K_pos hL.K_chk k hk
    rw [← hL.hwidth] at hcol
    exact h2 k hk hcol.1

theorem universe_cell_ne_nul {M N K : Nat} (w : World) (hL : Layout M N K w) (hC : CellsOk w)
    (r c : Nat) (hr : r < M) (hc : c < N) : universe_cell w r c ≠ NUL := by
  have hcol := stripe_col N K hL.K_pos hL.K_chk c hc
  have hNi := hL.wN _ hcol.1
  rw [← hL.hwidth] at hcol hNi
  have := hC (c / w.width) (by rw [hL.hK]; exact hcol.1) (r + 1) (c % w.width + 1) (by omega)
    (by rw [hL.hM]; omega) (by omega) (by rw [hNi]; rw [hL.hwidth] at hcol ⊢; exact hcol.2)
  rw [universe_cell_eq]
  rcases this with h | h <;> rw [h] <;> decide

/-- When the fragments fit the row buffer, the snapshot is the universe: `M`
    rows of `N` characters, character `c` of row `r` being `universe_cell w r c`. -/
theorem server_snap_eq {M N K : Nat} (w : World) (hL : Layout M N K w)
    (hfit : SnapFits N K) (hC : CellsOk w) (msg0 mtext : Nat → Char) :
    server_snap w msg0 mtext = some (universe_rows w) := by
  have key : ∀ m, m ≤ M → ∃ msg, for_loop_opt (server_snap_line w mtext) m (msg0, []) =
      some (msg, (List.range m).map (fun r =>
        (List.range w.N).map (fun c => universe_cell w r c))) := by
    intro m
    induction m with
    | zero =>
      intro _
      exact ⟨msg0, rfl⟩
    | succ m ih =>
      intro hm
      obtain ⟨msg, h1⟩ := ih (by omega)
      obtain ⟨msg', h2, h3, h4⟩ := server_snap_row_spec w hL hfit m mtext msg
      refine ⟨msg', ?_⟩
      show (for_loop_opt (server_snap_line w mtext) m (msg0, [])).bind
        (server_snap_line w mtext m) = _
      rw [h1]
      show server_snap_line w mtext m _ = _
      unfold server_snap_line
      simp only []
      rw [h2]
      simp only [Option.map]
      have hstr : cstr msg' STRSIZE 0 = (List.range w.N).map (fun c => universe_cell w m c) := by
        rw [cstr_spec msg' N h4 STRSIZE 0 (by omega) (by have := hfit.1; omega)
          (fun k _ hk => by
            rw [h3 k hk]
            exact universe_cell_ne_nul w hL hC m k (by omega) hk)]
        rw [Nat.sub_zero, ← List.range_eq_range', hL.hN]
        apply List.map_congr_left
        intro k hk
        exact h3 k (List.mem_range.mp hk)
      rw [hstr, List.range_succ, List.map_append]
      rfl
  obtain ⟨msg, h⟩ := key M (le_refl _)
  unfold server_snap universe_rows
  rw [hL.hM, h]
  rfl

/-! ## Adding and deleting a cell -/

theorem World.put_put (w : World) (i : Nat) (r r' : Worker × Shm) :
    (w.put i r).put i r' = w.put i r' := by
  unfold World.put
  simp only [World.mk.injEq, true_and, and_true]
  funext k
  by_cases h : k = i <;> simp [h]

theorem World.put_worker_self (w : World) (i : Nat) (r : Worker × Shm) :
    (w.put i r).worker i = r.1 := by
  show (if i = i then r.1 else w.worker i) = r.1
  rw [if_pos rfl]

theorem Shm.eq_of (a b : Shm) (h1 : a.left = b.left) (h2 : a.right = b.right) : a = b := by
  cases a
  cases b
  simp only [Shm.mk.injEq]
  exact ⟨h1, h2⟩

theorem universe_cell_put_set (w : World) (r c : Nat) (v : Char) (r' c' : Nat) :
    universe_cell (w.put (c / w.width)
      (worker_set (w.worker (c / w.width)) w.shm (r + 1) (c % w.width + 1) v)) r' c' =
      if r' = r ∧ c' = c then v else universe_cell w r' c' := by
  rw [universe_cell_eq, universe_cell_eq]
  show (if c' / w.width = c / w.width then
      (worker_set (w.worker (c / w.width)) w.shm (r + 1) (c % w.width + 1) v).1
    else w.worker (c' / w.width)).map_state_curr (r' + 1) (c' % w.width + 1) = _
  by_cases hq : c' / w.width = c / w.width
  · rw [if_pos hq]
    show set2 (w.worker (c / w.width)).map_state_curr (r + 1) (c % w.width + 1) v (r' + 1)
      (c' % w.width + 1) = _
    rw [set2_apply, hq]
    have h1 := Nat.div_add_mod c w.width
    have h2 := Nat.div_add_mod c' w.width
    rw [hq] at h2
    by_cases h : r' = r ∧ c' = c
    · rw [if_pos h, if_pos ⟨by omega, by rw [h.2]⟩]
    · rw [if_neg h, if_neg]
      intro hcon
      apply h
      have : c' % w.width = c % w.width := by omega
      rw [this] at h2
      omega
  · rw [if_neg hq, if_neg]
    intro hcon
    apply hq
    rw [hcon.2]

/-! ## Clearing -/

theorem snap_fits_of_proper (N K : Nat) (hK : 1 ≤ K) (hN : N < STRSIZE)
    (hp : server_init_width N K * (K - 1) < N) : SnapFits N K := by
  have h1 := (server_init_width_spec N K hK).1
  refine ⟨hN, ?_⟩
  rw [snd_worker_info_proper N K _ hK h1 hp, if_pos rfl, Nat.mul_comm]
  omega

theorem conway_step_congr (M N : Nat) (g g' : Nat → Nat → Char) (hM : 1 ≤ M) (hN : 1 ≤ N)
    (h : ∀ r c, r < M → c < N → g r c = g' r c) (r c : Nat) (hr : r < M) (hc : c < N) :
    conway_step M N g r c = conway_step M N g' r c := by
  have hm : ∀ x, x % M < M := fun x => Nat.mod_lt _ (by omega)
  have hn : ∀ x, x % N < N := fun x => Nat.mod_lt _ (by omega)
  unfold conway_step
  rw [torus_neighbours_eq, torus_neighbours_eq, h r c hr hc]
  simp only [h _ _ (hm _) (hn _)]

/-! ## The stripe widths, when the partition is a partition -/

theorem sum_map_range_const (W n : Nat) (f : Nat → Nat) (hf : ∀ i, i < n → f i = W) :
    ((List.range n).map f).sum = n * W := by
  induction n with
  | zero => simp
  | succ n ih =>
    rw [List.range_succ, List.map_append, List.sum_append, ih (fun i hi => hf i (by omega)),
      Nat.succ_mul]
    simp [hf n (by omega)]

/-- When `width * (K-1) < N`, every stripe width is at least 1, the last one is
    `N - width * (K-1)`, and the widths add up to `N`. -/
theorem stripe_widths_proper (N K : Nat) (hK : 1 ≤ K)
    (hp : server_init_width N K * (K - 1) < N) :
    (∀ i, i < K → 1 ≤ snd_worker_info N K (server_init_width N K) i) ∧
    snd_worker_info N K (server_init_width N K) (K - 1) =
      N - server_init_width N K * (K - 1) ∧
    (stripe_widths N K).sum = N := by
  have h1 := (server_init_width_spec N K hK).1
  have hW := (server_init_width_spec N K hK).2 (by omega)
  refine ⟨?_, ?_, ?_⟩
  · intro i _
    rw [snd_worker_info_proper N K _ hK h1 hp]
    split_ifs <;> omega
  · rw [snd_worker_info_proper N K _ hK h1 hp, if_pos rfl]
  · obtain ⟨k, rfl⟩ : ∃ k, K = k + 1 := ⟨K - 1, by omega⟩
    unfold stripe_widths
    rw [List.range_succ, List.map_append, List.sum_append,
      sum_map_range_const (server_init_width N (k + 1)) k _ (fun i hi => by
        rw [snd_worker_info_proper N (k + 1) _ hK h1 hp, if_neg (by simp; omega)])]
    simp only [List.map_cons, List.map_nil, List.sum_cons, List.sum_nil, Nat.add_zero]
    rw [snd_worker_info_proper N (k + 1) _ hK h1 hp, if_pos (by simp)]
    simp only [Nat.add_sub_cancel] at hp ⊢
    have e : server_init_width N (k + 1) * k = k * server_init_width N (k + 1) :=
      Nat.mul_comm _ _
    rw [e] at hp ⊢
    omega

/-! ## The receives -/

theorem sizeof_message_eq : SIZEOF_MESSAGE = 4120 := by decide

theorem msgrcv_overrun {α : Type} (msgsz : Nat) (h : SIZEOF_MESSAGE < SIZEOF_LONG + msgsz)
    (sent : α) : msgrcv msgsz sent = none := by
  unfold msgrcv
  rw [if_neg (by omega)]

theorem msgrcv_sizeof_message {α : Type} (sent : α) : msgrcv SIZEOF_MESSAGE sent = none :=
  msgrcv_overrun SIZEOF_MESSAGE (by decide) sent

theorem worker_main_pass_none (w : World) (i : Nat) (op : WorkerOp) :
    worker_main_pass w i op = none := by
  unfold worker_main_pass rcv_server_message
  rw [msgrcv_sizeof_message]
  rfl

theorem client_check_partition_one (N : Nat) (hN : 1 ≤ N) : client_check_partition N 1 = 1 := by
  unfold client_check_partition
  rw [if_neg (by omega)]
  have : check_partition_loop N 1 false = (1, false) := by
    rw [check_partition_loop_succ, if_pos (by simp)]
  rw [this]
  rfl

theorem ghost_demo_reachable : Reachable 3 4 3 ghost_demo :=
  Reachable.add _ 2 2 true (Reachable.add _ 2 1 true (Reachable.add _ 2 4 true Reachable.init))

/-- C1 (code defect).  At `M = 3`, `N = 4` and requested `K = 3` the
    partitioner keeps 3 workers of width 2, the third of which owns no column.
    From the reachable state `ghost_demo` (boundary buffers equal to the edge
    columns, snapshot `....`, `**.*`, `....`) one generation broadcast leaves a
    snapshot of dead cells, while the successor of that grid on the `3 × 4` torus
    has column 1 alive in every row. -/
theorem ghost_stripe_breaks_generation :
    client_check_partition 4 3 = 3 ∧ stripe_widths 4 3 = [2, 2, 2] ∧
    Reachable 3 4 3 ghost_demo ∧ BufInv ghost_demo ∧
    (∀ msg0 mtext, server_snap ghost_demo msg0 mtext =
      some ["....".toList, "**.*".toList, "....".toList]) ∧
    (∀ msg0 mtext, server_snap (server_next_generation ghost_demo) msg0 mtext =
      some ["....".toList, "....".toList, "....".toList]) ∧
    (List.range 3).map (fun r => (List.range 4).map (fun c =>
      conway_step 3 4 (universe_cell ghost_demo) r c)) =
      ["*...".toList, "*...".toList, "*...".toList] := by
  have hinv := reachable_inv (by decide) (by decide) (by decide) (by decide) (by decide)
    ghost_demo ghost_demo_reachable
  have hfit : SnapFits 4 3 := by
    unfold SnapFits
    decide
  refine ⟨by decide, by decide, ghost_demo_reachable, hinv.2.1, ?_, ?_, by decide⟩
  · intro msg0 mtext
    rw [server_snap_eq ghost_demo hinv.1 hfit hinv.2.2]
    decide
  · intro msg0 mtext
    rw [server_snap_eq _ (layout_next _ hinv.1) hfit (cellsok_next _ hinv.1 hinv.2.2)]
    decide

/-- C2 (code defect).  For `N = 4` and `K = 3` the partitioner keeps `K' = 3`
    (its test `width * (K-1) <= N` accepts `2 * 2 <= 4`), the server computes
    `width = 2` and hands out the widths 2, 2, 2: the last one is not
    `N - width * (K'-1) = 0` and the sum is 6, not 4. -/
theorem ghost_stripe_widths :
    client_check_partition 4 3 = 3 ∧ server_init_width 4 3 = 2 ∧
    stripe_widths 4 3 = [2, 2, 2] ∧
    snd_worker_info 4 3 (server_init_width 4 3) (3 - 1) ≠ 4 - server_init_width 4 3 * (3 - 1) ∧
    (stripe_widths 4 3).sum = 6 := by
  decide

/-- C3.  For every `N ≥ 1` and every `K > N`, `client_check_partition N K`
    is `N`, and the width the server computes from `(N, N)` is 1. -/
theorem too_many_workers_clamped (N K : Nat) (hN : 1 ≤ N) (hK : N < K) :
    client_check_partition N K = N ∧ server_init_width N N = 1 := by
  constructor
  · unfold client_check_partition
    simp [hK]
  · unfold server_init_width
    have : N / N = 1 := Nat.div_self hN
    simp [this]

theorem too_many_workers_clamped_witness :
    1 ≤ 3 ∧ 3 < 5 ∧ client_check_partition 3 5 = 3 ∧ server_init_width 3 3 = 1 :=
  ⟨by decide, by decide, too_many_workers_clamped 3 5 (by decide) (by decide)⟩

/-- What `worker_start` does with one worker when it runs on intact globals.
    With one worker (`K = 1`, stripe width `N`, both neighbours worker 0), in
    every state reached by `add`, `del`, `clear` and generation broadcasts:
    the ghost columns read by `worker_update_map` are the worker's own last
    column (left ghost) and first column (right ghost), and the grid after
    `worker_start` is one step of the rule on the `M × N` grid with indices
    taken modulo `M` and modulo `N`. -/
theorem single_worker_is_monolithic (M N : Nat) (hM : 1 ≤ M) (hN : 1 ≤ N) (w : World)
    (h : Reachable M N 1 w) :
    client_check_partition N 1 = 1 ∧ (w.worker 0).N = N ∧
    (w.worker 0).id_collab_left = 0 ∧ (w.worker 0).id_collab_right = 0 ∧
    (∀ r, 1 ≤ r → r ≤ M →
      (worker_update_map (w.worker 0) w.shm).map_state_prev r 0 =
        (w.worker 0).map_state_curr r N ∧
      (worker_update_map (w.worker 0) w.shm).map_state_prev r (N + 1) =
        (w.worker 0).map_state_curr r 1) ∧
    (∀ r c, r < M → c < N →
      (worker_start (w.worker 0) w.shm).1.map_state_curr (r + 1) (c + 1) =
        conway_step M N (fun r c => (w.worker 0).map_state_curr (r + 1) (c + 1)) r c) := by
  have hchk : server_init_width N 1 * (1 - 1) ≤ N := by simp
  have hp : server_init_width N 1 * (1 - 1) < N := by simp; omega
  obtain ⟨hL, hB, hC⟩ := reachable_inv hM hN (le_refl 1) (by decide) hchk w h
  have hwN : (w.worker 0).N = N := by
    rw [hL.wN 0 (by omega), server_init_width_one]
    unfold snd_worker_info
    simp
  have hwidth : w.width = N := by rw [hL.hwidth, server_init_width_one]
  have hl : (w.worker 0).id_collab_left = 0 := by rw [hL.wleft 0 (by omega)]; rfl
  have hr : (w.worker 0).id_collab_right = 0 := by rw [hL.wright 0 (by omega)]; rfl
  have hid : (w.worker 0).id_worker = 0 := hL.wid 0 (by omega)
  refine ⟨client_check_partition_one N hN, hwN, hl, hr, ?_, ?_⟩
  · intro r hr1 hr2
    have hb := hB 0 (by rw [hL.hK]; omega) (r - 1) (by rw [hL.hM]; omega)
    have hr' : r - 1 + 1 = r := by omega
    rw [hr', hwN] at hb
    have hw : wrap_row (w.worker 0).M r = r := by
      unfold wrap_row
      rw [if_neg (by omega), if_neg (by rw [hL.wM 0 (by omega)]; omega)]
    rw [worker_update_map_prev _ _ (by rw [hL.wM 0 (by omega)]; exact hM) r 0
        (by rw [hL.wM 0 (by omega)]; omega) (by omega),
      worker_update_map_prev _ _ (by rw [hL.wM 0 (by omega)]; exact hM) r (N + 1)
        (by rw [hL.wM 0 (by omega)]; omega) (by omega),
      if_pos rfl, if_neg (by omega), if_pos (by rw [hwN]), hw]
    constructor
    · show w.shm.right (ftok_key (w.worker 0).id_collab_left) (r - 1) = _
      rw [hl, hb.2]
    · show w.shm.left (ftok_key (w.worker 0).id_collab_right) (r - 1) = _
      rw [hr, hb.1]
  · intro r c hr1 hc1
    have hdiv : c / N = 0 := Nat.div_eq_of_lt hc1
    have hmod : c % N = c := Nat.mod_eq_of_lt hc1
    have hcell : ∀ r' c', r' < M → c' < N →
        universe_cell w r' c' = (w.worker 0).map_state_curr (r' + 1) (c' + 1) := by
      intro r' c' _ hc'
      rw [universe_cell_eq, hwidth, Nat.div_eq_of_lt hc', Nat.mod_eq_of_lt hc']
    have hnext := next_generation_conway w hL hp hB hC r c hr1 hc1
    rw [universe_cell_eq] at hnext
    have hw' : (server_next_generation w).width = N := hwidth
    rw [hw', hdiv, hmod, server_next_worker w 0 (by rw [hL.hK]; omega)] at hnext
    show (worker_apply_rule (worker_update_map (w.worker 0) w.shm)).map_state_curr (r + 1)
      (c + 1) = _
    rw [hnext]
    exact conway_step_congr M N _ _ hM hN hcell r c hr1 hc1

/-- C5.  For every `K ≥ 1` and every worker index `i < K`,
    `worker_define_partners(i)` sets the left neighbour to `(i-1+K) mod K` and
    the right neighbour to `(i+1) mod K` (computed on integers); for `K = 1`
    both are worker 0. -/
theorem ring_of_partners (K i : Nat) (hK : 1 ≤ K) (hi : i < K) :
    ((worker_define_partners K i).1 : Int) = ((i : Int) - 1 + (K : Int)) % (K : Int) ∧
    ((worker_define_partners K i).2 : Int) = ((i : Int) + 1) % (K : Int) ∧
    (K = 1 → worker_define_partners K i = (0, 0)) := by
  rw [partners_eq K i hK hi]
  refine ⟨?_, ?_, ?_⟩
  · by_cases h0 : i = 0
    · subst h0
      simp only [if_true]
      rw [Int.emod_eq_of_lt (by omega) (by omega)]
      omega
    · simp only [h0, if_false]
      have : (i : Int) - 1 + (K : Int) = (i : Int) - 1 + (K : Int) * 1 := by ring
      rw [this, Int.add_mul_emod_self_left, Int.emod_eq_of_lt (by omega) (by omega)]
      omega
  · by_cases hl : i = K - 1
    · simp only [hl, if_true]
      have : (((K - 1 : Nat) : Int) + 1) = (K : Int) := by omega
      rw [this]
      simp
    · simp only [hl, if_false]
      rw [Int.emod_eq_of_lt (by omega) (by omega)]
      simp
  · intro h1
    subst h1
    have : i = 0 := by omega
    subst this
    rfl

theorem ring_of_partners_witness :
    1 ≤ 3 ∧ 0 < 3 ∧
    ((worker_define_partners 3 0).1 : Int) =
      (((0 : Nat) : Int) - 1 + ((3 : Nat) : Int)) % ((3 : Nat) : Int) ∧
    ((worker_define_partners 3 0).2 : Int) = (((0 : Nat) : Int) + 1) % ((3 : Nat) : Int) :=
  ⟨by decide, by decide, (ring_of_partners 3 0 (by decide) (by decide)).1,
    (ring_of_partners 3 0 (by decide) (by decide)).2.1⟩

/-- C6.  For every `(row, col)` and both operations, `server_add` replies `OK`
    exactly when `1 ≤ row ≤ M` and `1 ≤ col ≤ N`; otherwise it replies with the
    out-of-borders error, sends nothing to any worker and leaves the whole state
    (worker grids, boundary buffers, step counter) as it was. -/
theorem server_add_validates (w : World) (x y : Int) (c : Bool) :
    ((server_add w x y c).reply = Reply.ok ↔ (1 ≤ x ∧ x ≤ w.M ∧ 1 ≤ y ∧ y ≤ w.N)) ∧
    ((1 ≤ x ∧ x ≤ w.M ∧ 1 ≤ y ∧ y ≤ w.N) ∨
      ((server_add w x y c).reply = Reply.error_borders ∧ (server_add w x y c).sent = [] ∧
        (server_add w x y c).world = w)) := by
  by_cases h : 1 ≤ x ∧ x ≤ w.M ∧ 1 ≤ y ∧ y ≤ w.N
  · refine ⟨⟨fun _ => h, fun _ => ?_⟩, Or.inl h⟩
    unfold server_add
    rw [if_neg (by rw [not_not]; exact h)]
  · rw [server_add_out w x y c h]
    refine ⟨⟨fun hc => ?_, fun hc => absurd hc h⟩, Or.inr ⟨rfl, rfl, rfl⟩⟩
    exact Reply.noConfusion hc

theorem server_init_steps (M N K : Nat) : (server_init M N K).steps = 0 := by
  rw [server_init_eq]

/-- The round trip through the snapshot: in every layout whose fragments fit the row buffer
    (`SnapFits`), in every state with cells `'.'` or `'*'`, and for every
    in-bounds cell `(r+1, c+1)`: the snapshot is the universe, and after `add`
    (`b` true) or `del` (`b` false) the universe shows `'*'` or `'.'` at that
    cell and is unchanged everywhere else. -/
theorem add_del_snapshot {M N K : Nat} (w : World) (hL : Layout M N K w)
    (hfit : SnapFits N K) (hC : CellsOk w) (r c : Nat) (hr : r < M) (hc : c < N) (b : Bool)
    (msg0 mtext : Nat → Char) :
    server_snap w msg0 mtext = some (universe_rows w) ∧
    server_snap (server_add w ((r : Int) + 1) ((c : Int) + 1) b).world msg0 mtext =
      some (universe_rows (server_add w ((r : Int) + 1) ((c : Int) + 1) b).world) ∧
    (∀ r' c', universe_cell (server_add w ((r : Int) + 1) ((c : Int) + 1) b).world r' c' =
      if r' = r ∧ c' = c then (if b then '*' else '.') else universe_cell w r' c') := by
  refine ⟨server_snap_eq w hL hfit hC msg0 mtext,
    server_snap_eq _ (layout_add w hL _ _ b) hfit (cellsok_add w hL hC _ _ b) msg0 mtext, ?_⟩
  intro r' c'
  rw [server_add_in w hL r c hr hc b]
  exact universe_cell_put_set w r c _ r' c'

/-- C9.  With the step counter not negative (it starts at 0 and `start` and
    `stop` keep it so): `start(n)` is accepted exactly
    when the counter is 0 and `n ≥ 1`, and then only sets the counter to `n`;
    `stop` is accepted exactly when the counter is positive, and then only sets
    it to 0; `clear` is accepted exactly when the counter is 0.  Every rejected
    `start`, `stop` or `clear` replies with an error, sends nothing to any
    worker and leaves the whole state as it was. -/
theorem run_state_preconditions (w : World) (n : Int) (h : 0 ≤ w.steps) :
    ((server_start w n).reply = Reply.ok ↔ (w.steps = 0 ∧ 1 ≤ n)) ∧
    (((server_start w n).reply = Reply.ok ∧ (server_start w n).sent = [] ∧
        (server_start w n).world = { w with steps := n }) ∨
      (((server_start w n).reply = Reply.error_working ∨
          (server_start w n).reply = Reply.error_positive) ∧
        (server_start w n).sent = [] ∧ (server_start w n).world = w)) ∧
    ((server_stop w).reply = Reply.ok ↔ 0 < w.steps) ∧
    (((server_stop w).reply = Reply.ok ∧ (server_stop w).sent = [] ∧
        (server_stop w).world = { w with steps := 0 }) ∨
      ((server_stop w).reply = Reply.error_not_working ∧ (server_stop w).sent = [] ∧
        (server_stop w).world = w)) ∧
    ((server_clear w).reply = Reply.ok ↔ w.steps = 0) ∧
    ((server_clear w).reply = Reply.ok ∨
      ((server_clear w).reply = Reply.error_working ∧ (server_clear w).sent = [] ∧
        (server_clear w).world = w)) ∧
    (0 ≤ (server_start w n).world.steps ∧ 0 ≤ (server_stop w).world.steps) := by
  refine ⟨?_, ?_, ?_, ?_, ?_, ?_, ?_, ?_⟩
  · unfold server_start
    by_cases h1 : w.steps > 0
    · rw [if_pos h1]
      exact ⟨fun hc => Reply.noConfusion hc, fun hc => by omega⟩
    · rw [if_neg h1]
      by_cases h2 : n < 1
      · rw [if_pos h2]
        exact ⟨fun hc => Reply.noConfusion hc, fun hc => by omega⟩
      · rw [if_neg h2]
        exact ⟨fun _ => ⟨by omega, by omega⟩, fun _ => rfl⟩
  · unfold server_start
    by_cases h1 : w.steps > 0
    · rw [if_pos h1]
      exact Or.inr ⟨Or.inl rfl, rfl, rfl⟩
    · rw [if_neg h1]
      by_cases h2 : n < 1
      · rw [if_pos h2]
        exact Or.inr ⟨Or.inr rfl, rfl, rfl⟩
      · rw [if_neg h2]
        exact Or.inl ⟨rfl, rfl, rfl⟩
  · unfold server_stop
    by_cases h1 : w.steps = 0
    · rw [if_pos h1]
      exact ⟨fun hc => Reply.noConfusion hc, fun hc => by omega⟩
    · rw [if_neg h1]
      exact ⟨fun _ => by omega, fun _ => rfl⟩
  · unfold server_stop
    by_cases h1 : w.steps = 0
    · rw [if_pos h1]
      exact Or.inr ⟨rfl, rfl, rfl⟩
    · rw [if_neg h1]
      exact Or.inl ⟨rfl, rfl, rfl⟩
  · unfold server_clear
    by_cases h1 : w.steps > 0
    · rw [if_pos h1]
      exact ⟨fun hc => Reply.noConfusion hc, fun hc => by omega⟩
    · rw [if_neg h1]
      exact ⟨fun _ => by omega, fun _ => rfl⟩
  · unfold server_clear
    by_cases h1 : w.steps > 0
    · rw [if_pos h1]
      exact Or.inr ⟨rfl, rfl, rfl⟩
    · rw [if_neg h1]
      exact Or.inl rfl
  · unfold server_start
    by_cases h1 : w.steps > 0
    · rw [if_pos h1]
      exact h
    · rw [if_neg h1]
      by_cases h2 : n < 1
      · rw [if_pos h2]
        exact h
      · rw [if_neg h2]
        show 0 ≤ n
        omega
  · unfold server_stop
    by_cases h1 : w.steps = 0
    · rw [if_pos h1]
      exact h
    · rw [if_neg h1]

theorem run_state_preconditions_witness :
    (0 : Int) ≤ (server_init 1 1 1).steps ∧
    ((server_start (server_init 1 1 1) 3).reply = Reply.ok ↔
      ((server_init 1 1 1).steps = 0 ∧ (1 : Int) ≤ 3)) ∧
    ((server_stop (server_init 1 1 1)).reply = Reply.ok ↔ 0 < (server_init 1 1 1).steps) :=
  ⟨le_of_eq (server_init_steps 1 1 1).symm,
    (run_state_preconditions (server_init 1 1 1) 3
      (le_of_eq (server_init_steps 1 1 1).symm)).1,
    (run_state_preconditions (server_init 1 1 1) 3
      (le_of_eq (server_init_steps 1 1 1).symm)).2.2.1⟩

theorem universe_cell_ok {M N K : Nat} (w : World) (hL : Layout M N K w) (hC : CellsOk w)
    (r c : Nat) (hr : r < M) (hc : c < N) :
    universe_cell w r c = '.' ∨ universe_cell w r c = '*' := by
  obtain ⟨h1, h2⟩ := stripe_col N K hL.K_pos hL.K_chk c hc
  unfold universe_cell
  rw [hL.hwidth]
  apply hC (c / server_init_width N K) (by rw [hL.hK]; exact h1) (r + 1)
    (c % server_init_width N K + 1) (by omega) (by rw [hL.hM]; omega) (by omega)
  rw [hL.wN _ h1]
  exact h2

/-- With stripes that add up to `N` (`width * (K-1) < N`) and `N < 4096`, in
    every reachable state `server_snap` sends `M` rows of exactly `N` characters,
    each `'.'` or `'*'`; worker `i` answers with a fragment of length `width`,
    the last worker with one of length `N - width * (K-1)`; and character `c` of
    row `j` is cell `(j, c mod width + 1)` of worker `c / width`. -/
theorem snapshot_rows_proper {M N K : Nat} (hM : 1 ≤ M) (hN : 1 ≤ N) (hN2 : N < STRSIZE)
    (hK : 1 ≤ K) (hp : server_init_width N K * (K - 1) < N) (w : World)
    (h : Reachable M N K w) (msg0 mtext : Nat → Char) :
    server_snap w msg0 mtext = some (universe_rows w) ∧
    (universe_rows w).length = M ∧
    (∀ j, j < M → ∃ row, (universe_rows w).get? j = some row ∧ row.length = N ∧
      ∀ c, c < N → ∃ ch, row.get? c = some ch ∧ (ch = '.' ∨ ch = '*') ∧
        ch = (w.worker (c / server_init_width N K)).map_state_curr (j + 1)
          (c % server_init_width N K + 1)) ∧
    (∀ i, i < K → ∀ j, ∃ m, worker_snap (w.worker i) j mtext = some m ∧ m.prm1 = i ∧
      m.prm2 = if i = K - 1 then N - server_init_width N K * (K - 1)
        else server_init_width N K) := by
  obtain ⟨hL, hC⟩ := reachable_layout hM hN hK (by omega) w h
  have hfit := snap_fits_of_proper N K hK hN2 hp
  refine ⟨server_snap_eq w hL hfit hC msg0 mtext, ?_, ?_, ?_⟩
  · simp [universe_rows, hL.hM]
  · intro j hj
    refine ⟨(List.range w.N).map (fun c => universe_cell w j c), ?_, ?_, ?_⟩
    · simp [universe_rows, hL.hM, hj]
    · simp [hL.hN]
    · intro c hc
      refine ⟨universe_cell w j c, ?_, universe_cell_ok w hL hC j c hj hc, ?_⟩
      · simp [hL.hN, hc]
      · unfold universe_cell
        rw [hL.hwidth]
  · intro i hi j
    have hwN : (w.worker i).N = if i = K - 1 then N - server_init_width N K * (K - 1)
        else server_init_width N K := by
      rw [hL.wN i hi]
      exact snd_worker_info_proper N K _ hK (server_init_width_spec N K hK).1 hp i
    have hlt : (w.worker i).N < STRSIZE := by
      rw [hwN]
      split_ifs with hi2
      · omega
      · have hk : 1 ≤ K - 1 := by omega
        have := Nat.mul_le_mul_left (server_init_width N K) hk
        omega
    exact ⟨_, worker_snap_some (w.worker i) j mtext hlt, hL.wid i hi, hwN⟩

/-- C11 (code defect, the same as in C1, C2 and C7).  For `N = 4` and `K = 3`
    the partitioner keeps `K' = 3` and `width = 2`, and in the reachable state
    `ghost_demo` of the universe `3 × 4` the last worker answers every row of a
    snapshot with a fragment of length 2, not `N - width * (K'-1) = 0`; the
    server copies it to offset `2 * 2 = 4 = N`, past the end of the row. -/
theorem ghost_stripe_fragment_length :
    client_check_partition 4 3 = 3 ∧ ghost_demo.width = 2 ∧ ghost_demo.N = 4 ∧
    Reachable 3 4 3 ghost_demo ∧
    (∀ j mtext, (worker_snap (ghost_demo.worker 2) j mtext).map (fun m => (m.prm1, m.prm2)) =
      some (2, 2)) ∧
    4 - 2 * (3 - 1) = 0 ∧ (2 : Nat) ≠ 4 - 2 * (3 - 1) := by
  have hinv := reachable_inv (by decide) (by decide) (by decide) (by decide) (by decide)
    ghost_demo ghost_demo_reachable
  have hw : ghost_demo.width = 2 := by rw [hinv.1.hwidth]; decide
  have hn : (ghost_demo.worker 2).N = 2 := by rw [hinv.1.wN 2 (by decide)]; decide
  have hid : (ghost_demo.worker 2).id_worker = 2 := hinv.1.wid 2 (by decide)
  refine ⟨by decide, hw, hinv.1.hN, ghost_demo_reachable, ?_, by decide, by decide⟩
  intro j mtext
  rw [worker_snap_some _ j mtext (by rw [hn]; decide)]
  show some ((ghost_demo.worker 2).id_worker, (ghost_demo.worker 2).N) = _
  rw [hn, hid]

/-! ## The broadcast and its barrier -/

theorem bcast_send_spec (i : Nat) (l : List Nat) (st : Nat × List BcastEvent) :
    (bcast_send i l st).1 = st.1 + l.sum ∧
    (bcast_send i l st).2.count BcastEvent.drained = st.2.count BcastEvent.drained + l.sum ∧
    (bcast_send i l st).2.count BcastEvent.waited = st.2.count BcastEvent.waited ∧
    ∀ j, (bcast_send i l st).2.count (BcastEvent.sent j) =
      st.2.count (BcastEvent.sent j) + (if j = i then 1 else 0) := by
  induction l generalizing st with
  | nil =>
    refine ⟨by simp [bcast_send], by simp [bcast_send], by simp [bcast_send], ?_⟩
    intro j
    by_cases h : j = i
    · subst h; simp [bcast_send]
    · have h' : ¬ i = j := fun e => h e.symm
      simp [bcast_send, h, h']
  | cons d rest ih =>
    obtain ⟨h1, h2, h3, h4⟩ := ih (st.1 + d, st.2 ++ [BcastEvent.send_failed i] ++
      List.replicate d BcastEvent.drained)
    refine ⟨?_, ?_, ?_, ?_⟩
    · show (bcast_send i rest _).1 = _
      rw [h1]; simp [Nat.add_assoc]
    · show (bcast_send i rest _).2.count _ = _
      rw [h2]; simp [List.count_replicate, Nat.add_assoc]
    · show (bcast_send i rest _).2.count _ = _
      rw [h3]; simp [List.count_replicate]
    · intro j
      show (bcast_send i rest _).2.count _ = _
      rw [h4]; simp [List.count_replicate]

theorem bcast_sends_spec (fails : Nat → List Nat) (K : Nat) :
    (for_loop (fun i st => bcast_send i (fails i) st) K (0, [])).1 = drained_total K fails ∧
    (for_loop (fun i st => bcast_send i (fails i) st) K (0, [])).2.count BcastEvent.drained =
      drained_total K fails ∧
    (for_loop (fun i st => bcast_send i (fails i) st) K (0, [])).2.count BcastEvent.waited = 0 ∧
    ∀ j, (for_loop (fun i st => bcast_send i (fails i) st) K (0, [])).2.count
      (BcastEvent.sent j) = if j < K then 1 else 0 := by
  induction K with
  | zero => simp [for_loop, drained_total]
  | succ K ih =>
    obtain ⟨h1, h2, h3, h4⟩ := ih
    obtain ⟨g1, g2, g3, g4⟩ := bcast_send_spec K (fails K)
      (for_loop (fun i st => bcast_send i (fails i) st) K (0, []))
    have hd : drained_total (K + 1) fails = drained_total K fails + (fails K).sum := by
      simp [drained_total, List.range_succ]
    refine ⟨?_, ?_, ?_, ?_⟩
    · show (bcast_send K (fails K) _).1 = _
      rw [g1, h1, hd]
    · show (bcast_send K (fails K) _).2.count _ = _
      rw [g2, h2, hd]
    · show (bcast_send K (fails K) _).2.count _ = _
      rw [g3, h3]
    · intro j
      show (bcast_send K (fails K) _).2.count _ = _
      rw [g4, h4]
      split_ifs <;> omega

theorem bcast_wait_spec (K : Nat) (fuel : Nat) (st : Nat × List BcastEvent)
    (hfuel : K < st.1 + fuel) :
    (bcast_wait K fuel st).2.count BcastEvent.waited =
      st.2.count BcastEvent.waited + (K - st.1) ∧
    (bcast_wait K fuel st).2.count BcastEvent.drained = st.2.count BcastEvent.drained ∧
    ∀ j, (bcast_wait K fuel st).2.count (BcastEvent.sent j) =
      st.2.count (BcastEvent.sent j) := by
  induction fuel generalizing st with
  | zero =>
    have h0 : K - st.1 = 0 := by omega
    simp [bcast_wait, h0]
  | succ fuel ih =>
    by_cases h : st.1 < K
    · obtain ⟨h1, h2, h3⟩ := ih (st.1 + 1, st.2 ++ [BcastEvent.waited])
        (by show K < st.1 + 1 + fuel; omega)
      have e : bcast_wait K (fuel + 1) st =
          bcast_wait K fuel (st.1 + 1, st.2 ++ [BcastEvent.waited]) := by
        simp [bcast_wait, h]
      rw [e]
      refine ⟨?_, ?_, ?_⟩
      · rw [h1]; simp; omega
      · rw [h2]; simp
      · intro j; rw [h3]; simp
    · have e : bcast_wait K (fuel + 1) st = (st.1 + 1, st.2) := by
        simp [bcast_wait, h]
      have h0 : K - st.1 = 0 := by omega
      rw [e]
      simp [h0]

theorem bcast_wait_counter (K : Nat) (fuel : Nat) (st : Nat × List BcastEvent)
    (hle : st.1 ≤ K) (hfuel : K < st.1 + fuel) : (bcast_wait K fuel st).1 = K + 1 := by
  induction fuel generalizing st with
  | zero => omega
  | succ fuel ih =>
    by_cases h : st.1 < K
    · have e : bcast_wait K (fuel + 1) st =
          bcast_wait K fuel (st.1 + 1, st.2 ++ [BcastEvent.waited]) := by
        simp [bcast_wait, h]
      rw [e]
      exact ih (st.1 + 1, st.2 ++ [BcastEvent.waited]) (by show st.1 + 1 ≤ K; omega)
        (by show K < st.1 + 1 + fuel; omega)
    · have e : bcast_wait K (fuel + 1) st = (st.1 + 1, st.2) := by
        simp [bcast_wait, h]
      rw [e]
      show st.1 + 1 = K + 1
      omega

/-- C12: in a broadcast to `K` workers whose failed sends drain `d ≤ K`
    acknowledgements in all, the final phase performs exactly `K - d` blocking
    waits and then leaves its last loop (`counter` is `K + 1` after the failing
    test), so that drained and awaited acknowledgements together are exactly
    `K`, and every worker `0 .. K-1` is sent the operation exactly once (and no
    other worker is sent anything). -/
theorem broadcast_barrier_counts (K : Nat) (fails : Nat → List Nat)
    (hd : drained_total K fails ≤ K) :
    (server_broadcast K fails).2.count BcastEvent.waited = K - drained_total K fails ∧
    (server_broadcast K fails).2.count BcastEvent.drained = drained_total K fails ∧
    (server_broadcast K fails).2.count BcastEvent.drained +
      (server_broadcast K fails).2.count BcastEvent.waited = K ∧
    (server_broadcast K fails).1 = K + 1 ∧
    ∀ i, (server_broadcast K fails).2.count (BcastEvent.sent i) = if i < K then 1 else 0 := by
  obtain ⟨h1, h2, h3, h4⟩ := bcast_sends_spec fails K
  obtain ⟨g1, g2, g3⟩ := bcast_wait_spec K (K + 1)
    (for_loop (fun i st => bcast_send i (fails i) st) K (0, [])) (by omega)
  have e1 : (server_broadcast K fails).2.count BcastEvent.waited = K - drained_total K fails := by
    show (bcast_wait K (K + 1) _).2.count _ = _
    rw [g1, h3, h1]; omega
  have e2 : (server_broadcast K fails).2.count BcastEvent.drained = drained_total K fails := by
    show (bcast_wait K (K + 1) _).2.count _ = _
    rw [g2, h2]
  refine ⟨e1, e2, ?_, ?_, ?_⟩
  · rw [e1, e2]; omega
  · exact bcast_wait_counter K (K + 1) _ (by rw [h1]; exact hd) (by omega)
  · intro i
    show (bcast_wait K (K + 1) _).2.count _ = _
    rw [g3, h4]

theorem broadcast_barrier_counts_witness :
    drained_total 3 (fun i => if i = 1 then [1, 0] else []) ≤ 3 ∧
    (server_broadcast 3 (fun i => if i = 1 then [1, 0] else [])).2.count BcastEvent.waited = 2 :=
  ⟨by decide, (broadcast_barrier_counts 3 (fun i => if i = 1 then [1, 0] else [])
    (by decide)).1⟩

/-! ## The main loop and the step counter -/

theorem workerbufinv_init (K id M N : Nat) (shm : Shm) :
    WorkerBufInv (worker_init K id M N shm).1 (worker_init K id M N shm).2 := by
  intro r hr
  have hM : (worker_init K id M N shm).1.M = M := rfl
  rw [hM] at hr
  have hN : (worker_init K id M N shm).1.N = N := rfl
  have hl : shmad (worker_init K id M N shm).1 (worker_init K id M N shm).2 1 r =
      (worker_init K id M N shm).2.left (ftok_key id) r := rfl
  have hr2 : shmad (worker_init K id M N shm).1 (worker_init K id M N shm).2 2 r =
      (worker_init K id M N shm).2.right (ftok_key id) r := rfl
  rw [hl, hr2, hN, worker_init_left, worker_init_right, worker_init_curr, worker_init_curr,
    if_pos (show (ftok_key id = ftok_key id ∨
        ftok_key id = ftok_key (worker_define_partners K id).2) ∧ r < M from
      ⟨Or.inl rfl, hr⟩),
    if_pos (show (ftok_key id = ftok_key id ∨
        ftok_key id = ftok_key (worker_define_partners K id).1) ∧ r < M from
      ⟨Or.inl rfl, hr⟩),
    if_pos (show r + 1 < M + 2 ∧ 1 < N + 2 from ⟨by omega, by omega⟩),
    if_pos (show r + 1 < M + 2 ∧ N < N + 2 from ⟨by omega, by omega⟩)]
  exact ⟨rfl, rfl⟩

theorem workerbufinv_set (w : Worker) (shm : Shm) (x y : Nat) (v : Char) (hx : 1 ≤ x)
    (h : WorkerBufInv w shm) :
    WorkerBufInv (worker_set w shm x y v).1 (worker_set w shm x y v).2 := by
  intro r hr
  have hM : (worker_set w shm x y v).1.M = w.M := rfl
  rw [hM] at hr
  obtain ⟨h1, h2⟩ := h r hr
  have e1 : shmad w shm 1 r = shm.left (ftok_key w.id_worker) r := rfl
  have e2 : shmad w shm 2 r = shm.right (ftok_key w.id_worker) r := rfl
  rw [e1] at h1
  rw [e2] at h2
  have hN : (worker_set w shm x y v).1.N = w.N := rfl
  have hc : (worker_set w shm x y v).1.map_state_curr = set2 w.map_state_curr x y v := rfl
  have hl : shmad (worker_set w shm x y v).1 (worker_set w shm x y v).2 1 r =
      (worker_set w shm x y v).2.left (ftok_key w.id_worker) r := rfl
  have hr2 : shmad (worker_set w shm x y v).1 (worker_set w shm x y v).2 2 r =
      (worker_set w shm x y v).2.right (ftok_key w.id_worker) r := rfl
  rw [hl, hr2, hN, hc, worker_set_left, worker_set_right, set2_apply, set2_apply, h1, h2]
  constructor
  · by_cases c : y = 1 ∧ r = x - 1
    · rw [if_pos ⟨c.1, rfl, c.2⟩, if_pos ⟨by omega, c.1.symm⟩]
    · rw [if_neg (fun q => c ⟨q.1, q.2.2⟩), if_neg (fun q => c ⟨q.2.symm, by omega⟩)]
  · by_cases c : y = w.N ∧ r = x - 1
    · rw [if_pos ⟨c.1, rfl, c.2⟩, if_pos ⟨by omega, c.1.symm⟩]
    · rw [if_neg (fun q => c ⟨q.1, q.2.2⟩), if_neg (fun q => c ⟨q.2.symm, by omega⟩)]

theorem workerbufinv_clear (w : Worker) (shm : Shm) :
    WorkerBufInv (worker_clear w shm).1 (worker_clear w shm).2 := by
  intro r hr
  have hM : (worker_clear w shm).1.M = w.M := rfl
  rw [hM] at hr
  have hN : (worker_clear w shm).1.N = w.N := rfl
  have hl : shmad (worker_clear w shm).1 (worker_clear w shm).2 1 r =
      (worker_clear w shm).2.left (ftok_key w.id_worker) r := rfl
  have hr2 : shmad (worker_clear w shm).1 (worker_clear w shm).2 2 r =
      (worker_clear w shm).2.right (ftok_key w.id_worker) r := rfl
  rw [hl, hr2, hN, worker_clear_left, worker_clear_right, worker_clear_curr, worker_clear_curr,
    if_pos (show ftok_key w.id_worker = ftok_key w.id_worker ∧ r < w.M from ⟨rfl, hr⟩),
    if_pos (show ftok_key w.id_worker = ftok_key w.id_worker ∧ r < w.M from ⟨rfl, hr⟩),
    if_pos (show r + 1 < w.M + 2 ∧ 1 < w.N + 2 from ⟨by omega, by omega⟩),
    if_pos (show r + 1 < w.M + 2 ∧ w.N < w.N + 2 from ⟨by omega, by omega⟩)]
  exact ⟨rfl, rfl⟩

theorem workerbufinv_start (w : Worker) (shm : Shm) :
    WorkerBufInv (worker_start w shm).1 (worker_start w shm).2 := by
  intro r hr
  have hM : (worker_start w shm).1.M = w.M := rfl
  rw [hM] at hr
  have hm : (worker_start w shm).2 = worker_update_memory (worker_start w shm).1 shm := rfl
  have hl : shmad (worker_start w shm).1 (worker_start w shm).2 1 r =
      (worker_start w shm).2.left (ftok_key (worker_start w shm).1.id_worker) r := rfl
  have hr2 : shmad (worker_start w shm).1 (worker_start w shm).2 2 r =
      (worker_start w shm).2.right (ftok_key (worker_start w shm).1.id_worker) r := rfl
  rw [hl, hr2, hm, worker_update_memory_left, worker_update_memory_right,
    if_pos ⟨rfl, by rw [hM]; exact hr⟩, if_pos ⟨rfl, by rw [hM]; exact hr⟩]
  exact ⟨rfl, rfl⟩

/-- What the functions of the worker do when they run on intact globals.  The
    boundary-buffer invariant of a worker with `M` rows and a stripe of any
    width `N` (also `N = 1`) holds after `worker_init`, and every
    worker operation re-establishes it from a state where it holds:
    `worker_add` and `worker_del` at a row `x ≥ 1` (the only rows the server
    sends), `worker_clear` and `worker_start`.  The invariant says that for every
    row `r` of `1 .. M` the own left buffer holds `map_state_curr[r][1]` at index
    `r-1` and the own right buffer holds `map_state_curr[r][N]` at index `r-1`. -/
theorem own_buffers_mirror_edge_columns (w : Worker) (shm : Shm) (h : WorkerBufInv w shm) :
    (∀ K id M N shm0,
      WorkerBufInv (worker_init K id M N shm0).1 (worker_init K id M N shm0).2) ∧
    (∀ x y, 1 ≤ x → WorkerBufInv (worker_add w shm x y).1 (worker_add w shm x y).2) ∧
    (∀ x y, 1 ≤ x → WorkerBufInv (worker_del w shm x y).1 (worker_del w shm x y).2) ∧
    WorkerBufInv (worker_clear w shm).1 (worker_clear w shm).2 ∧
    WorkerBufInv (worker_start w shm).1 (worker_start w shm).2 :=
  ⟨fun K id M N shm0 => workerbufinv_init K id M N shm0,
   fun x y hx => workerbufinv_set w shm x y '*' hx h,
   fun x y hx => workerbufinv_set w shm x y '.' hx h,
   workerbufinv_clear w shm, workerbufinv_start w shm⟩

theorem ring_left_eq (K i : Nat) (hK : 1 ≤ K) (hi : i < K) :
    ring_left K i = if i = 0 then K - 1 else i - 1 := by
  unfold ring_left
  rw [partners_eq K i hK hi]

theorem ring_right_eq (K i : Nat) (hK : 1 ≤ K) (hi : i < K) :
    ring_right K i = if i = K - 1 then 0 else i + 1 := by
  unfold ring_right
  rw [partners_eq K i hK hi]

theorem ring_left_lt (K i : Nat) (hi : i < K) : ring_left K i < K := by
  rw [ring_left_eq K i (by omega) hi]
  split_ifs <;> omega

theorem ring_right_lt (K i : Nat) (hi : i < K) : ring_right K i < K := by
  rw [ring_right_eq K i (by omega) hi]
  split_ifs <;> omega

theorem ring_right_eq_iff (K i j : Nat) (hi : i < K) (hj : j < K) :
    ring_right K j = i ↔ j = ring_left K i := by
  rw [ring_right_eq K j (by omega) hj, ring_left_eq K i (by omega) hi]
  split_ifs <;> omega

theorem ring_left_eq_iff (K i j : Nat) (hi : i < K) (hj : j < K) :
    ring_left K j = i ↔ j = ring_right K i := by
  rw [ring_left_eq K j (by omega) hj, ring_right_eq K i (by omega) hi]
  split_ifs <;> omega

/-! ## One step of the scheduler -/

theorem sys_step_done (prog : Nat → List Action) (s : Sys) (i : Nat)
    (h : (prog i).get? (s.pc i) = none) : sys_step prog s i = s := by
  unfold sys_step
  rw [h]

theorem sys_step_blocked (prog : Nat → List Action) (s : Sys) (i : Nat) (a : Action)
    (h : (prog i).get? (s.pc i) = some a) (hb : worker_act s i a = none) :
    sys_step prog s i = s := by
  unfold sys_step
  rw [h]
  simp only [hb]

theorem sys_step_taken (prog : Nat → List Action) (s : Sys) (i : Nat) (a : Action) (t : Sys)
    (h : (prog i).get? (s.pc i) = some a) (ht : worker_act s i a = some t) :
    sys_step prog s i = { t with pc := Function.update t.pc i (s.pc i + 1) } := by
  unfold sys_step
  rw [h]
  simp only [ht]

theorem generation_prog_get (K i p : Nat) (hi : i < K) :
    (generation_prog K i).get? p = worker_start_actions.get? p := by
  unfold generation_prog
  rw [if_pos hi]

theorem generation_prog_out (K i p : Nat) (hi : ¬ i < K) :
    (generation_prog K i).get? p = none := by
  unfold generation_prog
  rw [if_neg hi]
  rfl

/-- The steps of a generation broadcast, case by case: what the state is
    after the scheduler lets worker `i < K` run. -/
theorem generation_step_cases (K : Nat) (s : Sys) (i : Nat) (hi : i < K) (hle : s.pc i ≤ 9)
    (P : Sys → Prop)
    (h0 : s.pc i = 0 → P { s with
      world := s.world.put i (worker_read_map (s.world.worker i) s.world.shm, s.world.shm),
      pc := Function.update s.pc i (s.pc i + 1) })
    (h1 : s.pc i = 1 → P { semset (s.world.worker i) s 0 (semval (s.world.worker i) s 0 + 1) with
      pc := Function.update s.pc i (s.pc i + 1) })
    (h2 : s.pc i = 2 → P { semset (s.world.worker i) s 3 (semval (s.world.worker i) s 3 + 1) with
      pc := Function.update s.pc i (s.pc i + 1) })
    (h3 : s.pc i = 3 → P { s with
      world := s.world.put i (worker_wrap_rows (s.world.worker i), s.world.shm),
      pc := Function.update s.pc i (s.pc i + 1) })
    (h4 : s.pc i = 4 → P { s with
      world := s.world.put i (worker_apply_rule (s.world.worker i), s.world.shm),
      pc := Function.update s.pc i (s.pc i + 1) })
    (h5 : s.pc i = 5 → semval (s.world.worker i) s 1 ≠ 0 →
      P { semset (s.world.worker i) s 1 (semval (s.world.worker i) s 1 - 1) with
        pc := Function.update s.pc i (s.pc i + 1) })
    (h6 : s.pc i = 6 → semval (s.world.worker i) s 2 ≠ 0 →
      P { semset (s.world.worker i) s 2 (semval (s.world.worker i) s 2 - 1) with
        pc := Function.update s.pc i (s.pc i + 1) })
    (h7 : s.pc i = 7 → P { s with
      world := s.world.put i
        (s.world.worker i, worker_update_memory (s.world.worker i) s.world.shm),
      pc := Function.update s.pc i (s.pc i + 1) })
    (h8 : s.pc i = 8 → P { s with
      acks := Function.update s.acks i (s.acks i + 1),
      pc := Function.update s.pc i (s.pc i + 1) })
    (hs : (s.pc i = 5 ∧ semval (s.world.worker i) s 1 = 0) ∨
      (s.pc i = 6 ∧ semval (s.world.worker i) s 2 = 0) ∨ s.pc i = 9 → P s) :
    P (sys_step (generation_prog K) s i) := by
  have hget := generation_prog_get K i (s.pc i) hi
  obtain ⟨p, hp⟩ : ∃ p, s.pc i = p := ⟨_, rfl⟩
  rw [hp] at hle
  interval_cases p
  · rw [sys_step_taken _ s i Action.read_map _ (by rw [hget, hp]; rfl) rfl]
    exact h0 hp
  · rw [sys_step_taken _ s i (Action.sem_up 0) _ (by rw [hget, hp]; rfl) rfl]
    exact h1 hp
  · rw [sys_step_taken _ s i (Action.sem_up 3) _ (by rw [hget, hp]; rfl) rfl]
    exact h2 hp
  · rw [sys_step_taken _ s i Action.wrap_rows _ (by rw [hget, hp]; rfl) rfl]
    exact h3 hp
  · rw [sys_step_taken _ s i Action.apply_rule _ (by rw [hget, hp]; rfl) rfl]
    exact h4 hp
  · by_cases hv : semval (s.world.worker i) s 1 = 0
    · rw [sys_step_blocked _ s i (Action.sem_down 1) (by rw [hget, hp]; rfl)
        (by show (if semval (s.world.worker i) s 1 = 0 then none else _) = none; rw [if_pos hv])]
      exact hs (Or.inl ⟨hp, hv⟩)
    · rw [sys_step_taken _ s i (Action.sem_down 1) _ (by rw [hget, hp]; rfl)
        (by show (if semval (s.world.worker i) s 1 = 0 then none else _) = _; rw [if_neg hv])]
      exact h5 hp hv
  · by_cases hv : semval (s.world.worker i) s 2 = 0
    · rw [sys_step_blocked _ s i (Action.sem_down 2) (by rw [hget, hp]; rfl)
        (by show (if semval (s.world.worker i) s 2 = 0 then none else _) = none; rw [if_pos hv])]
      exact hs (Or.inr (Or.inl ⟨hp, hv⟩))
    · rw [sys_step_taken _ s i (Action.sem_down 2) _ (by rw [hget, hp]; rfl)
        (by show (if semval (s.world.worker i) s 2 = 0 then none else _) = _; rw [if_neg hv])]
      exact h6 hp hv
  · rw [sys_step_taken _ s i Action.publish _ (by rw [hget, hp]; rfl) rfl]
    exact h7 hp
  · rw [sys_step_taken _ s i Action.is_ready _ (by rw [hget, hp]; rfl) rfl]
    exact h8 hp
  · rw [sys_step_done _ s i (by rw [hget, hp]; rfl)]
    exact hs (Or.inr (Or.inr hp))

/-- A step that changes no semaphore and moves worker `i` from `p` to `p + 1`
    completed steps, where `p + 1` is none of the marks 2, 3, 6, 7, 9. -/
theorem handshake_data_step (K : Nat) (s t : Sys) (i p : Nat) (h : HandshakeInv K s)
    (hp : s.pc i = p)
    (hp1 : p + 1 ≠ 2 ∧ p + 1 ≠ 3 ∧ p + 1 ≠ 6 ∧ p + 1 ≠ 7 ∧ p + 1 < 9)
    (hid : ∀ k, (t.world.worker k).id_worker = (s.world.worker k).id_worker)
    (hl : ∀ k, (t.world.worker k).id_collab_left = (s.world.worker k).id_collab_left)
    (hr : ∀ k, (t.world.worker k).id_collab_right = (s.world.worker k).id_collab_right)
    (hsl : t.sem_left = s.sem_left) (hsr : t.sem_right = s.sem_right)
    (hpc : t.pc = Function.update s.pc i (p + 1)) (hacks : t.acks = s.acks) :
    HandshakeInv K t := by
  have hb : ∀ x, x = i → s.pc x = p := fun x hx => by rw [hx]; exact hp
  refine ⟨h.keys, fun k hk => by rw [hid]; exact h.wid k hk, fun k hk => by rw [hl]; exact h.wleft k hk,
    fun k hk => by rw [hr]; exact h.wright k hk, ?_, ?_, ?_, ?_, ?_, ?_⟩
  · intro k
    have := h.pc_le k
    rw [hpc, Function.update_apply]
    split_ifs <;> omega
  · intro j hj
    have old := h.right_eq j hj
    have h1 := hb j
    have h2 := hb (ring_right K j)
    rw [hsr, hpc, Function.update_apply, Function.update_apply]
    split_ifs at old ⊢ <;> omega
  · intro j hj
    have old := h.left_eq j hj
    have h1 := hb j
    have h2 := hb (ring_left K j)
    rw [hsl, hpc, Function.update_apply, Function.update_apply]
    split_ifs at old ⊢ <;> omega
  · intro j hj
    rw [hsl]; exact h.left_out j hj
  · intro j hj
    rw [hsr]; exact h.right_out j hj
  · intro k
    have old := h.acks_eq k
    have h1 := hb k
    rw [hacks, hpc, Function.update_apply]
    split_ifs at old ⊢ <;> omega

/-- The step `sem_up(0)`: worker `i` releases the right border of its left
    neighbour. -/
theorem handshake_up0 (K : Nat) (s : Sys) (i : Nat) (h : HandshakeInv K s) (hi : i < K)
    (hp : s.pc i = 1) :
    HandshakeInv K
      { semset (s.world.worker i) s 0 (semval (s.world.worker i) s 0 + 1) with
        pc := Function.update s.pc i (s.pc i + 1) } := by
  have hb : ∀ x, x = i → s.pc x = 1 := fun x hx => by rw [hx]; exact hp
  have hl := h.wleft i hi
  have hlt := ring_left_lt K i hi
  have hkl := ftok_key_of_lt (ring_left K i) (lt_of_lt_of_le hlt h.keys)
  refine ⟨h.keys, h.wid, h.wleft, h.wright, ?_, ?_, ?_, h.left_out, ?_, ?_⟩
  · intro k
    have := h.pc_le k
    show Function.update s.pc i (s.pc i + 1) k ≤ 9
    rw [Function.update_apply]
    split_ifs <;> omega
  · intro j hj
    have old := h.right_eq j hj
    have h1 := hb j
    have h2 := hb (ring_right K j)
    have hiff := ring_right_eq_iff K i j hi hj
    show Function.update s.sem_right (ftok_key (s.world.worker i).id_collab_left)
        (s.sem_right (ftok_key (s.world.worker i).id_collab_left) + 1) j +
        (if 7 ≤ Function.update s.pc i (s.pc i + 1) j then 1 else 0) =
      if 2 ≤ Function.update s.pc i (s.pc i + 1) (ring_right K j) then 1 else 0
    rw [hl, hkl, Function.update_apply, Function.update_apply, Function.update_apply]
    split_ifs at old ⊢ with c1 c2 c3 c4 c5 <;>
      first | omega | (subst c2; omega) | (subst c1; omega)
  · intro j hj
    have old := h.left_eq j hj
    have h1 := hb j
    have h2 := hb (ring_left K j)
    show s.sem_left j + (if 6 ≤ Function.update s.pc i (s.pc i + 1) j then 1 else 0) =
      if 3 ≤ Function.update s.pc i (s.pc i + 1) (ring_left K j) then 1 else 0
    rw [Function.update_apply, Function.update_apply]
    split_ifs at old ⊢ <;> omega
  · intro j hj
    show Function.update s.sem_right (ftok_key (s.world.worker i).id_collab_left)
        (s.sem_right (ftok_key (s.world.worker i).id_collab_left) + 1) j = 0
    rw [hl, hkl, Function.update_apply, if_neg (by omega)]
    exact h.right_out j hj
  · intro k
    have old := h.acks_eq k
    have h1 := hb k
    show s.acks k = if Function.update s.pc i (s.pc i + 1) k = 9 then 1 else 0
    rw [Function.update_apply]
    split_ifs at old ⊢ <;> omega

/-- The step `sem_up(3)`: worker `i` releases the left border of its right
    neighbour. -/
theorem handshake_up3 (K : Nat) (s : Sys) (i : Nat) (h : HandshakeInv K s) (hi : i < K)
    (hp : s.pc i = 2) :
    HandshakeInv K
      { semset (s.world.worker i) s 3 (semval (s.world.worker i) s 3 + 1) with
        pc := Function.update s.pc i (s.pc i + 1) } := by
  have hb : ∀ x, x = i → s.pc x = 2 := fun x hx => by rw [hx]; exact hp
  have hr := h.wright i hi
  have hlt := ring_right_lt K i hi
  have hkr := ftok_key_of_lt (ring_right K i) (lt_of_lt_of_le hlt h.keys)
  refine ⟨h.keys, h.wid, h.wleft, h.wright, ?_, ?_, ?_, ?_, h.right_out, ?_⟩
  · intro k
    have := h.pc_le k
    show Function.update s.pc i (s.pc i + 1) k ≤ 9
    rw [Function.update_apply]
    split_ifs <;> omega
  · intro j hj
    have old := h.right_eq j hj
    have h1 := hb j
    have h2 := hb (ring_right K j)
    show s.sem_right j + (if 7 ≤ Function.update s.pc i (s.pc i + 1) j then 1 else 0) =
      if 2 ≤ Function.update s.pc i (s.pc i + 1) (ring_right K j) then 1 else 0
    rw [Function.update_apply, Function.update_apply]
    split_ifs at old ⊢ <;> omega
  · intro j hj
    have old := h.left_eq j hj
    have h1 := hb j
    have h2 := hb (ring_left K j)
    have hiff := ring_left_eq_iff K i j hi hj
    show Function.update s.sem_left (ftok_key (s.world.worker i).id_collab_right)
        (s.sem_left (ftok_key (s.world.worker i).id_collab_right) + 1) j +
        (if 6 ≤ Function.update s.pc i (s.pc i + 1) j then 1 else 0) =
      if 3 ≤ Function.update s.pc i (s.pc i + 1) (ring_left K j) then 1 else 0
    rw [hr, hkr, Function.update_apply, Function.update_apply, Function.update_apply]
    split_ifs at old ⊢ with c1 c2 c3 c4 c5 <;>
      first | omega | (subst c2; omega) | (subst c1; omega)
  · intro j hj
    show Function.update s.sem_left (ftok_key (s.world.worker i).id_collab_right)
        (s.sem_left (ftok_key (s.world.worker i).id_collab_right) + 1) j = 0
    rw [hr, hkr, Function.update_apply, if_neg (by omega)]
    exact h.left_out j hj
  · intro k
    have old := h.acks_eq k
    have h1 := hb k
    show s.acks k = if Function.update s.pc i (s.pc i + 1) k = 9 then 1 else 0
    rw [Function.update_apply]
    split_ifs at old ⊢ <;> omega

/-- The step `sem_down(1)`, taken when the semaphore is not 0: worker `i`
    takes its own left semaphore. -/
theorem handshake_down1 (K : Nat) (s : Sys) (i : Nat) (h : HandshakeInv K s) (hi : i < K)
    (hp : s.pc i = 5) (hv : semval (s.world.worker i) s 1 ≠ 0) :
    HandshakeInv K
      { semset (s.world.worker i) s 1 (semval (s.world.worker i) s 1 - 1) with
        pc := Function.update s.pc i (s.pc i + 1) } := by
  have hb : ∀ x, x = i → s.pc x = 5 := fun x hx => by rw [hx]; exact hp
  have hw := h.wid i hi
  have hki := ftok_key_of_lt i (lt_of_lt_of_le hi h.keys)
  have hv1 : s.sem_left (ftok_key (s.world.worker i).id_worker) ≠ 0 := hv
  rw [hw, hki] at hv1
  refine ⟨h.keys, h.wid, h.wleft, h.wright, ?_, ?_, ?_, ?_, h.right_out, ?_⟩
  · intro k
    have := h.pc_le k
    show Function.update s.pc i (s.pc i + 1) k ≤ 9
    rw [Function.update_apply]
    split_ifs <;> omega
  · intro j hj
    have old := h.right_eq j hj
    have h1 := hb j
    have h2 := hb (ring_right K j)
    show s.sem_right j + (if 7 ≤ Function.update s.pc i (s.pc i + 1) j then 1 else 0) =
      if 2 ≤ Function.update s.pc i (s.pc i + 1) (ring_right K j) then 1 else 0
    rw [Function.update_apply, Function.update_apply]
    split_ifs at old ⊢ <;> omega
  · intro j hj
    have old := h.left_eq j hj
    have h1 := hb j
    have h2 := hb (ring_left K j)
    show Function.update s.sem_left (ftok_key (s.world.worker i).id_worker)
        (s.sem_left (ftok_key (s.world.worker i).id_worker) - 1) j +
        (if 6 ≤ Function.update s.pc i (s.pc i + 1) j then 1 else 0) =
      if 3 ≤ Function.update s.pc i (s.pc i + 1) (ring_left K j) then 1 else 0
    rw [hw, hki, Function.update_apply, Function.update_apply, Function.update_apply]
    split_ifs at old ⊢ with c1 c2 c3 c4 c5 <;> first | omega | (subst c1; omega)
  · intro j hj
    show Function.update s.sem_left (ftok_key (s.world.worker i).id_worker)
        (s.sem_left (ftok_key (s.world.worker i).id_worker) - 1) j = 0
    rw [hw, hki, Function.update_apply, if_neg (by omega)]
    exact h.left_out j hj
  · intro k
    have old := h.acks_eq k
    have h1 := hb k
    show s.acks k = if Function.update s.pc i (s.pc i + 1) k = 9 then 1 else 0
    rw [Function.update_apply]
    split_ifs at old ⊢ <;> omega

/-- The step `sem_down(2)`, taken when the semaphore is not 0: worker `i`
    takes its own right semaphore. -/
theorem handshake_down2 (K : Nat) (s : Sys) (i : Nat) (h : HandshakeInv K s) (hi : i < K)
    (hp : s.pc i = 6) (hv : semval (s.world.worker i) s 2 ≠ 0) :
    HandshakeInv K
      { semset (s.world.worker i) s 2 (semval (s.world.worker i) s 2 - 1) with
        pc := Function.update s.pc i (s.pc i + 1) } := by
  have hb : ∀ x, x = i → s.pc x = 6 := fun x hx => by rw [hx]; exact hp
  have hw := h.wid i hi
  have hki := ftok_key_of_lt i (lt_of_lt_of_le hi h.keys)
  have hv1 : s.sem_right (ftok_key (s.world.worker i).id_worker) ≠ 0 := hv
  rw [hw, hki] at hv1
  refine ⟨h.keys, h.wid, h.wleft, h.wright, ?_, ?_, ?_, h.left_out, ?_, ?_⟩
  · intro k
    have := h.pc_le k
    show Function.update s.pc i (s.pc i + 1) k ≤ 9
    rw [Function.update_apply]
    split_ifs <;> omega
  · intro j hj
    have old := h.right_eq j hj
    have h1 := hb j
    have h2 := hb (ring_right K j)
    show Function.update s.sem_right (ftok_key (s.world.worker i).id_worker)
        (s.sem_right (ftok_key (s.world.worker i).id_worker) - 1) j +
        (if 7 ≤ Function.update s.pc i (s.pc i + 1) j then 1 else 0) =
      if 2 ≤ Function.update s.pc i (s.pc i + 1) (ring_right K j) then 1 else 0
    rw [hw, hki, Function.update_apply, Function.update_apply, Function.update_apply]
    split_ifs at old ⊢ with c1 c2 c3 c4 c5 <;> first | omega | (subst c1; omega)
  · intro j hj
    have old := h.left_eq j hj
    have h1 := hb j
    have h2 := hb (ring_left K j)
    show s.sem_left j + (if 6 ≤ Function.update s.pc i (s.pc i + 1) j then 1 else 0) =
      if 3 ≤ Function.update s.pc i (s.pc i + 1) (ring_left K j) then 1 else 0
    rw [Function.update_apply, Function.update_apply]
    split_ifs at old ⊢ <;> omega
  · intro j hj
    show Function.update s.sem_right (ftok_key (s.world.worker i).id_worker)
        (s.sem_right (ftok_key (s.world.worker i).id_worker) - 1) j = 0
    rw [hw, hki, Function.update_apply, if_neg (by omega)]
    exact h.right_out j hj
  · intro k
    have old := h.acks_eq k
    have h1 := hb k
    show s.acks k = if Function.update s.pc i (s.pc i + 1) k = 9 then 1 else 0
    rw [Function.update_apply]
    split_ifs at old ⊢ <;> omega

/-- The step `worker_is_ready()` that ends `worker_start()`. -/
theorem handshake_ready (K : Nat) (s : Sys) (i : Nat) (h : HandshakeInv K s)
    (hp : s.pc i = 8) :
    HandshakeInv K
      { s with acks := Function.update s.acks i (s.acks i + 1),
               pc := Function.update s.pc i (s.pc i + 1) } := by
  have hb : ∀ x, x = i → s.pc x = 8 := fun x hx => by rw [hx]; exact hp
  refine ⟨h.keys, h.wid, h.wleft, h.wright, ?_, ?_, ?_, h.left_out, h.right_out, ?_⟩
  · intro k
    have := h.pc_le k
    show Function.update s.pc i (s.pc i + 1) k ≤ 9
    rw [Function.update_apply]
    split_ifs <;> omega
  · intro j hj
    have old := h.right_eq j hj
    have h1 := hb j
    have h2 := hb (ring_right K j)
    show s.sem_right j + (if 7 ≤ Function.update s.pc i (s.pc i + 1) j then 1 else 0) =
      if 2 ≤ Function.update s.pc i (s.pc i + 1) (ring_right K j) then 1 else 0
    rw [Function.update_apply, Function.update_apply]
    split_ifs at old ⊢ <;> omega
  · intro j hj
    have old := h.left_eq j hj
    have h1 := hb j
    have h2 := hb (ring_left K j)
    show s.sem_left j + (if 6 ≤ Function.update s.pc i (s.pc i + 1) j then 1 else 0) =
      if 3 ≤ Function.update s.pc i (s.pc i + 1) (ring_left K j) then 1 else 0
    rw [Function.update_apply, Function.update_apply]
    split_ifs at old ⊢ <;> omega
  · intro k
    have old := h.acks_eq k
    have h1 := hb k
    have h0 := h.acks_eq i
    show Function.update s.acks i (s.acks i + 1) k =
      if Function.update s.pc i (s.pc i + 1) k = 9 then 1 else 0
    rw [Function.update_apply, Function.update_apply]
    split_ifs at old h0 ⊢ <;> omega

theorem put_worker_ids (w : World) (i : Nat) (wk : Worker) (shm : Shm)
    (h1 : wk.id_worker = (w.worker i).id_worker)
    (h2 : wk.id_collab_left = (w.worker i).id_collab_left)
    (h3 : wk.id_collab_right = (w.worker i).id_collab_right) (k : Nat) :
    ((w.put i (wk, shm)).worker k).id_worker = (w.worker k).id_worker ∧
    ((w.put i (wk, shm)).worker k).id_collab_left = (w.worker k).id_collab_left ∧
    ((w.put i (wk, shm)).worker k).id_collab_right = (w.worker k).id_collab_right := by
  show (if k = i then wk else w.worker k).id_worker = _ ∧
    (if k = i then wk else w.worker k).id_collab_left = _ ∧
    (if k = i then wk else w.worker k).id_collab_right = _
  by_cases c : k = i
  · rw [if_pos c, c]
    exact ⟨h1, h2, h3⟩
  · rw [if_neg c]
    exact ⟨rfl, rfl, rfl⟩

/-- Every step of every worker keeps the bookkeeping of the handshake. -/
theorem handshake_step (K : Nat) (s : Sys) (i : Nat) (h : HandshakeInv K s) :
    HandshakeInv K (sys_step (generation_prog K) s i) := by
  by_cases hi : i < K
  swap
  · rw [sys_step_done _ s i (generation_prog_out K i _ hi)]
    exact h
  have hd : ∀ (wk : Worker) (shm : Shm) (p : Nat), s.pc i = p →
      wk.id_worker = (s.world.worker i).id_worker →
      wk.id_collab_left = (s.world.worker i).id_collab_left →
      wk.id_collab_right = (s.world.worker i).id_collab_right →
      (p + 1 ≠ 2 ∧ p + 1 ≠ 3 ∧ p + 1 ≠ 6 ∧ p + 1 ≠ 7 ∧ p + 1 < 9) →
      HandshakeInv K { s with world := s.world.put i (wk, shm),
                              pc := Function.update s.pc i (s.pc i + 1) } := by
    intro wk shm p hp e1 e2 e3 hp1
    exact handshake_data_step K s _ i p h hp hp1
      (fun k => (put_worker_ids s.world i wk shm e1 e2 e3 k).1)
      (fun k => (put_worker_ids s.world i wk shm e1 e2 e3 k).2.1)
      (fun k => (put_worker_ids s.world i wk shm e1 e2 e3 k).2.2) rfl rfl
      (by show Function.update s.pc i (s.pc i + 1) = _; rw [hp]) rfl
  apply generation_step_cases K s i hi (h.pc_le i)
  · intro hp; exact hd _ _ 0 hp rfl rfl rfl (by decide)
  · intro hp; exact handshake_up0 K s i h hi hp
  · intro hp; exact handshake_up3 K s i h hi hp
  · intro hp; exact hd _ _ 3 hp rfl rfl rfl (by decide)
  · intro hp; exact hd _ _ 4 hp rfl rfl rfl (by decide)
  · intro hp hv; exact handshake_down1 K s i h hi hp hv
  · intro hp hv; exact handshake_down2 K s i h hi hp hv
  · intro hp; exact hd _ _ 7 hp rfl rfl rfl (by decide)
  · intro hp; exact handshake_ready K s i h hp
  · intro _; exact h

theorem handshake_start {M N K : Nat} (w : World) (hL : Layout M N K w) (hk : K ≤ 256) :
    HandshakeInv K (sys_start w) :=
  ⟨hk, hL.wid, hL.wleft, hL.wright, fun _ => Nat.zero_le _, fun _ _ => rfl, fun _ _ => rfl,
    fun _ _ => rfl, fun _ _ => rfl, fun _ => rfl⟩

theorem handshake_run (K : Nat) (sched : List Nat) (s : Sys) (h : HandshakeInv K s) :
    HandshakeInv K (sys_run (generation_prog K) s sched) := by
  induction sched generalizing s with
  | nil => exact h
  | cons i rest ih => exact ih _ (handshake_step K s i h)

/-! ## What the bookkeeping of the handshake gives -/

theorem handshake_counters (K : Nat) (s : Sys) (h : HandshakeInv K s) (j : Nat) :
    s.sem_left j ≤ 1 ∧ s.sem_right j ≤ 1 := by
  by_cases hj : j < K
  · have h1 := h.left_eq j hj
    have h2 := h.right_eq j hj
    constructor
    · split_ifs at h1 <;> omega
    · split_ifs at h2 <;> omega
  · rw [h.left_out j (by omega), h.right_out j (by omega)]
    exact ⟨Nat.zero_le _, Nat.zero_le _⟩

theorem handshake_pc_of_ack (K : Nat) (s : Sys) (h : HandshakeInv K s) (i : Nat)
    (ha : s.acks i = 1) : s.pc i = 9 := by
  have := h.acks_eq i
  split_ifs at this <;> omega

theorem handshake_quiescent (K : Nat) (s : Sys) (h : HandshakeInv K s)
    (hall : ∀ i, i < K → s.acks i = 1) (j : Nat) : s.sem_left j = 0 ∧ s.sem_right j = 0 := by
  by_cases hj : j < K
  · have h1 := h.left_eq j hj
    have h2 := h.right_eq j hj
    have hp := handshake_pc_of_ack K s h j (hall j hj)
    rw [hp] at h1 h2
    constructor
    · split_ifs at h1 <;> omega
    · split_ifs at h2 <;> omega
  · exact ⟨h.left_out j (by omega), h.right_out j (by omega)⟩

/-- A step that raises the semaphore of `right j` is taken by the worker that
    reads `right j`, the right neighbour of `j`, after its `read_map`; a step
    that raises the semaphore of `left j` is taken by the left neighbour of `j`
    after its `read_map`. -/
theorem handshake_release (K : Nat) (s : Sys) (h : HandshakeInv K s) (i j : Nat) :
    (s.sem_right j < (sys_step (generation_prog K) s i).sem_right j →
      i < K ∧ j < K ∧ i = ring_right K j ∧ s.pc i = 1) ∧
    (s.sem_left j < (sys_step (generation_prog K) s i).sem_left j →
      i < K ∧ j < K ∧ i = ring_left K j ∧ s.pc i = 2) := by
  by_cases hi : i < K
  swap
  · rw [sys_step_done _ s i (generation_prog_out K i _ hi)]
    exact ⟨fun q => absurd q (Nat.lt_irrefl _), fun q => absurd q (Nat.lt_irrefl _)⟩
  have hid := h.wid i hi
  have hl := h.wleft i hi
  have hr := h.wright i hi
  have hltl := ring_left_lt K i hi
  have hltr := ring_right_lt K i hi
  have hkl := ftok_key_of_lt (ring_left K i) (lt_of_lt_of_le hltl h.keys)
  have hkr := ftok_key_of_lt (ring_right K i) (lt_of_lt_of_le hltr h.keys)
  apply generation_step_cases K s i hi (h.pc_le i) (fun t =>
    (s.sem_right j < t.sem_right j → i < K ∧ j < K ∧ i = ring_right K j ∧ s.pc i = 1) ∧
    (s.sem_left j < t.sem_left j → i < K ∧ j < K ∧ i = ring_left K j ∧ s.pc i = 2))
  · intro _
    exact ⟨fun q => absurd q (Nat.lt_irrefl _), fun q => absurd q (Nat.lt_irrefl _)⟩
  · intro hp
    refine ⟨?_, fun q => absurd q (Nat.lt_irrefl _)⟩
    show s.sem_right j <
      Function.update s.sem_right (ftok_key (s.world.worker i).id_collab_left)
        (s.sem_right (ftok_key (s.world.worker i).id_collab_left) + 1) j → _
    rw [hl, hkl, Function.update_apply]
    intro q
    have hj : j = ring_left K i := by
      by_contra c
      rw [if_neg c] at q
      exact absurd q (Nat.lt_irrefl _)
    have hjK : j < K := by rw [hj]; exact hltl
    exact ⟨hi, hjK, ((ring_right_eq_iff K i j hi hjK).mpr hj).symm, hp⟩
  · intro hp
    refine ⟨fun q => absurd q (Nat.lt_irrefl _), ?_⟩
    show s.sem_left j <
      Function.update s.sem_left (ftok_key (s.world.worker i).id_collab_right)
        (s.sem_left (ftok_key (s.world.worker i).id_collab_right) + 1) j → _
    rw [hr, hkr, Function.update_apply]
    intro q
    have hj : j = ring_right K i := by
      by_contra c
      rw [if_neg c] at q
      exact absurd q (Nat.lt_irrefl _)
    have hjK : j < K := by rw [hj]; exact hltr
    exact ⟨hi, hjK, ((ring_left_eq_iff K i j hi hjK).mpr hj).symm, hp⟩
  · intro _
    exact ⟨fun q => absurd q (Nat.lt_irrefl _), fun q => absurd q (Nat.lt_irrefl _)⟩
  · intro _
    exact ⟨fun q => absurd q (Nat.lt_irrefl _), fun q => absurd q (Nat.lt_irrefl _)⟩
  · intro _ _
    refine ⟨fun q => absurd q (Nat.lt_irrefl _), ?_⟩
    show s.sem_left j < Function.update s.sem_left (ftok_key (s.world.worker i).id_worker)
      (s.sem_left (ftok_key (s.world.worker i).id_worker) - 1) j → _
    rw [Function.update_apply]
    intro q
    exfalso
    split_ifs at q with c
    · rw [c] at q; omega
    · omega
  · intro _ _
    refine ⟨?_, fun q => absurd q (Nat.lt_irrefl _)⟩
    show s.sem_right j < Function.update s.sem_right (ftok_key (s.world.worker i).id_worker)
      (s.sem_right (ftok_key (s.world.worker i).id_worker) - 1) j → _
    rw [Function.update_apply]
    intro q
    exfalso
    split_ifs at q with c
    · rw [c] at q; omega
    · omega
  · intro _
    exact ⟨fun q => absurd q (Nat.lt_irrefl _), fun q => absurd q (Nat.lt_irrefl _)⟩
  · intro _
    exact ⟨fun q => absurd q (Nat.lt_irrefl _), fun q => absurd q (Nat.lt_irrefl _)⟩
  · intro _
    exact ⟨fun q => absurd q (Nat.lt_irrefl _), fun q => absurd q (Nat.lt_irrefl _)⟩

/-- Only the step `publish` changes the boundary buffers. -/
theorem handshake_writes (K : Nat) (s : Sys) (h : HandshakeInv K s) (i : Nat)
    (hw : (sys_step (generation_prog K) s i).world.shm ≠ s.world.shm) :
    i < K ∧ s.pc i = 7 := by
  by_cases hi : i < K
  swap
  · rw [sys_step_done _ s i (generation_prog_out K i _ hi)] at hw
    exact absurd rfl hw
  refine ⟨hi, ?_⟩
  revert hw
  apply generation_step_cases K s i hi (h.pc_le i)
    (fun t => t.world.shm ≠ s.world.shm → s.pc i = 7)
  · intro _ hw; exact absurd rfl hw
  · intro _ hw; exact absurd rfl hw
  · intro _ hw; exact absurd rfl hw
  · intro _ hw; exact absurd rfl hw
  · intro _ hw; exact absurd rfl hw
  · intro _ _ hw; exact absurd rfl hw
  · intro _ _ hw; exact absurd rfl hw
  · intro hp _; exact hp
  · intro _ hw; exact absurd rfl hw
  · intro _ hw; exact absurd rfl hw

/-- When worker `i` is about to publish, both readers of its buffers have
    read them and released them in this generation. -/
theorem handshake_publish (K : Nat) (s : Sys) (h : HandshakeInv K s) (i : Nat) (hi : i < K)
    (hp : s.pc i = 7) : 3 ≤ s.pc (ring_left K i) ∧ 2 ≤ s.pc (ring_right K i) := by
  have h1 := h.left_eq i hi
  have h2 := h.right_eq i hi
  rw [hp] at h1 h2
  constructor
  · split_ifs at h1 <;> omega
  · split_ifs at h2 <;> omega

/-- No deadlock: while some worker has not finished, some worker can take a
    step. -/
theorem handshake_progress (K : Nat) (s : Sys) (h : HandshakeInv K s)
    (hnot : ∃ i, i < K ∧ s.pc i ≠ 9) :
    ∃ i, i < K ∧ (sys_step (generation_prog K) s i).pc i = s.pc i + 1 := by
  have hstep : ∀ i, i < K → s.pc i ≠ 9 →
      ¬ (s.pc i = 5 ∧ semval (s.world.worker i) s 1 = 0) →
      ¬ (s.pc i = 6 ∧ semval (s.world.worker i) s 2 = 0) →
      (sys_step (generation_prog K) s i).pc i = s.pc i + 1 := by
    intro i hi h9 h5 h6
    apply generation_step_cases K s i hi (h.pc_le i) (fun t => t.pc i = s.pc i + 1)
    · intro _; show Function.update s.pc i (s.pc i + 1) i = _; rw [Function.update_same]
    · intro _; show Function.update s.pc i (s.pc i + 1) i = _; rw [Function.update_same]
    · intro _; show Function.update s.pc i (s.pc i + 1) i = _; rw [Function.update_same]
    · intro _; show Function.update s.pc i (s.pc i + 1) i = _; rw [Function.update_same]
    · intro _; show Function.update s.pc i (s.pc i + 1) i = _; rw [Function.update_same]
    · intro _ _; show Function.update s.pc i (s.pc i + 1) i = _; rw [Function.update_same]
    · intro _ _; show Function.update s.pc i (s.pc i + 1) i = _; rw [Function.update_same]
    · intro _; show Function.update s.pc i (s.pc i + 1) i = _; rw [Function.update_same]
    · intro _; show Function.update s.pc i (s.pc i + 1) i = _; rw [Function.update_same]
    · intro q
      rcases q with q | q | q
      · exact absurd q h5
      · exact absurd q h6
      · exact absurd q h9
  by_cases hfree : ∃ i, i < K ∧ s.pc i ≠ 9 ∧ s.pc i ≠ 5 ∧ s.pc i ≠ 6
  · obtain ⟨i, hi, h9, h5, h6⟩ := hfree
    exact ⟨i, hi, hstep i hi h9 (fun q => h5 q.1) (fun q => h6 q.1)⟩
  · have hall : ∀ k, k < K → s.pc k = 9 ∨ s.pc k = 5 ∨ s.pc k = 6 := by
      intro k hk
      by_contra c
      exact hfree ⟨k, hk, fun q => c (Or.inl q), fun q => c (Or.inr (Or.inl q)),
        fun q => c (Or.inr (Or.inr q))⟩
    obtain ⟨i, hi, h9⟩ := hnot
    refine ⟨i, hi, hstep i hi h9 ?_ ?_⟩
    · intro q
      have h1 := h.left_eq i hi
      have h2 := hall _ (ring_left_lt K i hi)
      have h3 : s.sem_left i = 0 := by
        have := q.2
        have e : semval (s.world.worker i) s 1 =
            s.sem_left (ftok_key (s.world.worker i).id_worker) := rfl
        rw [e, h.wid i hi, ftok_key_of_lt i (lt_of_lt_of_le hi h.keys)] at this
        exact this
      have h4 := q.1
      split_ifs at h1 <;> omega
    · intro q
      have h1 := h.right_eq i hi
      have h2 := hall _ (ring_right_lt K i hi)
      have h3 : s.sem_right i = 0 := by
        have := q.2
        have e : semval (s.world.worker i) s 2 =
            s.sem_right (ftok_key (s.world.worker i).id_worker) := rfl
        rw [e, h.wid i hi, ftok_key_of_lt i (lt_of_lt_of_le hi h.keys)] at this
        exact this
      have h4 := q.1
      split_ifs at h1 <;> omega

/-! ## Every interleaving computes the generation of `server_next_generation` -/

theorem worker_read_map_congr (w : Worker) (shm shm' : Shm)
    (h0 : shmad w shm 0 = shmad w shm' 0) (h3 : shmad w shm 3 = shmad w shm' 3) :
    worker_read_map w shm = worker_read_map w shm' := by
  unfold worker_read_map
  simp only [h0, h3]

theorem ring_right_left (K i : Nat) (hi : i < K) : ring_right K (ring_left K i) = i :=
  (ring_right_eq_iff K i (ring_left K i) hi (ring_left_lt K i hi)).mpr rfl

theorem ring_left_right (K i : Nat) (hi : i < K) : ring_left K (ring_right K i) = i :=
  (ring_left_eq_iff K i (ring_right K i) hi (ring_right_lt K i hi)).mpr rfl

/-- A step of worker `i` from `p` to `p + 1 ≠ 8` completed steps that leaves
    the boundary buffers alone and brings the worker to its next stage. -/
theorem data_step_worker (K : Nat) (w : World) (s t : Sys) (i p : Nat) (h : DataInv K w s)
    (hi : i < K) (hp : s.pc i = p) (hp8 : p + 1 ≠ 8)
    (hf : t.world = { w with worker := t.world.worker, shm := t.world.shm })
    (hw : ∀ k, t.world.worker k = if k = i then worker_stage w i (p + 1) else s.world.worker k)
    (hshm : t.world.shm = s.world.shm) (hpc : t.pc = Function.update s.pc i (p + 1)) :
    DataInv K w t := by
  have hb : ∀ x, x = i → s.pc x = p := fun x hx => by rw [hx]; exact hp
  refine ⟨hf, ?_, ?_, ?_, ?_⟩
  · intro k hk
    rw [hw, hpc, Function.update_apply]
    by_cases c : k = i
    · rw [if_pos c, if_pos c, c]
    · rw [if_neg c, if_neg c]
      exact h.worker_in k hk
  · intro k hk
    rw [hw, if_neg (by omega)]
    exact h.worker_out k hk
  · intro u r
    rw [hshm, h.left u r, hpc, Function.update_apply]
    have h1 := hb u
    by_cases c : u = i
    · rw [if_pos c]
      have h2 := h1 c
      split_ifs <;> first | rfl | (exfalso; omega)
    · rw [if_neg c]
  · intro u r
    rw [hshm, h.right u r, hpc, Function.update_apply]
    have h1 := hb u
    by_cases c : u = i
    · rw [if_pos c]
      have h2 := h1 c
      split_ifs <;> first | rfl | (exfalso; omega)
    · rw [if_neg c]

theorem put_fields (sw w : World) (i : Nat) (r : Worker × Shm)
    (h : sw = { w with worker := sw.worker, shm := sw.shm }) :
    sw.put i r = { w with worker := (sw.put i r).worker, shm := (sw.put i r).shm } := by
  unfold World.put
  rw [h]

theorem data_step_put (K : Nat) (w : World) (s : Sys) (i p : Nat) (wk : Worker)
    (h : DataInv K w s) (hi : i < K) (hp : s.pc i = p) (hp8 : p + 1 ≠ 8)
    (hwk : wk = worker_stage w i (p + 1)) :
    DataInv K w { s with world := s.world.put i (wk, s.world.shm),
                         pc := Function.update s.pc i (s.pc i + 1) } := by
  apply data_step_worker K w s _ i p h hi hp hp8
  · exact put_fields s.world w i _ h.fields
  · intro k
    show (if k = i then wk else s.world.worker k) = _
    rw [hwk]
  · rfl
  · show Function.update s.pc i (s.pc i + 1) = _
    rw [hp]

theorem data_step_same (K : Nat) (w : World) (s t : Sys) (i p : Nat)
    (h : DataInv K w s) (hi : i < K) (hp : s.pc i = p) (hp8 : p + 1 ≠ 8)
    (hst : worker_stage w i (p + 1) = worker_stage w i p)
    (hworld : t.world = s.world) (hpc : t.pc = Function.update s.pc i (s.pc i + 1)) :
    DataInv K w t := by
  apply data_step_worker K w s t i p h hi hp hp8
  · rw [hworld]; exact h.fields
  · intro k
    rw [hworld]
    by_cases c : k = i
    · rw [if_pos c, c, hst, ← hp]
      exact h.worker_in i hi
    · rw [if_neg c]
  · rw [hworld]
  · rw [hpc, hp]

theorem worker_stage_late (w : World) (i p : Nat) (hp : 5 ≤ p) :
    worker_stage w i p = worker_apply_rule (worker_update_map (w.worker i) w.shm) := by
  unfold worker_stage
  rw [if_neg (by omega), if_neg (by omega), if_neg (by omega)]

theorem worker_stage_early (w : World) (i p : Nat) (hp1 : 1 ≤ p) (hp3 : p ≤ 3) :
    worker_stage w i p = worker_read_map (w.worker i) w.shm := by
  unfold worker_stage
  rw [if_neg (by omega), if_pos hp3]

/-- The step `publish` of worker `i`. -/
theorem data_step_publish (K : Nat) (w : World) (s : Sys) (i : Nat)
    (h : DataInv K w s) (hh : HandshakeInv K s) (hi : i < K) (hp : s.pc i = 7) :
    DataInv K w { s with
      world := s.world.put i
        (s.world.worker i, worker_update_memory (s.world.worker i) s.world.shm),
      pc := Function.update s.pc i (s.pc i + 1) } := by
  have hb : ∀ x, x = i → s.pc x = 7 := fun x hx => by rw [hx]; exact hp
  have hwk : s.world.worker i = worker_stage w i 9 := by
    rw [h.worker_in i hi, hp, worker_stage_late w i 7 (by decide),
      worker_stage_late w i 9 (by decide)]
  have hid : (s.world.worker i).id_worker = i := hh.wid i hi
  have hM : (s.world.worker i).M = (w.worker i).M := by
    rw [hwk, worker_stage_late w i 9 (by decide)]
    rfl
  refine ⟨put_fields s.world w i _ h.fields, ?_, ?_, ?_, ?_⟩
  · intro k hk
    show (if k = i then s.world.worker i else s.world.worker k) =
      worker_stage w k (Function.update s.pc i (s.pc i + 1) k)
    rw [Function.update_apply]
    by_cases c : k = i
    · rw [if_pos c, if_pos c, c, hp, worker_stage_late w i 8 (by decide),
        h.worker_in i hi, hp, worker_stage_late w i 7 (by decide)]
    · rw [if_neg c, if_neg c]
      exact h.worker_in k hk
  · intro k hk
    show (if k = i then s.world.worker i else s.world.worker k) = _
    rw [if_neg (by omega)]
    exact h.worker_out k hk
  · intro u r
    show (worker_update_memory (s.world.worker i) s.world.shm).left u r =
      if u < K ∧ 8 ≤ Function.update s.pc i (s.pc i + 1) u ∧ r < (w.worker u).M then
        (worker_stage w u 9).map_state_curr (r + 1) 1
      else w.shm.left u r
    rw [worker_update_memory_left, hid, ftok_key_of_lt i (lt_of_lt_of_le hi hh.keys), hM, h.left u r, Function.update_apply]
    have h1 := hb u
    by_cases c : u = i
    · subst c
      rw [if_pos rfl, hwk]
      split_ifs <;> first | rfl | (exfalso; omega)
    · rw [if_neg c, if_neg (fun q => c q.1)]
  · intro u r
    show (worker_update_memory (s.world.worker i) s.world.shm).right u r =
      if u < K ∧ 8 ≤ Function.update s.pc i (s.pc i + 1) u ∧ r < (w.worker u).M then
        (worker_stage w u 9).map_state_curr (r + 1) (worker_stage w u 9).N
      else w.shm.right u r
    rw [worker_update_memory_right, hid, ftok_key_of_lt i (lt_of_lt_of_le hi hh.keys), hM, h.right u r, Function.update_apply]
    have h1 := hb u
    by_cases c : u = i
    · subst c
      rw [if_pos rfl, hwk]
      split_ifs <;> first | rfl | (exfalso; omega)
    · rw [if_neg c, if_neg (fun q => c q.1)]

/-- The step `read_map` of worker `i`: the buffers it reads still hold what
    they held when the broadcast began. -/
theorem data_step_read (K : Nat) (w : World) (s : Sys) (i : Nat)
    (h : DataInv K w s) (hh : HandshakeInv K s) (hi : i < K) (hp : s.pc i = 0) :
    worker_read_map (s.world.worker i) s.world.shm = worker_stage w i 1 := by
  have hl := hh.wleft i hi
  have hr := hh.wright i hi
  have e0 : s.world.worker i = w.worker i := by
    rw [h.worker_in i hi, hp]
    rfl
  have hpl : ¬ 8 ≤ s.pc (ring_left K i) := by
    have h1 := hh.right_eq (ring_left K i) (ring_left_lt K i hi)
    rw [ring_right_left K i hi, hp] at h1
    split_ifs at h1 <;> omega
  have hpr : ¬ 8 ≤ s.pc (ring_right K i) := by
    have h1 := hh.left_eq (ring_right K i) (ring_right_lt K i hi)
    rw [ring_left_right K i hi, hp] at h1
    split_ifs at h1 <;> omega
  rw [worker_stage_early w i 1 (by decide) (by decide), e0]
  rw [e0] at hl hr
  apply worker_read_map_congr
  · funext r
    show s.world.shm.right (ftok_key (w.worker i).id_collab_left) r =
      w.shm.right (ftok_key (w.worker i).id_collab_left) r
    rw [hl, ftok_key_of_lt _ (lt_of_lt_of_le (ring_left_lt K i hi) hh.keys), h.right,
      if_neg (fun q => hpl q.2.1)]
  · funext r
    show s.world.shm.left (ftok_key (w.worker i).id_collab_right) r =
      w.shm.left (ftok_key (w.worker i).id_collab_right) r
    rw [hr, ftok_key_of_lt _ (lt_of_lt_of_le (ring_right_lt K i hi) hh.keys), h.left,
      if_neg (fun q => hpr q.2.1)]

/-- Every step of every worker keeps the data at the stage its progress
    tells. -/
theorem data_step (K : Nat) (w : World) (s : Sys) (i : Nat) (h : DataInv K w s)
    (hh : HandshakeInv K s) : DataInv K w (sys_step (generation_prog K) s i) := by
  by_cases hi : i < K
  swap
  · rw [sys_step_done _ s i (generation_prog_out K i _ hi)]
    exact h
  apply generation_step_cases K s i hi (hh.pc_le i) (fun t => DataInv K w t)
  · intro hp
    exact data_step_put K w s i 0 _ h hi hp (by decide) (data_step_read K w s i h hh hi hp)
  · intro hp
    exact data_step_same K w s _ i 1 h hi hp (by decide)
      (by rw [worker_stage_early w i 2 (by decide) (by decide),
        worker_stage_early w i 1 (by decide) (by decide)]) rfl rfl
  · intro hp
    exact data_step_same K w s _ i 2 h hi hp (by decide)
      (by rw [worker_stage_early w i 3 (by decide) (by decide),
        worker_stage_early w i 2 (by decide) (by decide)]) rfl rfl
  · intro hp
    exact data_step_put K w s i 3 _ h hi hp (by decide)
      (by rw [h.worker_in i hi, hp, worker_stage_early w i 3 (by decide) (by decide)]; rfl)
  · intro hp
    exact data_step_put K w s i 4 _ h hi hp (by decide)
      (by rw [h.worker_in i hi, hp, worker_stage_late w i 5 (by decide)]; rfl)
  · intro hp _
    exact data_step_same K w s _ i 5 h hi hp (by decide)
      (by rw [worker_stage_late w i 6 (by decide), worker_stage_late w i 5 (by decide)])
      rfl rfl
  · intro hp _
    exact data_step_same K w s _ i 6 h hi hp (by decide)
      (by rw [worker_stage_late w i 7 (by decide), worker_stage_late w i 6 (by decide)])
      rfl rfl
  · intro hp
    exact data_step_publish K w s i h hh hi hp
  · intro hp
    exact data_step_same K w s _ i 8 h hi hp (by decide)
      (by rw [worker_stage_late w i 9 (by decide), worker_stage_late w i 8 (by decide)])
      rfl rfl
  · intro _
    exact h

theorem data_start (K : Nat) (w : World) : DataInv K w (sys_start w) :=
  ⟨rfl, fun _ _ => rfl, fun _ _ => rfl,
    fun u r => (if_neg (fun q : u < K ∧ 8 ≤ 0 ∧ r < (w.worker u).M =>
      absurd q.2.1 (by decide))).symm,
    fun u r => (if_neg (fun q : u < K ∧ 8 ≤ 0 ∧ r < (w.worker u).M =>
      absurd q.2.1 (by decide))).symm⟩

theorem data_run (K : Nat) (w : World) (sched : List Nat) (s : Sys) (h : DataInv K w s)
    (hh : HandshakeInv K s) : DataInv K w (sys_run (generation_prog K) s sched) := by
  induction sched generalizing s with
  | nil => exact h
  | cons i rest ih => exact ih _ (data_step K w s i h hh) (handshake_step K s i hh)

/-! ## Complete runs of a generation broadcast -/

theorem remaining_succ (K : Nat) (pc : Nat → Nat) :
    remaining (K + 1) pc = remaining K pc + (9 - pc K) := by
  simp [remaining, List.range_succ]

theorem remaining_update_out (K : Nat) (pc : Nat → Nat) (i v : Nat) (hi : K ≤ i) :
    remaining K (Function.update pc i v) = remaining K pc := by
  induction K with
  | zero => rfl
  | succ K ih =>
    rw [remaining_succ, remaining_succ, ih (by omega), Function.update_apply,
      if_neg (by omega)]

theorem remaining_update (K : Nat) (pc : Nat → Nat) (i : Nat) (hi : i < K) (hp : pc i < 9) :
    remaining K (Function.update pc i (pc i + 1)) + 1 = remaining K pc := by
  induction K with
  | zero => omega
  | succ K ih =>
    rw [remaining_succ, remaining_succ, Function.update_apply]
    by_cases c : K = i
    · subst c
      rw [if_pos rfl, remaining_update_out K pc K _ (le_refl _)]
      omega
    · rw [if_neg c]
      have := ih (by omega)
      omega

theorem remaining_pos (K : Nat) (pc : Nat → Nat) (h : 0 < remaining K pc) :
    ∃ i, i < K ∧ pc i ≠ 9 := by
  induction K with
  | zero => exact absurd h (Nat.lt_irrefl _)
  | succ K ih =>
    rw [remaining_succ] at h
    by_cases c : pc K = 9
    · obtain ⟨i, hi, hp⟩ := ih (by omega)
      exact ⟨i, by omega, hp⟩
    · exact ⟨K, by omega, c⟩

theorem remaining_zero (K : Nat) (pc : Nat → Nat) (h : remaining K pc = 0) (i : Nat)
    (hi : i < K) : 9 ≤ pc i := by
  induction K with
  | zero => omega
  | succ K ih =>
    rw [remaining_succ] at h
    by_cases c : i = K
    · subst c; omega
    · exact ih (by omega) (by omega)

theorem semset_pc (w : Worker) (s : Sys) (k v : Nat) : (semset w s k v).pc = s.pc := by
  cases k with
  | zero => rfl
  | succ k =>
    cases k with
    | zero => rfl
    | succ k =>
      cases k with
      | zero => rfl
      | succ k => rfl

theorem worker_act_pc (s t : Sys) (i : Nat) (a : Action) (h : worker_act s i a = some t) :
    t.pc = s.pc := by
  cases a with
  | sem_down k =>
    have h2 : (if semval (s.world.worker i) s k = 0 then none
        else some (semset (s.world.worker i) s k (semval (s.world.worker i) s k - 1))) =
        some t := h
    split_ifs at h2
    cases h2
    exact semset_pc _ s k _
  | sem_up k =>
    cases h
    exact semset_pc _ s k _
  | read_map => cases h; rfl
  | wrap_rows => cases h; rfl
  | apply_rule => cases h; rfl
  | publish => cases h; rfl
  | set_cell x y v => cases h; rfl
  | set_border k r v => cases h; rfl
  | clear_all => cases h; rfl
  | is_ready => cases h; rfl

theorem sys_step_pc (prog : Nat → List Action) (s : Sys) (i : Nat) :
    (sys_step prog s i).pc = s.pc ∨
    (sys_step prog s i).pc = Function.update s.pc i (s.pc i + 1) := by
  cases hg : (prog i).get? (s.pc i) with
  | none => rw [sys_step_done prog s i hg]; exact Or.inl rfl
  | some a =>
    cases ha : worker_act s i a with
    | none => rw [sys_step_blocked prog s i a hg ha]; exact Or.inl rfl
    | some t =>
      rw [sys_step_taken prog s i a t hg ha]
      right
      show Function.update t.pc i (s.pc i + 1) = _
      rw [worker_act_pc s t i a ha]

/-- From every state of a generation broadcast some schedule lets every
    worker finish. -/
theorem exists_complete_run (K : Nat) (n : Nat) (s : Sys) (h : HandshakeInv K s)
    (hn : remaining K s.pc = n) :
    ∃ sched, ∀ i, i < K → (sys_run (generation_prog K) s sched).acks i = 1 := by
  induction n generalizing s with
  | zero =>
    refine ⟨[], fun i hi => ?_⟩
    show s.acks i = 1
    have h9 := remaining_zero K s.pc hn i hi
    have hle := h.pc_le i
    rw [h.acks_eq i, if_pos (by omega)]
  | succ n ih =>
    obtain ⟨i, hi, hstep⟩ := handshake_progress K s h (remaining_pos K s.pc (by omega))
    have hpc : (sys_step (generation_prog K) s i).pc = Function.update s.pc i (s.pc i + 1) := by
      rcases sys_step_pc (generation_prog K) s i with q | q
      · rw [q] at hstep; omega
      · exact q
    have hlt : s.pc i < 9 := by
      have := (handshake_step K s i h).pc_le i
      omega
    have hrem := remaining_update K s.pc i hi hlt
    obtain ⟨sched, hs⟩ := ih (sys_step (generation_prog K) s i) (handshake_step K s i h)
      (by rw [hpc]; omega)
    exact ⟨i :: sched, hs⟩

/-- Every interleaving of the `K` runs of `worker_start()` that lets every
    worker finish ends in the state that `server_next_generation` computes. -/
theorem generation_interleaving {M N K : Nat} (w : World) (hL : Layout M N K w)
    (hk : K ≤ 256) (sched : List Nat) (hall : ∀ i, i < K → (generation_state K w sched).acks i = 1) :
    (generation_state K w sched).world = server_next_generation w := by
  have hh : HandshakeInv K (generation_state K w sched) :=
    handshake_run K sched _ (handshake_start w hL hk)
  have hd : DataInv K w (generation_state K w sched) :=
    data_run K w sched _ (data_start K w) (handshake_start w hL hk)
  have hpc : ∀ i, i < K → (generation_state K w sched).pc i = 9 :=
    fun i hi => handshake_pc_of_ack K _ hh i (hall i hi)
  have e1 : (generation_state K w sched).world.worker = (server_next_generation w).worker := by
    funext k
    by_cases hk : k < K
    · rw [hd.worker_in k hk, hpc k hk, worker_stage_late w k 9 (by decide),
        server_next_worker w k (by rw [hL.hK]; exact hk)]
    · rw [hd.worker_out k (by omega)]
      show w.worker k = if k < w.K then _ else w.worker k
      rw [if_neg (by rw [hL.hK]; exact hk)]
  have e2 : (generation_state K w sched).world.shm = (server_next_generation w).shm := by
    apply Shm.eq_of
    · funext u r
      rw [hd.left u r, server_next_left w hL hk u r]
      by_cases hu : u < K
      · rw [hpc u hu, hL.wM u hu, worker_stage_late w u 9 (by decide),
          server_next_worker w u (by rw [hL.hK]; exact hu)]
        by_cases hr : r < M
        · rw [if_pos ⟨hu, by decide, hr⟩, if_pos ⟨hu, hr⟩]
        · rw [if_neg (fun q => hr q.2.2), if_neg (fun q => hr q.2)]
      · rw [if_neg (fun q => hu q.1), if_neg (fun q => hu q.1)]
    · funext u r
      rw [hd.right u r, server_next_right w hL hk u r]
      by_cases hu : u < K
      · rw [hpc u hu, hL.wM u hu, worker_stage_late w u 9 (by decide),
          server_next_worker w u (by rw [hL.hK]; exact hu)]
        by_cases hr : r < M
        · rw [if_pos ⟨hu, by decide, hr⟩, if_pos ⟨hu, hr⟩]
        · rw [if_neg (fun q => hr q.2.2), if_neg (fun q => hr q.2)]
      · rw [if_neg (fun q => hu q.1), if_neg (fun q => hu q.1)]
  calc (generation_state K w sched).world
      = { w with worker := (generation_state K w sched).world.worker,
                 shm := (generation_state K w sched).world.shm } := hd.fields
    _ = { w with worker := (server_next_generation w).worker,
                 shm := (server_next_generation w).shm } := by rw [e1, e2]
    _ = server_next_generation w := rfl

/-- A step of worker `i` leaves the boundary buffers of every other worker as
    they are. -/
theorem handshake_writes_own (K : Nat) (s : Sys) (h : HandshakeInv K s) (i u : Nat)
    (hu : u ≠ i) :
    (sys_step (generation_prog K) s i).world.shm.left u = s.world.shm.left u ∧
    (sys_step (generation_prog K) s i).world.shm.right u = s.world.shm.right u := by
  by_cases hi : i < K
  swap
  · rw [sys_step_done _ s i (generation_prog_out K i _ hi)]
    exact ⟨rfl, rfl⟩
  apply generation_step_cases K s i hi (h.pc_le i)
    (fun t => t.world.shm.left u = s.world.shm.left u ∧
      t.world.shm.right u = s.world.shm.right u)
  · intro _; exact ⟨rfl, rfl⟩
  · intro _; exact ⟨rfl, rfl⟩
  · intro _; exact ⟨rfl, rfl⟩
  · intro _; exact ⟨rfl, rfl⟩
  · intro _; exact ⟨rfl, rfl⟩
  · intro _ _; exact ⟨rfl, rfl⟩
  · intro _ _; exact ⟨rfl, rfl⟩
  · intro _
    have hid := h.wid i hi
    constructor
    · funext r
      show (worker_update_memory (s.world.worker i) s.world.shm).left u r = _
      rw [worker_update_memory_left, hid, ftok_key_of_lt i (lt_of_lt_of_le hi h.keys), if_neg (fun q => hu q.1)]
    · funext r
      show (worker_update_memory (s.world.worker i) s.world.shm).right u r = _
      rw [worker_update_memory_right, hid, ftok_key_of_lt i (lt_of_lt_of_le hi h.keys), if_neg (fun q => hu q.1)]
  · intro _; exact ⟨rfl, rfl⟩
  · intro _; exact ⟨rfl, rfl⟩

/-- What the handshake guarantees during one generation broadcast with at
    most 256 workers, when every command is received inside `message`: for every
    layout and every interleaving `sched` of the steps of the workers, starting
    with every semaphore at 0.  In the state reached: no semaphore exceeds 1; a
    step that raises the semaphore of `right j` (of `left j`) is taken by the
    worker that reads that buffer, the right (left) neighbour of `j`, after its
    step `read_map`, when its ghost columns already hold what it read; a step
    of worker `i` changes no buffer but those of `i`, and if it changes one it
    is the step `publish`, taken when both readers, the left and the right
    neighbour of `i`, have completed their `read_map` and their releases in
    this generation; and when all `K` workers have acknowledged, every
    semaphore is 0 again.  With 257 workers none of this holds
    (`shared_keys_break_handshake`). -/
theorem handshake_safety {M N K : Nat} (w : World) (hL : Layout M N K w) (hk : K ≤ 256)
    (sched : List Nat) :
    (∀ j, (generation_state K w sched).sem_left j ≤ 1 ∧
      (generation_state K w sched).sem_right j ≤ 1) ∧
    (∀ i j,
      ((generation_state K w sched).sem_right j <
          (sys_step (generation_prog K) (generation_state K w sched) i).sem_right j →
        i < K ∧ j < K ∧ i = ring_right K j ∧ (generation_state K w sched).pc i = 1 ∧
        (generation_state K w sched).world.worker i = worker_read_map (w.worker i) w.shm) ∧
      ((generation_state K w sched).sem_left j <
          (sys_step (generation_prog K) (generation_state K w sched) i).sem_left j →
        i < K ∧ j < K ∧ i = ring_left K j ∧ (generation_state K w sched).pc i = 2 ∧
        (generation_state K w sched).world.worker i = worker_read_map (w.worker i) w.shm)) ∧
    (∀ i, (sys_step (generation_prog K) (generation_state K w sched) i).world.shm ≠
        (generation_state K w sched).world.shm →
      i < K ∧ (generation_state K w sched).pc i = 7 ∧
      3 ≤ (generation_state K w sched).pc (ring_left K i) ∧
      2 ≤ (generation_state K w sched).pc (ring_right K i)) ∧
    (∀ i u, u ≠ i →
      (sys_step (generation_prog K) (generation_state K w sched) i).world.shm.left u =
        (generation_state K w sched).world.shm.left u ∧
      (sys_step (generation_prog K) (generation_state K w sched) i).world.shm.right u =
        (generation_state K w sched).world.shm.right u) ∧
    ((∀ i, i < K → (generation_state K w sched).acks i = 1) →
      ∀ j, (generation_state K w sched).sem_left j = 0 ∧
        (generation_state K w sched).sem_right j = 0) := by
  have hh : HandshakeInv K (generation_state K w sched) :=
    handshake_run K sched _ (handshake_start w hL hk)
  have hd : DataInv K w (generation_state K w sched) :=
    data_run K w sched _ (data_start K w) (handshake_start w hL hk)
  refine ⟨handshake_counters K _ hh, ?_, ?_, fun i u hu => handshake_writes_own K _ hh i u hu,
    handshake_quiescent K _ hh⟩
  · intro i j
    obtain ⟨h1, h2⟩ := handshake_release K _ hh i j
    constructor
    · intro q
      obtain ⟨a, b, c, d⟩ := h1 q
      refine ⟨a, b, c, d, ?_⟩
      rw [hd.worker_in i a, d, worker_stage_early w i 1 (by decide) (by decide)]
    · intro q
      obtain ⟨a, b, c, d⟩ := h2 q
      refine ⟨a, b, c, d, ?_⟩
      rw [hd.worker_in i a, d, worker_stage_early w i 2 (by decide) (by decide)]
  · intro i q
    obtain ⟨a, b⟩ := handshake_writes K _ hh i q
    obtain ⟨c, d⟩ := handshake_publish K _ hh i a b
    exact ⟨a, b, c, d⟩

theorem handshake_safety_witness :
    Layout 1 2 2 (server_init 1 2 2) ∧
    (∀ i, i < 2 → (generation_state 2 (server_init 1 2 2)
      [0, 0, 0, 0, 0, 0, 1, 1, 1, 1, 1, 1, 1, 1, 1, 0, 0, 0, 0]).acks i = 1) ∧
    ∀ j, (generation_state 2 (server_init 1 2 2)
        [0, 0, 0, 0, 0, 0, 1, 1, 1, 1, 1, 1, 1, 1, 1, 0, 0, 0, 0]).sem_left j = 0 ∧
      (generation_state 2 (server_init 1 2 2)
        [0, 0, 0, 0, 0, 0, 1, 1, 1, 1, 1, 1, 1, 1, 1, 0, 0, 0, 0]).sem_right j = 0 :=
  ⟨layout_init 1 2 2 (by decide) (by decide) (by decide) (by decide), by decide,
   (handshake_safety (server_init 1 2 2)
     (layout_init 1 2 2 (by decide) (by decide) (by decide) (by decide)) (by decide)
     [0, 0, 0, 0, 0, 0, 1, 1, 1, 1, 1, 1, 1, 1, 1, 0, 0, 0, 0]).2.2.2.2 (by decide)⟩

/-- C15 (code defect).  The keys of the segments and semaphores are
    `ftok(path, i)`, which keeps the low 8 bits of `i`.  `./life-client 1 514 257`
    starts 257 workers of width 2, and the workers 0 and 256 have the same keys.
    With all counters at 0, after worker 0 and worker 1 have each taken their
    `read_map` and their `sem_up(0)`, the counter of `right 0` is 2.  After
    `add 1 1`, the `sem_up(0)` of worker 0 raises the semaphore of its own right
    buffer while its reader, worker 1, has not taken a step; and in the
    interleaving in which worker 0 takes five steps, worker 255 three and
    worker 0 three more, worker 0 has overwritten its right buffer (from `'.'`
    to `'*'`) while neither reader of its buffers, worker 1 and worker 256, has
    taken its `read_map`.  Before that, the receive of `O_START` itself leaves
    `message` (the defect of C4). -/
theorem shared_keys_break_handshake :
    client_check_partition 514 257 = 257 ∧ server_init_width 514 257 = 2 ∧
    Layout 1 514 257 (server_init 1 514 257) ∧
    (server_add (server_init 1 514 257) 1 1 true).reply = Reply.ok ∧
    ftok_key 256 = ftok_key 0 ∧
    ring_left 257 0 = 256 ∧ ring_right 257 0 = 1 ∧ ring_right 257 255 = 256 ∧
    (generation_state 257 (server_init 1 514 257) [0, 0, 1, 1]).sem_right 0 = 2 ∧
    (semval (keys_demo.worker 0) (generation_state 257 keys_demo [0, 0]) 2 = 1 ∧
      (generation_state 257 keys_demo [0, 0]).pc 1 = 0) ∧
    ((generation_state 257 keys_demo [0, 0, 0, 0, 0, 255, 255, 255, 0, 0, 0]).pc 0 = 8 ∧
      (generation_state 257 keys_demo [0, 0, 0, 0, 0, 255, 255, 255, 0, 0, 0]).pc 1 = 0 ∧
      (generation_state 257 keys_demo [0, 0, 0, 0, 0, 255, 255, 255, 0, 0, 0]).pc 256 = 0 ∧
      shmad (keys_demo.worker 0) keys_demo.shm 2 0 = '.' ∧
      shmad (keys_demo.worker 0)
        (generation_state 257 keys_demo
          [0, 0, 0, 0, 0, 255, 255, 255, 0, 0, 0]).world.shm 2 0 = '*') ∧
    (∀ w i, worker_main_pass w i WorkerOp.start = none) := by
  set_option maxRecDepth 100000 in
  refine ⟨by decide, by decide,
    layout_init 1 514 257 (by decide) (by decide) (by decide) (by decide), by decide,
    by decide, by decide, by decide, by decide, by decide, ⟨by decide, by decide⟩,
    ⟨by decide, by decide, by decide, by decide, by decide⟩,
    fun w i => worker_main_pass_none w i WorkerOp.start⟩

/-! ## Adding and deleting a cell, step by step -/

theorem worker_run_cons (i : Nat) (a : Action) (rest : List Action) (s t : Sys)
    (h : worker_act s i a = some t) :
    worker_run i (a :: rest) s = worker_run i rest t := by
  show (worker_act s i a).bind (worker_run i rest) = _
  rw [h]
  rfl

theorem worker_run_set_cell (i : Nat) (x y : Nat) (v : Char) (rest : List Action) (s : Sys) :
    worker_run i (Action.set_cell x y v :: rest) s =
      worker_run i rest { s with
        world := s.world.put i ({ (s.world.worker i) with
          map_state_curr := set2 (s.world.worker i).map_state_curr x y v }, s.world.shm) } :=
  worker_run_cons i _ rest s _ rfl

theorem worker_run_set_border (i : Nat) (k r : Nat) (v : Char) (rest : List Action) (s : Sys) :
    worker_run i (Action.set_border k r v :: rest) s =
      worker_run i rest { s with
        world := s.world.put i
          (s.world.worker i, shmad_set (s.world.worker i) s.world.shm k r v) } :=
  worker_run_cons i _ rest s _ rfl

theorem worker_run_is_ready (i : Nat) (s : Sys) :
    worker_run i [Action.is_ready] s =
      some { s with acks := Function.update s.acks i (s.acks i + 1) } := rfl

/-- Run from beginning to end, the steps of `worker_add` and `worker_del` are
    the function `worker_set`; they never block and change no semaphore. -/
theorem worker_run_set (i x y : Nat) (v : Char) (s : Sys) :
    worker_run i (worker_set_actions (s.world.worker i).N x y v) s =
      some { s with
        world := s.world.put i (worker_set (s.world.worker i) s.world.shm x y v),
        acks := Function.update s.acks i (s.acks i + 1) } := by
  unfold worker_set_actions worker_set
  by_cases h1 : y = 1
  · by_cases h2 : y = (s.world.worker i).N
    · rw [if_pos h1, if_pos h2]
      show worker_run i (Action.set_cell x y v :: Action.set_border 1 (x - 1) v ::
        Action.set_border 2 (x - 1) v :: [Action.is_ready]) s = _
      rw [worker_run_set_cell, worker_run_set_border, worker_run_set_border,
        worker_run_is_ready]
      simp only [World.put_put, World.put_worker_self, if_pos h1, if_pos h2]
      rfl
    · rw [if_pos h1, if_neg h2]
      show worker_run i (Action.set_cell x y v :: Action.set_border 1 (x - 1) v ::
        [Action.is_ready]) s = _
      rw [worker_run_set_cell, worker_run_set_border, worker_run_is_ready]
      simp only [World.put_put, World.put_worker_self, if_pos h1, if_neg h2]
      rfl
  · by_cases h2 : y = (s.world.worker i).N
    · rw [if_neg h1, if_pos h2]
      show worker_run i (Action.set_cell x y v :: Action.set_border 2 (x - 1) v ::
        [Action.is_ready]) s = _
      rw [worker_run_set_cell, worker_run_set_border, worker_run_is_ready]
      simp only [World.put_put, World.put_worker_self, if_neg h1, if_pos h2]
      rfl
    · rw [if_neg h1, if_neg h2]
      show worker_run i (Action.set_cell x y v :: [Action.is_ready]) s = _
      rw [worker_run_set_cell, worker_run_is_ready]
      simp only [if_neg h1, if_neg h2]

theorem worker_run_sem_down_blocked (i k : Nat) (rest : List Action) (s : Sys)
    (h : semval (s.world.worker i) s k = 0) :
    worker_run i (Action.sem_down k :: rest) s = none := by
  show (if semval (s.world.worker i) s k = 0 then none else _).bind (worker_run i rest) = none
  rw [if_pos h]
  rfl

end PLife
